import Mathlib

/-! Genetic-algorithm TSP solver: `Chromosome` and `Deme`.

A shallow embedding of `src/chromosome.cc`, `src/deme.cc` and `src/src/deme.cc`.

* A tour (`order_`, a `std::vector<unsigned>`) is a `List Nat`.
* A random generator is the stream of the values its distribution hands out.
* Undefined behaviour, failed assertions and thrown exceptions are `Fault`s.
* The one unbounded loop (`while (a == b)` in `two_random_cities`) takes fuel.
-/

namespace TSP

/-- Ways in which a run of the C++ code stops without a result. -/
inductive Fault where
  /-- an `assert(...)` does not hold -/
  | assert_failed
  /-- a vector is read or written outside `[0, size())`, or `end()` is dereferenced or erased -/
  | out_of_bounds
  /-- the `std::logic_error` thrown by `select_parent` of `src/src/deme.cc` -/
  | logic_error
  /-- the redraw loop of `two_random_cities` is still running when the fuel is used up -/
  | out_of_fuel
  deriving DecidableEq, Repr

deriving instance DecidableEq for Except

/-- The stream of values a generator will hand out through its distribution. -/
abbrev Gen (α : Type) := Nat → α

/-- The generator after one draw. -/
def Gen.advance {α : Type} (g : Gen α) : Gen α := fun i => g (i + 1)

/-- The generator after `k` draws. -/
def Gen.skip {α : Type} (g : Gen α) (k : Nat) : Gen α := fun i => g (i + k)

/-- A `Chromosome`: the tour `order_` and its private `generator_`
(`cities_ptr_` is shared by all chromosomes and only feeds the distance). -/
structure Chromosome where
  order_ : List Nat
  generator_ : Gen Nat

/-- `Chromosome::is_valid`, on the tour.  `std::max_element` of an empty vector is
`end()`, whose dereference is undefined. -/
def is_valid (order_ : List Nat) : Except Fault Bool :=
  let length := order_.length
  match order_ with
  | [] => .error .out_of_bounds
  | x :: xs =>
    let highest := xs.foldl max x
    if highest > length then .ok false
    else .ok ((List.range length).all (fun i => order_.count i == 1))

/-- An `assert(c->is_valid())`. -/
def assert_valid (order_ : List Nat) : Except Fault Unit :=
  match is_valid order_ with
  | .error f => .error f
  | .ok false => .error .assert_failed
  | .ok true => .ok ()

/-- The loop of `Chromosome::is_in_range`: `k` iterations are left, the index is `i`. -/
def is_in_range_loop (order_ : List Nat) (value : Nat) : Nat → Nat → Except Fault Bool
  | 0, _ => .ok false
  | k + 1, i =>
    match order_[i]? with
    | none => .error .out_of_bounds
    | some c => if value = c then .ok true else is_in_range_loop order_ value k (i + 1)

/-- `Chromosome::is_in_range`: does `value` occur at a position of `[begin, end)`?
The loop `for (i = begin; i < end; i++)` runs `end - begin` times (none if `end <= begin`). -/
def is_in_range (order_ : List Nat) (value begin_ end_ : Nat) : Except Fault Bool :=
  is_in_range_loop order_ value (end_ - begin_) begin_

/-- The loop `while (p1->is_in_range(p2->order_[j], b, e)) ++j;` of
`create_crossover_child`: the first argument is what is left of `p2->order_` from
index `j` on; reading past its end is undefined. -/
def skip_in_range (p1 : List Nat) (b e : Nat) : List Nat → Nat → Except Fault Nat
  | [], _ => .error .out_of_bounds
  | c :: rest, j =>
    match is_in_range p1 c b e with
    | .error f => .error f
    | .ok true => skip_in_range p1 b e rest (j + 1)
    | .ok false => .ok j

/-- The `for` loop of `create_crossover_child`: `k = p1->order_.size() - i` iterations
are left at most, and the loop also stops once `j` reaches `p2->order_.size()`. -/
def crossover_loop (p1 p2 : List Nat) (b e : Nat) :
    Nat → Nat → Nat → List Nat → Except Fault (List Nat)
  | 0, _, _, child => .ok child
  | k + 1, i, j, child =>
    if j < p2.length then
      if b ≤ i ∧ i < e then
        match p1[i]? with
        | none => .error .out_of_bounds
        | some c => crossover_loop p1 p2 b e k (i + 1) j (child.set i c)
      else
        match skip_in_range p1 b e (p2.drop j) j with
        | .error f => .error f
        | .ok j1 =>
          match p2[j1]? with
          | none => .error .assert_failed
          | some c => crossover_loop p1 p2 b e k (i + 1) (j1 + 1) (child.set i c)
    else .ok child

/-- Modelled from the spec: `Chromosome::clone` is declared in `chromosome.hh`, which is
not among the sources; a child is a new, independently owned copy of the parent. -/
def Chromosome.clone (c : Chromosome) : Chromosome := c

/-- `Chromosome::create_crossover_child`, with its final `assert(child->is_valid())`. -/
def create_crossover_child (p1 p2 : Chromosome) (b e : Nat) : Except Fault Chromosome :=
  let child := p1.clone
  match crossover_loop p1.order_ p2.order_ b e p1.order_.length 0 0 child.order_ with
  | .error f => .error f
  | .ok order1 =>
    match assert_valid order1 with
    | .error f => .error f
    | .ok _ => .ok { child with order_ := order1 }

/-- The loop `while (a == b) { b = gen(generator_); }` of `two_random_cities`. -/
def redraw (a : Nat) : Nat → Nat → Gen Nat → Except Fault ((Nat × Nat) × Gen Nat)
  | 0, _, _ => .error .out_of_fuel
  | fuel + 1, b, g =>
    if a = b then redraw a fuel (g 0) g.advance else .ok ((a, b), g)

/-- `Chromosome::two_random_cities`: two draws, the second repeated until it differs.
The result carries the generator as the draws leave it. -/
def two_random_cities (fuel : Nat) (g : Gen Nat) : Except Fault ((Nat × Nat) × Gen Nat) :=
  let a := g 0
  let b := g 1
  redraw a fuel b (g.skip 2)

/-- `std::iter_swap(order_.begin() + p, order_.begin() + q)`. -/
def iter_swap (order_ : List Nat) (p q : Nat) : Except Fault (List Nat) :=
  match order_[p]?, order_[q]? with
  | some x, some y => .ok ((order_.set p y).set q x)
  | _, _ => .error .out_of_bounds

/-- `Chromosome::mutate`. -/
def mutate (fuel : Nat) (c : Chromosome) : Except Fault Chromosome :=
  match two_random_cities fuel c.generator_ with
  | .error f => .error f
  | .ok (unique_cities, g) =>
    match iter_swap c.order_ unique_cities.1 unique_cities.2 with
    | .error f => .error f
    | .ok order1 =>
      match assert_valid order1 with
      | .error f => .error f
      | .ok _ => .ok { order_ := order1, generator_ := g }

/-- `Chromosome::recombine`.  The draw advances the generator of `this`, and the
first child is cloned from `this` after the draw. -/
def recombine (fuel : Nat) (this other : Chromosome) :
    Except Fault (Chromosome × Chromosome) :=
  match assert_valid this.order_ with
  | .error f => .error f
  | .ok _ =>
    match assert_valid other.order_ with
    | .error f => .error f
    | .ok _ =>
      match two_random_cities fuel this.generator_ with
      | .error f => .error f
      | .ok (range, g) =>
        let this1 : Chromosome := { this with generator_ := g }
        match create_crossover_child this1 other range.1 range.2 with
        | .error f => .error f
        | .ok first =>
          match create_crossover_child other this1 range.1 range.2 with
          | .error f => .error f
          | .ok second => .ok (first, second)

/-- What a tour `order_` has to be: a permutation of `[0, n)`. -/
def IsTour (n : Nat) (order_ : List Nat) : Prop := List.Perm order_ (List.range n)

instance (n : Nat) (order_ : List Nat) : Decidable (IsTour n order_) :=
  inferInstanceAs (Decidable (List.Perm order_ (List.range n)))

/-- The cities of `p1` at the positions `[b, e)` (none when `e <= b`). -/
def window (p1 : List Nat) (b e : Nat) : List Nat := (p1.drop b).take (e - b)

/-- The cities of `p2` that are not in the window, in the order of `p2`. -/
def others (p1 p2 : List Nat) (b e : Nat) : List Nat :=
  p2.filter (fun c => c ∉ window p1 b e)

/-- Ordered crossover as the specification words it: the child carries `p1`'s cities
at the positions `[b, e)`; the other positions are filled, left to right, with `p2`'s
cities in `p2`'s order, skipping the cities already placed from the window. -/
def ox_child (p1 p2 : List Nat) (b e : Nat) : List Nat :=
  (others p1 p2 b e).take b ++ window p1 b e ++ (others p1 p2 b e).drop b

/-- How many positions below `i` lie outside the window `[b, e)`. -/
def outside_below (b e i : Nat) : Nat := min i b + (i - (b + (e - b)))

/-! ### `double` arithmetic of `get_fitness`

Every finite IEEE-754 binary64 value is a whole number of units of `2^-1074`; a finite
non-negative `double` is represented by that number of units. -/

/-- The value `1.0`, in units of `2^-1074`. -/
def dbl_one : Nat := 1 <<< 1074

/-- `std::numeric_limits<double>::max()`, that is `(2^53 - 1) * 2^971`, in units. -/
def DBL_MAX : Nat := (2 ^ 53 - 1) <<< (971 + 1074)

/-- How many low bits of `x` do not fit into a significand of 53 bits. -/
def excess_bits : Nat → Nat → Nat
  | 0, _ => 0
  | fuel + 1, x => if x < 2 ^ 53 then 0 else excess_bits fuel (x / 2) + 1

/-- Round an exact non-negative value to binary64, to nearest, ties to even: the
result keeps the 53 leading bits of `x` (values below `2^53` units are exact).  A
finite `double` is below `2^2098` units, so 2098 halvings are enough. -/
def round_to_double (x : Nat) : Nat :=
  let quantum := 1 <<< excess_bits 2098 x
  let m := x / quantum
  let rest := x % quantum
  if quantum < 2 * rest ∨ (2 * rest = quantum ∧ m % 2 = 1) then (m + 1) * quantum
  else m * quantum

/-- `Chromosome::get_fitness` as a function of the `double` that
`calculate_total_distance()` returns (finite, non-negative, at most `DBL_MAX`):
the binary64 difference `DBL_MAX - distance`. -/
def get_fitness (total_distance : Nat) : Nat :=
  round_to_double (DBL_MAX - total_distance)

/-! ### The `Deme`

The type `α` stands for `double`.  The definitions use its `0`, `1`, `+`, `-` and `<`
and nothing else, so whatever is proved about them holds for any arithmetic. -/

/-- What a `Deme` uses and does not define. -/
structure Env (α : Type) where
  /-- `Chromosome::get_fitness()` of a tour; the distance comes from `Cities` -/
  get_fitness : List Nat → α
  /-- `std::nextafter(x, DBL_MAX)` -/
  nextafter : α → α
  /-- the value `std::uniform_real_distribution<double>(lo, hi)` makes of one output
  of the generator -/
  uniform : α → α → α → α

/-- The members of a `Deme` of `src/deme.cc`.  The chromosomes `pop_` points to are
distinct objects, so a `Chromosome*` of `pop_` is identified with its slot. -/
structure Deme (α : Type) where
  pop_ : List Chromosome
  mut_rate_ : α
  generator_ : Gen α

/-- The members of a `Deme` of `src/src/deme.cc`, which caches `fitness_sum_`. -/
structure SrcDeme (α : Type) where
  pop_ : List Chromosome
  mut_rate_ : α
  generator_ : Gen α
  fitness_sum_ : α

section deme
variable {α : Type} [Zero α] [One α] [Add α] [Sub α] [LT α]
  [DecidableRel (LT.lt : α → α → Prop)]

/-- The loop `for (chrom : pop_) { sum += chrom->get_fitness(); }` from `sum`. -/
def sum_fitness (E : Env α) (sum : α) (pop : List Chromosome) : α :=
  pop.foldl (fun s chrom => s + E.get_fitness chrom.order_) sum

/-- The walk of `select_parent` over the rest of `pop_`, slot `i` first, with the
running sum `psum`: the slot of the chromosome returned, or `none` at the end. -/
def roulette_walk (E : Env α) (r : α) : List Chromosome → α → Nat → Option Nat
  | [], _, _ => none
  | chrom :: rest, psum, i =>
    let psum1 := psum + E.get_fitness chrom.order_
    if r < psum1 then some i else roulette_walk E r rest psum1 (i + 1)

/-- The draw `r` of `select_parent` in `src/deme.cc`. -/
def Deme.draw (E : Env α) (d : Deme α) : α :=
  E.uniform 0 (E.nextafter (sum_fitness E 0 d.pop_)) (d.generator_ 0)

/-- `Deme::select_parent` of `src/deme.cc`: the slot selected, or `none` for the
`nullptr` of its last line, and the deme with its generator advanced. -/
def Deme.select_parent (E : Env α) (d : Deme α) : Option Nat × Deme α :=
  (roulette_walk E (d.draw E) d.pop_ 0 0, { d with generator_ := d.generator_.advance })

/-- One round of the inner loop of `compute_next_generation` in `src/deme.cc`:
`select_parent`, `std::find`, `erase`.  For a `nullptr`, `std::find` returns `end()`,
which `erase` must not be given. -/
def Deme.take_parent (E : Env α) (d : Deme α) : Except Fault (Chromosome × Deme α) :=
  match d.select_parent E with
  | (none, _) => .error .out_of_bounds
  | (some i, d1) =>
    match d1.pop_[i]? with
    | none => .error .out_of_bounds
    | some parent => .ok (parent, { d1 with pop_ := d1.pop_.eraseIdx i })

/-- The loop "Get pairs of parents" of `src/deme.cc`, `k` pairs to go. -/
def Deme.select_pairs (E : Env α) :
    Nat → Deme α → Except Fault (List (Chromosome × Chromosome) × Deme α)
  | 0, d => .ok ([], d)
  | k + 1, d =>
    match d.take_parent E with
    | .error f => .error f
    | .ok (first, d1) =>
      match d1.take_parent E with
      | .error f => .error f
      | .ok (second, d2) =>
        match Deme.select_pairs E k d2 with
        | .error f => .error f
        | .ok (pairs, d3) => .ok ((first, second) :: pairs, d3)

/-- A `chrom->mutate()` that happens when the draw `r` is below `mut_rate_`. -/
def mutate_if (fuel : Nat) (r mut_rate : α) (chrom : Chromosome) : Except Fault Chromosome :=
  if r < mut_rate then mutate fuel chrom else .ok chrom

/-- The loop "Randomly mutate parents based on mut_rate_": two draws from the
generator of the deme for each pair, the first for `pair.first`. -/
def mutate_pairs (E : Env α) (fuel : Nat) (mut_rate : α) :
    List (Chromosome × Chromosome) → Gen α →
      Except Fault (List (Chromosome × Chromosome) × Gen α)
  | [], g => .ok ([], g)
  | (first, second) :: rest, g =>
    let r1 := E.uniform 0 (E.nextafter 1) (g 0)
    let r2 := E.uniform 0 (E.nextafter 1) (g 1)
    match mutate_if fuel r1 mut_rate first with
    | .error f => .error f
    | .ok first1 =>
      match mutate_if fuel r2 mut_rate second with
      | .error f => .error f
      | .ok second1 =>
        match mutate_pairs E fuel mut_rate rest (g.skip 2) with
        | .error f => .error f
        | .ok (pairs, g1) => .ok ((first1, second1) :: pairs, g1)

/-- The loop "Generate new children and create new pop_", after `clean_pop()`. -/
def recombine_pairs (fuel : Nat) :
    List (Chromosome × Chromosome) → Except Fault (List Chromosome)
  | [] => .ok []
  | (first, second) :: rest =>
    match recombine fuel first second with
    | .error f => .error f
    | .ok child_pair =>
      match recombine_pairs fuel rest with
      | .error f => .error f
      | .ok pop => .ok (child_pair.1 :: child_pair.2 :: pop)

/-- `Deme::compute_next_generation` of `src/deme.cc`. -/
def Deme.compute_next_generation (E : Env α) (fuel : Nat) (d : Deme α) :
    Except Fault (Deme α) :=
  let pop_size := d.pop_.length
  match Deme.select_pairs E (pop_size / 2) d with
  | .error f => .error f
  | .ok (parent_pairs, d1) =>
    match mutate_pairs E fuel d1.mut_rate_ parent_pairs d1.generator_ with
    | .error f => .error f
    | .ok (parent_pairs1, g) =>
      match recombine_pairs fuel parent_pairs1 with
      | .error f => .error f
      | .ok pop => .ok { d1 with pop_ := pop, generator_ := g }

/-- The draw `r` of `select_parent` in `src/src/deme.cc`, from the cached total. -/
def SrcDeme.draw (E : Env α) (d : SrcDeme α) : α :=
  E.uniform 0 (E.nextafter d.fitness_sum_) (d.generator_ 0)

/-- `Deme::select_parent` of `src/src/deme.cc`: the slot selected, or the
`std::logic_error` it throws at the end of the walk. -/
def SrcDeme.select_parent (E : Env α) (d : SrcDeme α) : Except Fault (Nat × SrcDeme α) :=
  match roulette_walk E (d.draw E) d.pop_ 0 0 with
  | none => .error .logic_error
  | some i => .ok (i, { d with generator_ := d.generator_.advance })

/-- One round of the inner loop of `compute_next_generation` in `src/src/deme.cc`:
`select_parent`, `std::find`, `erase`, and the update of `fitness_sum_`. -/
def SrcDeme.take_parent (E : Env α) (d : SrcDeme α) :
    Except Fault (Chromosome × SrcDeme α) :=
  match d.select_parent E with
  | .error f => .error f
  | .ok (i, d1) =>
    match d1.pop_[i]? with
    | none => .error .out_of_bounds
    | some parent =>
      .ok (parent, { d1 with pop_ := d1.pop_.eraseIdx i,
                             fitness_sum_ := d1.fitness_sum_ - E.get_fitness parent.order_ })

/-- The loop "Get pairs of parents" of `src/src/deme.cc`, `k` pairs to go. -/
def SrcDeme.select_pairs (E : Env α) :
    Nat → SrcDeme α → Except Fault (List (Chromosome × Chromosome) × SrcDeme α)
  | 0, d => .ok ([], d)
  | k + 1, d =>
    match d.take_parent E with
    | .error f => .error f
    | .ok (first, d1) =>
      match d1.take_parent E with
      | .error f => .error f
      | .ok (second, d2) =>
        match SrcDeme.select_pairs E k d2 with
        | .error f => .error f
        | .ok (pairs, d3) => .ok ((first, second) :: pairs, d3)

/-- `Deme::compute_next_generation` of `src/src/deme.cc`. -/
def SrcDeme.compute_next_generation (E : Env α) (fuel : Nat) (d : SrcDeme α) :
    Except Fault (SrcDeme α) :=
  let pop_size := d.pop_.length
  let d0 := { d with fitness_sum_ := sum_fitness E 0 d.pop_ }
  match SrcDeme.select_pairs E (pop_size / 2) d0 with
  | .error f => .error f
  | .ok (parent_pairs, d1) =>
    match mutate_pairs E fuel d1.mut_rate_ parent_pairs d1.generator_ with
    | .error f => .error f
    | .ok (parent_pairs1, g) =>
      match recombine_pairs fuel parent_pairs1 with
      | .error f => .error f
      | .ok pop => .ok { d1 with pop_ := pop, generator_ := g }

end deme

/-! ### Concrete tours, used to run the definitions -/

/-- The tour `0 1 2 3 4`; its generator hands out `3, 1, 3, 1, ...`. -/
def tour_up : Chromosome := { order_ := [0, 1, 2, 3, 4], generator_ := fun i => 3 - 2 * (i % 2) }

/-- The tour `4 3 2 1 0`; its generator hands out `0, 0, 0, 1, 1, 1, 2, ...` below 5. -/
def tour_down : Chromosome := { order_ := [4, 3, 2, 1, 0], generator_ := fun i => (i / 3) % 5 }

/-- A chromosome that `mutate` and `recombine` can work on: a tour of `[0, n)` whose
generator hands out positions below `n` and never repeats one value for ever. -/
def Ready (n : Nat) (c : Chromosome) : Prop :=
  IsTour n c.order_ ∧ (∀ i, c.generator_ i < n) ∧
    ∀ i, ∃ k, 0 < k ∧ c.generator_ (i + k) ≠ c.generator_ i

/-- An environment over the integers: the fitness of a tour is its first city plus one,
`nextafter` adds one, and the distribution hands the generator output through. -/
def env_int : Env Int :=
  { get_fitness := fun order_ => (order_.headD 0 : Int) + 1
    nextafter := fun x => x + 1
    uniform := fun _ _ u => u }

/-- Three chromosomes of fitness 1, 5 and 1; every draw of the deme is `r`. -/
def deme_int (r : Int) : Deme Int :=
  { pop_ := [tour_up, tour_down, tour_up], mut_rate_ := 1, generator_ := fun _ => r }

/-- The same deme with the member `fitness_sum_` of `src/src/deme.cc`. -/
def src_deme_int (r : Int) : SrcDeme Int :=
  { pop_ := [tour_up, tour_down, tour_up], mut_rate_ := 1, generator_ := fun _ => r,
    fitness_sum_ := 7 }

/-! ### Definitions for the later claims -/

/-- The calls of the skip loop that the `for` loop of `create_crossover_child` makes,
in order: the `j` each call starts from and what it returns.  The recursion is that of
`crossover_loop`. -/
def crossover_skips (p1 p2 : List Nat) (b e : Nat) :
    Nat → Nat → Nat → List (Nat × Except Fault Nat)
  | 0, _, _ => []
  | k + 1, i, j =>
    if j < p2.length then
      if b ≤ i ∧ i < e then crossover_skips p1 p2 b e k (i + 1) j
      else
        match skip_in_range p1 b e (p2.drop j) j with
        | .error f => [(j, .error f)]
        | .ok j1 =>
          match p2[j1]? with
          | none => [(j, .ok j1)]
          | some _ => (j, .ok j1) :: crossover_skips p1 p2 b e k (i + 1) (j1 + 1)
    else []

section deme_later
variable {α : Type} [Zero α] [One α] [Add α] [Sub α] [LT α]
  [DecidableRel (LT.lt : α → α → Prop)]

/-- The loop of `Deme::get_best` over the rest of `pop_`, slot `i` first: `best` is the
slot `best_chrom` points to, `none` while `best_chrom` is not yet assigned. -/
def get_best_loop (total_distance : List Nat → α) :
    List Chromosome → Nat → α → Option Nat → Option Nat
  | [], _, _, best => best
  | chrom :: rest, i, min_dist, best =>
    let dist := total_distance chrom.order_
    if dist < min_dist then get_best_loop total_distance rest (i + 1) dist (some i)
    else get_best_loop total_distance rest (i + 1) min_dist best

/-- `Deme::get_best`, the same in `src/deme.cc` and `src/src/deme.cc`, on `pop_`:
`total_distance` is `calculate_total_distance()` as a function of the tour and
`dbl_max` is `DBL_MAX`.  The result `none` is the unassigned pointer. -/
def get_best (total_distance : List Nat → α) (dbl_max : α) (pop_ : List Chromosome) :
    Option Nat :=
  get_best_loop total_distance pop_ 0 dbl_max none

/-- The demes on which `select_parent` is called by the loop "Get pairs of parents" of
`src/deme.cc`, in order, `k` pairs to go.  The recursion is that of `select_pairs`. -/
def Deme.select_calls (E : Env α) : Nat → Deme α → List (Deme α)
  | 0, _ => []
  | k + 1, d =>
    d :: match d.take_parent E with
      | .error _ => []
      | .ok (_, d1) =>
        d1 :: match d1.take_parent E with
          | .error _ => []
          | .ok (_, d2) => Deme.select_calls E k d2

/-- The demes on which `select_parent` is called by the loop "Get pairs of parents" of
`src/src/deme.cc`, in order, `k` pairs to go. -/
def SrcDeme.select_calls (E : Env α) : Nat → SrcDeme α → List (SrcDeme α)
  | 0, _ => []
  | k + 1, d =>
    d :: match d.take_parent E with
      | .error _ => []
      | .ok (_, d1) =>
        d1 :: match d1.take_parent E with
          | .error _ => []
          | .ok (_, d2) => SrcDeme.select_calls E k d2

/-- The members that a deme of `src/src/deme.cc` shares with one of `src/deme.cc`. -/
def SrcDeme.toDeme (d : SrcDeme α) : Deme α :=
  { pop_ := d.pop_, mut_rate_ := d.mut_rate_, generator_ := d.generator_ }

/-- The deme of `src/src/deme.cc` as `compute_next_generation` has it before the first
selection: `fitness_sum_` is the sum over `pop_`. -/
def SrcDeme.start (E : Env α) (d : SrcDeme α) : SrcDeme α :=
  { d with fitness_sum_ := sum_fitness E 0 d.pop_ }

/-- The parents of the pairs in the order of their selection. -/
def parents_of (pairs : List (Chromosome × Chromosome)) : List Chromosome :=
  pairs.flatMap (fun p => [p.1, p.2])

end deme_later

/-- A distance over the integers: the first city of the tour. -/
def distance_int (order_ : List Nat) : Int := (order_.headD 0 : Int)

/-- What `compute_next_generation` of `src/src/deme.cc` makes of `src_deme_int 0` with
fuel 5: slot 0 and then the former slot 1 are selected, both parents are mutated
(`0 3 2 1 4` and `3 4 2 1 0`), and the inverted draw `(3, 1)` of `recombine` hands them
back exchanged. -/
def next_src_deme_int : SrcDeme Int :=
  { pop_ := [{ order_ := [3, 4, 2, 1, 0], generator_ := (tour_up.generator_.skip 2).skip 2 },
             { order_ := [0, 3, 2, 1, 4],
               generator_ := ((tour_down.generator_.skip 2).advance).advance }],
    mut_rate_ := 1, generator_ := fun _ => 0, fitness_sum_ := 1 }

/-! ## Facts about `is_valid` -/

theorem foldl_max_ge (xs : List Nat) (x : Nat) : x ≤ xs.foldl max x := by
  induction xs generalizing x with
  | nil => simp
  | cons y ys ih => exact le_trans (le_max_left x y) (ih (max x y))

theorem foldl_max_le (xs : List Nat) (x m : Nat) (hx : x ≤ m) (h : ∀ y ∈ xs, y ≤ m) :
    xs.foldl max x ≤ m := by
  induction xs generalizing x with
  | nil => simpa using hx
  | cons y ys ih =>
    simp only [List.foldl_cons]
    exact ih (max x y) (max_le hx (h y (by simp))) (fun z hz => h z (by simp [hz]))

theorem perm_range_of_count (l : List Nat) (h : ∀ i, i < l.length → l.count i = 1) :
    List.Perm l (List.range l.length) := by
  have hsub : List.Subperm (List.range l.length) l := by
    apply List.subperm_of_subset (List.nodup_range _)
    intro i hi
    have hi1 : i < l.length := List.mem_range.mp hi
    have hc := h i hi1
    exact List.count_pos_iff.mp (by omega)
  exact (hsub.perm_of_length_le (by simp)).symm

theorem is_valid_of_tour (n : Nat) (l : List Nat) (hn : 0 < n) (h : IsTour n l) :
    is_valid l = .ok true := by
  have hlen : l.length = n := by simpa using h.length_eq
  have hlt : ∀ y ∈ l, y < n := fun y hy => List.mem_range.mp (h.subset hy)
  cases l with
  | nil => simp at hlen; omega
  | cons x xs =>
    have hmax : xs.foldl max x ≤ (x :: xs).length := by
      apply foldl_max_le
      · rw [hlen]; exact le_of_lt (hlt x (by simp))
      · intro y hy; rw [hlen]; exact le_of_lt (hlt y (by simp [hy]))
    have hcount : ∀ i, i < (x :: xs).length → (x :: xs).count i = 1 := by
      intro i hi
      rw [h.count_eq]
      exact List.count_eq_one_of_mem (List.nodup_range _) (List.mem_range.mpr (hlen ▸ hi))
    unfold is_valid
    simp only [gt_iff_lt, not_lt.mpr hmax, if_false]
    congr 1
    rw [List.all_eq_true]
    intro i hi
    simpa using hcount i (List.mem_range.mp hi)

theorem tour_of_is_valid (l : List Nat) (h : is_valid l = .ok true) : IsTour l.length l := by
  cases l with
  | nil => simp [is_valid] at h
  | cons x xs =>
    unfold is_valid at h
    simp only [gt_iff_lt] at h
    split at h
    · simp at h
    · have h2 : (List.range (x :: xs).length).all (fun i => (x :: xs).count i == 1) = true := by
        injection h
      rw [List.all_eq_true] at h2
      apply perm_range_of_count
      intro i hi
      simpa using h2 i (List.mem_range.mpr hi)

theorem assert_valid_of_tour (n : Nat) (l : List Nat) (hn : 0 < n) (h : IsTour n l) :
    assert_valid l = .ok () := by
  simp [assert_valid, is_valid_of_tour n l hn h]

/-! ## Facts about `is_in_range` and the skip loop -/

theorem is_in_range_loop_eq (l : List Nat) (v : Nat) :
    ∀ k i, i + k ≤ l.length →
      is_in_range_loop l v k i = .ok (decide (v ∈ (l.drop i).take k)) := by
  intro k
  induction k with
  | zero => intro i _; simp [is_in_range_loop]
  | succ k ih =>
    intro i h
    have hi : i < l.length := by omega
    unfold is_in_range_loop
    rw [List.getElem?_eq_getElem hi, List.drop_eq_getElem_cons hi, List.take_succ_cons]
    by_cases hv : v = l[i]
    · simp [hv]
    · simp [hv, ih (i + 1) (by omega)]

theorem is_in_range_eq (l : List Nat) (v b e : Nat) (hb : b ≤ l.length) (he : e ≤ l.length) :
    is_in_range l v b e = .ok (decide (v ∈ (l.drop b).take (e - b))) :=
  is_in_range_loop_eq l v (e - b) b (by omega)

/-- The skip loop stops at the first city that is not in the window. -/
theorem skip_in_range_eq (p1 : List Nat) (b e : Nat) (hb : b ≤ p1.length) (he : e ≤ p1.length)
    (pre post : List Nat) (c j : Nat)
    (hpre : ∀ x ∈ pre, x ∈ (p1.drop b).take (e - b)) (hc : c ∉ (p1.drop b).take (e - b)) :
    skip_in_range p1 b e (pre ++ c :: post) j = .ok (j + pre.length) := by
  induction pre generalizing j with
  | nil => simp [skip_in_range, is_in_range_eq p1 c b e hb he, hc]
  | cons x xs ih =>
    have hx : x ∈ (p1.drop b).take (e - b) := hpre x (by simp)
    rw [List.cons_append]
    simp only [skip_in_range, is_in_range_eq p1 x b e hb he, hx, decide_True]
    rw [ih (j + 1) (fun y hy => hpre y (by simp [hy]))]
    simp only [List.length_cons]
    congr 1
    omega

/-- When no city outside the window is left, the skip loop reads past the end. -/
theorem skip_in_range_runs_off (p1 : List Nat) (b e : Nat) (hb : b ≤ p1.length)
    (he : e ≤ p1.length) (l : List Nat) (j : Nat)
    (hl : ∀ x ∈ l, x ∈ (p1.drop b).take (e - b)) :
    skip_in_range p1 b e l j = .error .out_of_bounds := by
  induction l generalizing j with
  | nil => simp [skip_in_range]
  | cons x xs ih =>
    have hx : x ∈ (p1.drop b).take (e - b) := hl x (by simp)
    simp only [skip_in_range, is_in_range_eq p1 x b e hb he, hx, decide_True]
    exact ih (j + 1) (fun y hy => hl y (by simp [hy]))

/-! ## The window, the other cities and the reference child -/

theorem ox_child_eq (p1 p2 : List Nat) (b e : Nat) :
    ox_child p1 p2 b e
      = (others p1 p2 b e).take b ++ window p1 b e ++ (others p1 p2 b e).drop b := rfl

theorem window_length (p1 : List Nat) (b e : Nat) (hb : b ≤ p1.length) (he : e ≤ p1.length) :
    (window p1 b e).length = e - b := by
  simp only [window, List.length_take, List.length_drop]
  omega

theorem tour_nodup (n : Nat) (l : List Nat) (h : IsTour n l) : l.Nodup :=
  (List.Perm.nodup_iff h).mpr (List.nodup_range n)

theorem tour_length (n : Nat) (l : List Nat) (h : IsTour n l) : l.length = n := by
  simpa using List.Perm.length_eq h

theorem window_nodup (n : Nat) (p1 : List Nat) (h1 : IsTour n p1) (b e : Nat) :
    (window p1 b e).Nodup :=
  ((tour_nodup n p1 h1).sublist
    ((List.take_sublist _ _).trans (List.drop_sublist _ _)))

theorem window_subset (n : Nat) (p1 p2 : List Nat) (h1 : IsTour n p1) (h2 : IsTour n p2)
    (b e x : Nat) (hx : x ∈ window p1 b e) : x ∈ p2 := by
  have hx1 : x ∈ p1 := List.mem_of_mem_drop (List.mem_of_mem_take hx)
  exact (List.Perm.trans h1 (List.Perm.symm h2)).subset hx1

theorem window_perm_filter (n : Nat) (p1 p2 : List Nat) (h1 : IsTour n p1) (h2 : IsTour n p2)
    (b e : Nat) :
    List.Perm (p2.filter (fun c => c ∈ window p1 b e)) (window p1 b e) := by
  rw [List.perm_ext_iff_of_nodup ((tour_nodup n p2 h2).filter _) (window_nodup n p1 h1 b e)]
  intro x
  simp only [List.mem_filter, decide_eq_true_eq]
  exact ⟨fun h => h.2, fun h => ⟨window_subset n p1 p2 h1 h2 b e x h, h⟩⟩

theorem others_eq_filter_not (p1 p2 : List Nat) (b e : Nat) :
    others p1 p2 b e = p2.filter (fun c => !decide (c ∈ window p1 b e)) := by
  unfold others
  congr 1
  funext c
  simp

theorem window_append_others_perm (n : Nat) (p1 p2 : List Nat) (h1 : IsTour n p1)
    (h2 : IsTour n p2) (b e : Nat) :
    List.Perm (window p1 b e ++ others p1 p2 b e) p2 := by
  rw [others_eq_filter_not]
  exact ((window_perm_filter n p1 p2 h1 h2 b e).symm.append_right _).trans
    (List.filter_append_perm _ p2)

theorem others_length (n : Nat) (p1 p2 : List Nat) (h1 : IsTour n p1) (h2 : IsTour n p2)
    (b e : Nat) (hb : b ≤ n) (he : e ≤ n) :
    (others p1 p2 b e).length = n - (e - b) := by
  have h := (window_append_others_perm n p1 p2 h1 h2 b e).length_eq
  rw [List.length_append, tour_length n p2 h2,
    window_length p1 b e (by rw [tour_length n p1 h1]; exact hb)
      (by rw [tour_length n p1 h1]; exact he)] at h
  omega

theorem ox_child_perm (n : Nat) (p1 p2 : List Nat) (h1 : IsTour n p1) (h2 : IsTour n p2)
    (b e : Nat) : IsTour n (ox_child p1 p2 b e) := by
  have h : List.Perm (ox_child p1 p2 b e) (window p1 b e ++ others p1 p2 b e) := by
    rw [ox_child_eq, List.append_assoc]
    refine List.perm_append_comm_assoc _ _ _ |>.trans ?_
    rw [List.take_append_drop]
  exact (h.trans (window_append_others_perm n p1 p2 h1 h2 b e)).trans h2

theorem ox_child_length (n : Nat) (p1 p2 : List Nat) (h1 : IsTour n p1) (h2 : IsTour n p2)
    (b e : Nat) : (ox_child p1 p2 b e).length = n :=
  tour_length n _ (ox_child_perm n p1 p2 h1 h2 b e)

theorem ox_child_get_window (n : Nat) (p1 p2 : List Nat) (h1 : IsTour n p1) (h2 : IsTour n p2)
    (b e i : Nat) (hb : b ≤ n) (he : e ≤ n) (hbi : b ≤ i) (hie : i < e) :
    (ox_child p1 p2 b e)[i]? = p1[i]? := by
  have hO := others_length n p1 p2 h1 h2 b e hb he
  have hl1 := tour_length n p1 h1
  have hW := window_length p1 b e (by omega) (by omega)
  have htake : ((others p1 p2 b e).take b).length = b := by
    rw [List.length_take]; omega
  rw [ox_child_eq, List.getElem?_append_left (by rw [List.length_append, htake, hW]; omega),
    List.getElem?_append_right (by omega), htake]
  unfold window
  rw [List.getElem?_take_of_lt (by omega), List.getElem?_drop]
  congr 1
  omega

theorem ox_child_get_outside (n : Nat) (p1 p2 : List Nat) (h1 : IsTour n p1)
    (h2 : IsTour n p2) (b e i : Nat) (hb : b ≤ n) (he : e ≤ n) (hi : ¬(b ≤ i ∧ i < e)) :
    (ox_child p1 p2 b e)[i]? = (others p1 p2 b e)[outside_below b e i]? := by
  have hO := others_length n p1 p2 h1 h2 b e hb he
  have hl1 := tour_length n p1 h1
  have hW := window_length p1 b e (by omega) (by omega)
  have htake : ((others p1 p2 b e).take b).length = b := by
    rw [List.length_take]; omega
  unfold outside_below
  by_cases hib : i < b
  · rw [ox_child_eq, List.getElem?_append_left (by rw [List.length_append, htake]; omega),
      List.getElem?_append_left (by omega), List.getElem?_take_of_lt hib]
    congr 1
    omega
  · rw [ox_child_eq, List.getElem?_append_right (by rw [List.length_append, htake, hW]; omega),
      List.length_append, htake, hW, List.getElem?_drop]
    congr 1
    omega

theorem set_take_append_drop (t p : List Nat) (i c : Nat) (hlen : t.length = p.length)
    (hi : i < p.length) (hc : t[i]? = some c) :
    (t.take i ++ p.drop i).set i c = t.take (i + 1) ++ p.drop (i + 1) := by
  have h1 : (t.take i).length = i := by rw [List.length_take]; omega
  rw [List.set_append_right _ _ (by omega), h1, Nat.sub_self, List.drop_eq_getElem_cons hi,
    List.set_cons_zero, List.take_succ, hc]
  simp

theorem take_append_drop_of_agree (t p : List Nat) (i : Nat)
    (h : ∀ m, i ≤ m → t[m]? = p[m]?) : t.take i ++ p.drop i = t := by
  have hd : p.drop i = t.drop i := by
    apply List.ext_getElem?
    intro m
    rw [List.getElem?_drop, List.getElem?_drop]
    exact (h (i + m) (by omega)).symm
  rw [hd, List.take_append_drop]

/-- The loop invariant of `create_crossover_child`: before position `i` the child is
the reference child, from `i` on it is still the clone of `p1`, and what is left of `p2`
holds exactly the cities that the positions from `i` on still need. -/
theorem crossover_loop_eq (n : Nat) (p1 p2 : List Nat) (h1 : IsTour n p1) (h2 : IsTour n p2)
    (b e : Nat) (hb : b ≤ n) (he : e ≤ n) :
    ∀ k i j child, i + k = n →
      child = (ox_child p1 p2 b e).take i ++ p1.drop i →
      (p2.drop j).filter (fun c => c ∉ window p1 b e)
        = (others p1 p2 b e).drop (outside_below b e i) →
      crossover_loop p1 p2 b e k i j child = .ok (ox_child p1 p2 b e) := by
  have hl1 := tour_length n p1 h1
  have hl2 := tour_length n p2 h2
  have hlT := ox_child_length n p1 p2 h1 h2 b e
  have hO := others_length n p1 p2 h1 h2 b e hb he
  intro k
  induction k with
  | zero =>
    intro i j child hik hchild _
    have hin : i = n := by omega
    unfold crossover_loop
    rw [hchild, List.drop_eq_nil_of_le (by omega), List.append_nil,
      List.take_of_length_le (by omega)]
  | succ k ih =>
    intro i j child hik hchild hj
    have hi : i < p1.length := by omega
    unfold crossover_loop
    by_cases hjl : j < p2.length
    · rw [if_pos hjl]
      by_cases hwin : b ≤ i ∧ i < e
      · rw [if_pos hwin, List.getElem?_eq_getElem hi]
        simp only
        apply ih (i + 1) j _ (by omega)
        · rw [hchild]
          apply set_take_append_drop _ _ _ _ (by omega) hi
          rw [ox_child_get_window n p1 p2 h1 h2 b e i hb he hwin.1 hwin.2,
            List.getElem?_eq_getElem hi]
        · rw [hj]
          congr 1
          unfold outside_below
          omega
      · rw [if_neg hwin]
        have hlt : outside_below b e i < (others p1 p2 b e).length := by
          unfold outside_below
          omega
        rw [List.drop_eq_getElem_cons hlt] at hj
        obtain ⟨pre, post, hsplit, hpre, hc, hpost⟩ := List.filter_eq_cons_iff.mp hj
        have hpre1 : ∀ x ∈ pre, x ∈ (p1.drop b).take (e - b) := by
          intro x hx
          simpa [window] using hpre x hx
        have hc1 : (others p1 p2 b e)[outside_below b e i]
            ∉ (p1.drop b).take (e - b) := by
          simpa [window] using hc
        rw [hsplit, skip_in_range_eq p1 b e (by omega) (by omega) pre post _ j hpre1 hc1]
        simp only
        have hget : p2[j + pre.length]?
            = some (others p1 p2 b e)[outside_below b e i] := by
          rw [← List.getElem?_drop, hsplit, List.getElem?_append_right (le_refl _),
            Nat.sub_self, List.getElem?_cons_zero]
        rw [hget]
        simp only
        apply ih (i + 1) (j + pre.length + 1) _ (by omega)
        · rw [hchild]
          apply set_take_append_drop _ _ _ _ (by omega) hi
          rw [ox_child_get_outside n p1 p2 h1 h2 b e i hb he hwin,
            List.getElem?_eq_getElem hlt]
        · have hdrop : p2.drop (j + pre.length + 1) = post := by
            rw [Nat.add_assoc, ← List.drop_drop, hsplit]
            simp
          rw [hdrop, hpost]
          congr 1
          unfold outside_below
          omega
    · rw [if_neg hjl]
      rw [List.drop_eq_nil_of_le (by omega), List.filter_nil] at hj
      have hle := List.drop_eq_nil_iff.mp hj.symm
      unfold outside_below at hle
      have hen : e = n := by omega
      have hbi : b ≤ i := by omega
      congr 1
      rw [hchild]
      apply take_append_drop_of_agree
      intro m hm
      by_cases hmn : m < n
      · exact ox_child_get_window n p1 p2 h1 h2 b e m hb he (by omega) (by omega)
      · rw [List.getElem?_eq_none (by omega), List.getElem?_eq_none (by omega)]

/-- On tours, the loop of `create_crossover_child` builds the reference child. -/
theorem crossover_loop_ox (n : Nat) (p1 p2 : List Nat) (h1 : IsTour n p1) (h2 : IsTour n p2)
    (b e : Nat) (hb : b ≤ n) (he : e ≤ n) :
    crossover_loop p1 p2 b e p1.length 0 0 p1 = .ok (ox_child p1 p2 b e) := by
  apply crossover_loop_eq n p1 p2 h1 h2 b e hb he
  · rw [tour_length n p1 h1]; simp
  · simp
  · simp [outside_below, others]

/-- On tours, `create_crossover_child` returns the reference child; the generator is that
of the first parent. -/
theorem create_crossover_child_eq (n : Nat) (p1 p2 : Chromosome) (hn : 0 < n)
    (h1 : IsTour n p1.order_) (h2 : IsTour n p2.order_) (b e : Nat) (hb : b ≤ n) (he : e ≤ n) :
    create_crossover_child p1 p2 b e
      = .ok { order_ := ox_child p1.order_ p2.order_ b e, generator_ := p1.generator_ } := by
  unfold create_crossover_child
  simp only [Chromosome.clone]
  rw [crossover_loop_ox n p1.order_ p2.order_ h1 h2 b e hb he]
  simp only
  rw [assert_valid_of_tour n _ hn (ox_child_perm n p1.order_ p2.order_ h1 h2 b e)]

/-! ## Facts about `iter_swap`, `two_random_cities` and `mutate` -/

theorem cons_set_perm (t : List Nat) (i x a : Nat) (h : t[i]? = some x) :
    List.Perm (x :: t.set i a) (a :: t) := by
  induction t generalizing i with
  | nil => simp at h
  | cons y ys ih =>
    cases i with
    | zero =>
      simp only [List.getElem?_cons_zero, Option.some.injEq] at h
      subst h
      exact List.Perm.swap _ _ _
    | succ i =>
      simp only [List.getElem?_cons_succ] at h
      simp only [List.set_cons_succ]
      exact (List.Perm.swap _ _ _).trans (((ih i h).cons y).trans (List.Perm.swap _ _ _))

theorem set_set_swap_perm (l : List Nat) (p q x y : Nat) (hp : l[p]? = some x)
    (hq : l[q]? = some y) : List.Perm ((l.set p y).set q x) l := by
  induction l generalizing p q with
  | nil => simp at hp
  | cons a t ih =>
    cases p with
    | zero =>
      simp only [List.getElem?_cons_zero, Option.some.injEq] at hp
      subst hp
      cases q with
      | zero =>
        simp only [List.getElem?_cons_zero, Option.some.injEq] at hq
        subst hq
        simp
      | succ q =>
        simp only [List.getElem?_cons_succ] at hq
        simp only [List.set_cons_zero, List.set_cons_succ]
        exact cons_set_perm t q y a hq
    | succ p =>
      simp only [List.getElem?_cons_succ] at hp
      cases q with
      | zero =>
        simp only [List.getElem?_cons_zero, Option.some.injEq] at hq
        subst hq
        simp only [List.set_cons_zero, List.set_cons_succ]
        exact cons_set_perm t p x a hp
      | succ q =>
        simp only [List.getElem?_cons_succ] at hq
        simp only [List.set_cons_succ]
        exact (ih p q hp hq).cons a

theorem iter_swap_ok (l : List Nat) (p q : Nat) (hp : p < l.length) (hq : q < l.length) :
    ∃ l1, iter_swap l p q = .ok l1 ∧ List.Perm l1 l ∧
      l1 = (l.set p (l.getD q 0)).set q (l.getD p 0) := by
  refine ⟨(l.set p (l.getD q 0)).set q (l.getD p 0), ?_, ?_, rfl⟩
  · unfold iter_swap
    simp [List.getElem?_eq_getElem hp, List.getElem?_eq_getElem hq, List.getD_eq_getElem?_getD]
  · apply set_set_swap_perm l p q
    · simp [List.getElem?_eq_getElem hp, List.getD_eq_getElem?_getD]
    · simp [List.getElem?_eq_getElem hq, List.getD_eq_getElem?_getD]

theorem redraw_spec (a : Nat) :
    ∀ (fuel b : Nat) (g : Gen Nat) (r : (Nat × Nat) × Gen Nat),
      redraw a fuel b g = .ok r →
      r.1.1 = a ∧ r.1.2 ≠ a ∧
        ((r.1.2 = b ∧ r.2 = g) ∨
          (b = a ∧ ∃ k, r.1.2 = g k ∧ r.2 = g.skip (k + 1) ∧ ∀ m, m < k → g m = a)) := by
  intro fuel
  induction fuel with
  | zero => intro b g r h; simp [redraw] at h
  | succ fuel ih =>
    intro b g r h
    unfold redraw at h
    by_cases hab : a = b
    · rw [if_pos hab] at h
      obtain ⟨h1, h2, h3⟩ := ih (g 0) g.advance r h
      refine ⟨h1, h2, Or.inr ⟨hab.symm, ?_⟩⟩
      rcases h3 with ⟨h4, h5⟩ | ⟨h4, k, h5, h6, h7⟩
      · refine ⟨0, h4, ?_, ?_⟩
        · rw [h5]; rfl
        · intro m hm; omega
      · refine ⟨k + 1, ?_, ?_, ?_⟩
        · rw [h5]; rfl
        · rw [h6]; funext i; simp only [Gen.skip, Gen.advance]; congr 1
        · intro m hm
          cases m with
          | zero => exact h4
          | succ m => exact h7 m (by omega)
    · rw [if_neg hab] at h
      injection h with h
      subst h
      exact ⟨rfl, fun h => hab h.symm, Or.inl ⟨rfl, rfl⟩⟩

/-- What `two_random_cities` returns when it returns: the first draw, and the first
later draw that differs from it. -/
theorem two_random_cities_spec (fuel : Nat) (g : Gen Nat) (r : (Nat × Nat) × Gen Nat)
    (h : two_random_cities fuel g = .ok r) :
    r.1.1 = g 0 ∧ r.1.2 ≠ r.1.1 ∧
      ∃ k, 0 < k ∧ r.1.2 = g k ∧ r.2 = g.skip (k + 1) ∧ ∀ m, 0 < m → m < k → g m = g 0 := by
  unfold two_random_cities at h
  obtain ⟨h1, h2, h3⟩ := redraw_spec (g 0) fuel (g 1) (g.skip 2) r h
  refine ⟨h1, by rw [h1]; exact h2, ?_⟩
  rcases h3 with ⟨h4, h5⟩ | ⟨h4, k, h5, h6, h7⟩
  · refine ⟨1, by omega, h4, ?_, ?_⟩
    · rw [h5]
    · intro m hm1 hm2; omega
  · refine ⟨k + 2, by omega, ?_, ?_, ?_⟩
    · rw [h5]; rfl
    · rw [h6]; funext i; simp only [Gen.skip]; congr 1
    · intro m hm1 hm2
      by_cases hm : m = 1
      · rw [hm]; exact h4
      · have := h7 (m - 2) (by omega)
        simp only [Gen.skip] at this
        rw [show m - 2 + 2 = m by omega] at this
        exact this

theorem two_random_cities_range (n fuel : Nat) (g : Gen Nat) (r : (Nat × Nat) × Gen Nat)
    (hg : ∀ i, g i < n) (h : two_random_cities fuel g = .ok r) : r.1.1 < n ∧ r.1.2 < n := by
  obtain ⟨h1, _, k, _, h3, _, _⟩ := two_random_cities_spec fuel g r h
  exact ⟨by rw [h1]; exact hg 0, by rw [h3]; exact hg k⟩

/-- With a pair of positions drawn, `mutate` swaps the two cities and its assertion holds. -/
theorem mutate_eq (n fuel : Nat) (c : Chromosome) (hn : 0 < n) (h : IsTour n c.order_)
    (r : (Nat × Nat) × Gen Nat) (hdraw : two_random_cities fuel c.generator_ = .ok r)
    (hp : r.1.1 < n) (hq : r.1.2 < n) :
    ∃ l1, mutate fuel c = .ok { order_ := l1, generator_ := r.2 } ∧ IsTour n l1 ∧
      l1 = (c.order_.set r.1.1 (c.order_.getD r.1.2 0)).set r.1.2 (c.order_.getD r.1.1 0) := by
  have hl := tour_length n c.order_ h
  obtain ⟨l1, h1, h2, h3⟩ := iter_swap_ok c.order_ r.1.1 r.1.2 (by omega) (by omega)
  have ht : IsTour n l1 := List.Perm.trans h2 h
  refine ⟨l1, ?_, ht, h3⟩
  unfold mutate
  rw [hdraw]
  simp only
  rw [h1]
  simp only
  rw [assert_valid_of_tour n l1 hn ht]

theorem is_valid_total (l : List Nat) (h : l ≠ []) : ∃ r, is_valid l = .ok r := by
  cases l with
  | nil => exact absurd rfl h
  | cons x xs =>
    unfold is_valid
    simp only
    split
    · exact ⟨false, rfl⟩
    · exact ⟨_, rfl⟩

theorem tour_iff_count (n : Nat) (l : List Nat) (hl : l.length = n) :
    IsTour n l ↔ (∀ v, v < n → l.count v = 1) ∧ ∀ v ∈ l, v < n := by
  constructor
  · intro h
    refine ⟨fun v hv => ?_, fun v hv => List.mem_range.mp (h.subset hv)⟩
    rw [List.Perm.count_eq h]
    exact List.count_eq_one_of_mem (List.nodup_range _) (List.mem_range.mpr hv)
  · intro h
    have := perm_range_of_count l (fun i hi => h.1 i (hl ▸ hi))
    rwa [hl] at this

theorem ox_child_outside (n : Nat) (p1 p2 : List Nat) (h1 : IsTour n p1) (h2 : IsTour n p2)
    (b e : Nat) (hbe : b ≤ e) (he : e ≤ n) :
    (ox_child p1 p2 b e).take b ++ (ox_child p1 p2 b e).drop e = others p1 p2 b e := by
  have hO := others_length n p1 p2 h1 h2 b e (by omega) he
  have hl1 := tour_length n p1 h1
  have hW := window_length p1 b e (by omega) (by omega)
  have htake : ((others p1 p2 b e).take b).length = b := by
    rw [List.length_take]; omega
  have hlen : ((others p1 p2 b e).take b ++ window p1 b e).length = e := by
    rw [List.length_append, htake, hW]; omega
  have h3 : (ox_child p1 p2 b e).take b = (others p1 p2 b e).take b := by
    unfold ox_child
    rw [List.append_assoc, List.take_append_of_le_length (by omega), List.take_take]
    simp
  have h4 : (ox_child p1 p2 b e).drop e = (others p1 p2 b e).drop b := by
    unfold ox_child
    rw [List.drop_append_eq_append_drop, List.drop_eq_nil_of_le (by omega), hlen]
    simp
  rw [h3, h4, List.take_append_drop]

/-! ## Claims on `Chromosome` -/

/-- C1. Permutation closure of crossover: for `n >= 2`, tours `p1`, `p2` of `[0, n)` and
any two positions `b`, `e` in `[0, n]`, in either order, both
`create_crossover_child(p1, p2, b, e)` and `create_crossover_child(p2, p1, b, e)` return,
and each child is a permutation of `[0, n)`: every city below `n` occurs exactly once. -/
theorem crossover_children_are_tours (n : Nat) (p1 p2 : Chromosome) (b e : Nat)
    (hn : 2 ≤ n) (h1 : IsTour n p1.order_) (h2 : IsTour n p2.order_)
    (hb : b ≤ n) (he : e ≤ n) :
    ∃ c1 c2, create_crossover_child p1 p2 b e = .ok c1 ∧
      create_crossover_child p2 p1 b e = .ok c2 ∧
      IsTour n c1.order_ ∧ IsTour n c2.order_ ∧
      ∀ v, v < n → c1.order_.count v = 1 ∧ c2.order_.count v = 1 := by
  have t1 := ox_child_perm n p1.order_ p2.order_ h1 h2 b e
  have t2 := ox_child_perm n p2.order_ p1.order_ h2 h1 b e
  refine ⟨_, _, create_crossover_child_eq n p1 p2 (by omega) h1 h2 b e hb he,
    create_crossover_child_eq n p2 p1 (by omega) h2 h1 b e hb he, t1, t2, ?_⟩
  intro v hv
  exact ⟨((tour_iff_count n _ (tour_length n _ t1)).mp t1).1 v hv,
    ((tour_iff_count n _ (tour_length n _ t2)).mp t2).1 v hv⟩

/-- The crossover of `0 1 2 3 4` and `4 3 2 1 0` with the inverted pair `(3, 1)`. -/
theorem crossover_children_are_tours_witness :
    ∃ c1 c2, create_crossover_child tour_up tour_down 3 1 = .ok c1 ∧
      create_crossover_child tour_down tour_up 3 1 = .ok c2 ∧
      IsTour 5 c1.order_ ∧ IsTour 5 c2.order_ ∧
      ∀ v, v < 5 → c1.order_.count v = 1 ∧ c2.order_.count v = 1 :=
  crossover_children_are_tours 5 tour_up tour_down 3 1 (by decide) (by decide) (by decide)
    (by decide) (by decide)

/-- C2. Crossover window preservation: for tours `p1`, `p2` of `[0, n)` and a window
`0 <= b < e <= n`, `create_crossover_child(p1, p2, b, e)` returns a child of length `n`
with `child[i] == p1[i]` at every position `i` of `[b, e)`, whether or not the fill loop
got as far as `i`. -/
theorem crossover_window_preserved (n : Nat) (p1 p2 : Chromosome) (b e : Nat)
    (h1 : IsTour n p1.order_) (h2 : IsTour n p2.order_) (hbe : b < e) (he : e ≤ n) :
    ∃ c, create_crossover_child p1 p2 b e = .ok c ∧ c.order_.length = n ∧
      ∀ i, b ≤ i → i < e → c.order_[i]? = p1.order_[i]? ∧ c.order_[i]? ≠ none := by
  refine ⟨_, create_crossover_child_eq n p1 p2 (by omega) h1 h2 b e (by omega) he,
    ox_child_length n _ _ h1 h2 b e, ?_⟩
  intro i hbi hie
  have hget := ox_child_get_window n p1.order_ p2.order_ h1 h2 b e i (by omega) he hbi hie
  refine ⟨hget, ?_⟩
  simp only [hget]
  rw [List.getElem?_eq_getElem (by rw [tour_length n _ h1]; omega)]
  simp

/-- The window `[3, 5)` reaches the end of the tour: parent 2 is used up at position 3. -/
theorem crossover_window_preserved_witness :
    ∃ c, create_crossover_child tour_up tour_down 3 5 = .ok c ∧ c.order_.length = 5 ∧
      ∀ i, 3 ≤ i → i < 5 → c.order_[i]? = tour_up.order_[i]? ∧ c.order_[i]? ≠ none :=
  crossover_window_preserved 5 tour_up tour_down 3 5 (by decide) (by decide) (by decide)
    (by decide)

/-- C3. Crossover fill order: for tours `p1`, `p2` of `[0, n)` and `0 <= b <= e <= n`, the
fill loop of `create_crossover_child` ends with the reference child `ox_child`; read left
to right, its cities outside `[b, e)` are `p2`'s cities in `p2`'s order without the
cities `p1[b..e)`; and when there is a city at all, `create_crossover_child` returns
that child. -/
theorem crossover_fill_order (n : Nat) (p1 p2 : Chromosome) (b e : Nat)
    (h1 : IsTour n p1.order_) (h2 : IsTour n p2.order_) (hbe : b ≤ e) (he : e ≤ n) :
    crossover_loop p1.order_ p2.order_ b e p1.order_.length 0 0 p1.clone.order_
        = .ok (ox_child p1.order_ p2.order_ b e) ∧
      (ox_child p1.order_ p2.order_ b e).take b ++ (ox_child p1.order_ p2.order_ b e).drop e
        = p2.order_.filter (fun c => c ∉ (p1.order_.drop b).take (e - b)) ∧
      (0 < n → ∃ c, create_crossover_child p1 p2 b e = .ok c ∧
        c.order_ = ox_child p1.order_ p2.order_ b e) :=
  ⟨crossover_loop_ox n p1.order_ p2.order_ h1 h2 b e (by omega) he,
    ox_child_outside n p1.order_ p2.order_ h1 h2 b e hbe he,
    fun hn => ⟨_, create_crossover_child_eq n p1 p2 hn h1 h2 b e (by omega) he, rfl⟩⟩

/-- The window `[1, 3)` of `0 1 2 3 4` filled from `4 3 2 1 0`. -/
theorem crossover_fill_order_witness :
    crossover_loop tour_up.order_ tour_down.order_ 1 3 tour_up.order_.length 0 0
        tour_up.clone.order_
        = .ok (ox_child tour_up.order_ tour_down.order_ 1 3) ∧
      (ox_child tour_up.order_ tour_down.order_ 1 3).take 1
          ++ (ox_child tour_up.order_ tour_down.order_ 1 3).drop 3
        = tour_down.order_.filter (fun c => c ∉ (tour_up.order_.drop 1).take (3 - 1)) ∧
      (0 < 5 → ∃ c, create_crossover_child tour_up tour_down 1 3 = .ok c ∧
        c.order_ = ox_child tour_up.order_ tour_down.order_ 1 3) :=
  crossover_fill_order 5 tour_up tour_down 1 3 (by decide) (by decide) (by decide)
    (by decide)

/-- C4. Window normalisation in `recombine` fails on the code: the generator of
`0 1 2 3 4` hands out the pair `(3, 1)`, and `recombine` returns the other parent's tour
`4 3 2 1 0` as first child and its own tour as second child, whereas the ordered
crossover for the window `[1, 3)` keeps the cities `1 2` at the positions 1 and 2. -/
theorem recombine_inverted_draw :
    (two_random_cities 1 tour_up.generator_).map (fun r => r.1) = .ok (3, 1) ∧
      (recombine 1 tour_up tour_down).map (fun p => (p.1.order_, p.2.order_))
        = .ok ([4, 3, 2, 1, 0], [0, 1, 2, 3, 4]) ∧
      ox_child tour_up.order_ tour_down.order_ 1 3 = [4, 1, 2, 3, 0] ∧
      ox_child tour_down.order_ tour_up.order_ 1 3 = [0, 3, 2, 1, 4] := by
  decide

/-- C5. The validity check is the permutation test: on a non-empty `order_` of length
`n`, `is_valid` returns true exactly when `order_` is a permutation of `[0, n)`, that is
when every value below `n` occurs exactly once and no value is `n` or more, and returns
false otherwise; an `order_` containing `n` itself is rejected. -/
theorem is_valid_iff_permutation (order_ : List Nat) (h : order_ ≠ []) :
    (is_valid order_ = .ok true ↔ IsTour order_.length order_) ∧
      (is_valid order_ = .ok false ↔ ¬ IsTour order_.length order_) ∧
      (IsTour order_.length order_ ↔
        (∀ v, v < order_.length → order_.count v = 1) ∧ ∀ v ∈ order_, v < order_.length) ∧
      (order_.length ∈ order_ → is_valid order_ = .ok false) := by
  have hpos : 0 < order_.length := List.length_pos.mpr h
  have hiff : is_valid order_ = .ok true ↔ IsTour order_.length order_ :=
    ⟨tour_of_is_valid order_, is_valid_of_tour _ order_ hpos⟩
  have hfalse : is_valid order_ = .ok false ↔ ¬ IsTour order_.length order_ := by
    obtain ⟨r, hr⟩ := is_valid_total order_ h
    rw [← hiff, hr]
    cases r <;> simp
  refine ⟨hiff, hfalse, tour_iff_count _ order_ rfl, ?_⟩
  intro hmem
  rw [hfalse]
  intro ht
  exact absurd (List.mem_range.mp (ht.subset hmem)) (lt_irrefl _)

/-- The sequence `0 1 3` holds its own length and is rejected. -/
theorem is_valid_iff_permutation_witness :
    (is_valid [0, 1, 3] = .ok true ↔ IsTour 3 [0, 1, 3]) ∧
      (is_valid [0, 1, 3] = .ok false ↔ ¬ IsTour 3 [0, 1, 3]) ∧
      (IsTour 3 [0, 1, 3] ↔
        (∀ v, v < 3 → [0, 1, 3].count v = 1) ∧ ∀ v ∈ [0, 1, 3], v < 3) ∧
      (3 ∈ [0, 1, 3] → is_valid [0, 1, 3] = .ok false) :=
  is_valid_iff_permutation [0, 1, 3] (by decide)

/-- C6. Permutation closure of mutation: for a tour of `[0, n)`, `n >= 2`, whose
generator hands out positions below `n`, whenever `two_random_cities` returns a pair, the
two positions differ, `mutate` returns (its `assert(is_valid())` holds) and the mutated
tour is again a permutation of `[0, n)`. -/
theorem mutate_keeps_permutation (n fuel : Nat) (c : Chromosome) (r : (Nat × Nat) × Gen Nat)
    (hn : 2 ≤ n) (h : IsTour n c.order_) (hg : ∀ i, c.generator_ i < n)
    (hdraw : two_random_cities fuel c.generator_ = .ok r) :
    r.1.1 ≠ r.1.2 ∧ ∃ c1, mutate fuel c = .ok c1 ∧ IsTour n c1.order_ := by
  obtain ⟨hp, hq⟩ := two_random_cities_range n fuel c.generator_ r hg hdraw
  obtain ⟨l1, h1, h2, _⟩ := mutate_eq n fuel c (by omega) h r hdraw hp hq
  exact ⟨fun heq => (two_random_cities_spec fuel _ r hdraw).2.1 heq.symm, _, h1, h2⟩

/-- The generator of `4 3 2 1 0` hands out `0, 0, 0, 1`: two redraws, then a swap. -/
theorem mutate_keeps_permutation_witness :
    ((0, 1), tour_down.generator_.skip 4).1.1 ≠ ((0, 1), tour_down.generator_.skip 4).1.2 ∧
      ∃ c1, mutate 3 tour_down = .ok c1 ∧ IsTour 5 c1.order_ :=
  mutate_keeps_permutation 5 3 tour_down ((0, 1), tour_down.generator_.skip 4) (by decide)
    (by decide) (fun i => Nat.mod_lt _ (by decide)) rfl

/-! ## `double` arithmetic -/

/-- A value with `53 + s` significant bits has `s` bits too many. -/
theorem excess_bits_eq (s : Nat) :
    ∀ fuel x, s ≤ fuel → 2 ^ 52 * 2 ^ s ≤ x → x < 2 ^ 53 * 2 ^ s → excess_bits fuel x = s := by
  induction s with
  | zero =>
    intro fuel x _ _ h2
    cases fuel with
    | zero => rfl
    | succ fuel =>
      unfold excess_bits
      rw [if_pos (by simpa using h2)]
  | succ s ih =>
    intro fuel x hf h1 h2
    have hs : 1 ≤ 2 ^ s := Nat.one_le_two_pow
    rw [pow_succ] at h1 h2
    cases fuel with
    | zero => omega
    | succ fuel =>
      unfold excess_bits
      rw [if_neg (by omega), ih fuel (x / 2) (by omega) (by omega) (by omega)]

theorem excess_bits_shift (s x : Nat) (hs : s ≤ 2098) (h1 : 1 <<< (52 + s) ≤ x)
    (h2 : x < 1 <<< (53 + s)) : excess_bits 2098 x = s := by
  rw [Nat.one_shiftLeft, pow_add] at h1 h2
  exact excess_bits_eq s 2098 x hs h1 h2

set_option maxRecDepth 100000 in
theorem round_near_dbl_max (x : Nat) (h1 : DBL_MAX - 1 <<< 2044 < x) (h2 : x ≤ DBL_MAX) :
    round_to_double x = DBL_MAX := by
  have hlo : 1 <<< (52 + 2045) ≤ x := by
    have : 1 <<< (52 + 2045) ≤ DBL_MAX - 1 <<< 2044 := by decide
    omega
  have hhi : x < 1 <<< (53 + 2045) := by
    have : DBL_MAX < 1 <<< (53 + 2045) := by decide
    omega
  have hq : (1 : Nat) <<< 2045 = 2 * 1 <<< 2044 := by decide
  have hmax : DBL_MAX = (2 ^ 53 - 1) * (2 * 1 <<< 2044) := by decide
  have hpos : 0 < 1 <<< 2044 := by decide
  unfold round_to_double
  rw [excess_bits_shift 2045 x (by decide) hlo hhi]
  simp only [hq]
  generalize (1 : Nat) <<< 2044 = h at *
  rw [hmax] at h1 h2 ⊢
  have hdm := Nat.div_add_mod x (2 * h)
  have hrest : x % (2 * h) < 2 * h := Nat.mod_lt _ (by omega)
  generalize x / (2 * h) = m at *
  generalize x % (2 * h) = rest at *
  have hm1 : m ≤ 2 ^ 53 - 1 := by
    by_contra hc
    have := Nat.mul_le_mul_left (2 * h) (show 2 ^ 53 - 1 + 1 ≤ m by omega)
    rw [Nat.mul_succ] at this
    rw [Nat.mul_comm (2 ^ 53 - 1) (2 * h)] at h2
    omega
  have hm2 : 2 ^ 53 - 2 ≤ m := by
    by_contra hc
    have := Nat.mul_le_mul_left (2 * h) (show m + 1 ≤ 2 ^ 53 - 2 by omega)
    rw [Nat.mul_succ] at this
    rw [Nat.mul_comm (2 ^ 53 - 1) (2 * h)] at h1
    omega
  rcases Nat.lt_or_ge m (2 ^ 53 - 1) with hlt | hge
  · have hm : m = 2 ^ 53 - 2 := by omega
    subst hm
    rw [Nat.mul_comm (2 ^ 53 - 1) (2 * h)] at h1
    rw [if_pos (Or.inl (by omega))]
    omega
  · have hm : m = 2 ^ 53 - 1 := by omega
    subst hm
    rw [Nat.mul_comm (2 ^ 53 - 1) (2 * h)] at h2
    have hr0 : rest = 0 := by omega
    subst hr0
    rw [if_neg (by omega)]

/-- Any total distance below `2^970` is lost in the subtraction: the fitness is
`DBL_MAX` itself. -/
theorem get_fitness_saturates (total_distance : Nat) (h : total_distance < 1 <<< 2044) :
    get_fitness total_distance = DBL_MAX := by
  have hbig : 1 <<< 2044 ≤ DBL_MAX := by decide
  exact round_near_dbl_max _ (by omega) (by omega)

/-! ## Claims on `get_fitness` -/

/-- C7. Fitness monotonicity fails on the code: of two tours over the cities
`(0,0), (3,0), (3,4), (0,4)` one is `14.0` long and one `16.0`; both lengths are
`double`s, the first is strictly smaller, and `get_fitness` is `DBL_MAX` for both, so the
shorter tour is not strictly fitter. -/
theorem get_fitness_not_strictly_decreasing :
    round_to_double (14 * dbl_one) = 14 * dbl_one ∧
      round_to_double (16 * dbl_one) = 16 * dbl_one ∧
      14 * dbl_one < 16 * dbl_one ∧
      get_fitness (14 * dbl_one) = DBL_MAX ∧ get_fitness (16 * dbl_one) = DBL_MAX ∧
      ¬ get_fitness (16 * dbl_one) < get_fitness (14 * dbl_one) := by
  have h14 : 14 * dbl_one < 1 <<< 2044 := by decide
  have h16 : 16 * dbl_one < 1 <<< 2044 := by decide
  refine ⟨?_, ?_, by decide, get_fitness_saturates _ h14, get_fitness_saturates _ h16, ?_⟩
  · unfold round_to_double
    rw [excess_bits_shift 1025 _ (by decide) (by decide) (by decide)]
    decide
  · unfold round_to_double
    rw [excess_bits_shift 1026 _ (by decide) (by decide) (by decide)]
    decide
  · rw [get_fitness_saturates _ h14, get_fitness_saturates _ h16]
    exact lt_irrefl _

/-! ## Facts about the roulette wheel -/

theorem sum_fitness_cons {α : Type} [Add α] (E : Env α) (psum : α) (c : Chromosome) (pop : List Chromosome) :
    sum_fitness E psum (c :: pop) = sum_fitness E (psum + E.get_fitness c.order_) pop := rfl

/-- When the walk returns slot `i`, the running sum first exceeds `r` at slot `i`. -/
theorem roulette_walk_some {α : Type} [Add α] [LT α] [DecidableRel (LT.lt : α → α → Prop)]
    (E : Env α) (r : α) :
    ∀ (pop : List Chromosome) (psum : α) (i0 i : Nat),
      roulette_walk E r pop psum i0 = some i →
      ∃ k, i = i0 + k ∧ k < pop.length ∧ r < sum_fitness E psum (pop.take (k + 1)) ∧
        ∀ m, m < k → ¬ r < sum_fitness E psum (pop.take (m + 1)) := by
  intro pop
  induction pop with
  | nil => intro psum i0 i h; simp [roulette_walk] at h
  | cons c rest ih =>
    intro psum i0 i h
    unfold roulette_walk at h
    simp only at h
    by_cases hr : r < psum + E.get_fitness c.order_
    · rw [if_pos hr] at h
      injection h with h
      refine ⟨0, by omega, by simp, ?_, fun m hm => absurd hm (Nat.not_lt_zero m)⟩
      simpa [sum_fitness] using hr
    · rw [if_neg hr] at h
      obtain ⟨k, h1, h2, h3, h4⟩ := ih _ _ _ h
      refine ⟨k + 1, by omega, by simp only [List.length_cons]; omega, ?_, ?_⟩
      · rw [List.take_succ_cons, sum_fitness_cons]; exact h3
      · intro m hm
        cases m with
        | zero => simpa [sum_fitness] using hr
        | succ m =>
          rw [List.take_succ_cons, sum_fitness_cons]
          exact h4 m (by omega)

/-- The walk reaches the end exactly when no running sum exceeds `r`. -/
theorem roulette_walk_none {α : Type} [Add α] [LT α] [DecidableRel (LT.lt : α → α → Prop)]
    (E : Env α) (r : α) :
    ∀ (pop : List Chromosome) (psum : α) (i0 : Nat),
      roulette_walk E r pop psum i0 = none ↔
        ∀ m, m < pop.length → ¬ r < sum_fitness E psum (pop.take (m + 1)) := by
  intro pop
  induction pop with
  | nil => intro psum i0; simp [roulette_walk]
  | cons c rest ih =>
    intro psum i0
    unfold roulette_walk
    simp only
    by_cases hr : r < psum + E.get_fitness c.order_
    · rw [if_pos hr]
      constructor
      · intro h; simp at h
      · intro h
        exact absurd (by simpa [sum_fitness] using hr) (h 0 (by simp))
    · rw [if_neg hr, ih]
      constructor
      · intro h m hm
        cases m with
        | zero => simpa [sum_fitness] using hr
        | succ m =>
          rw [List.take_succ_cons, sum_fitness_cons]
          exact h m (by simpa using hm)
      · intro h m hm
        have := h (m + 1) (by simpa using hm)
        rwa [List.take_succ_cons, sum_fitness_cons] at this

/-- A draw below the total of a non-empty pool stops the walk. -/
theorem roulette_walk_hits {α : Type} [Zero α] [Add α] [LT α]
    [DecidableRel (LT.lt : α → α → Prop)]
    (E : Env α) (r : α) (pop : List Chromosome) (hpop : pop ≠ [])
    (hr : r < sum_fitness E 0 pop) :
    ∃ i, roulette_walk E r pop 0 0 = some i ∧ i < pop.length ∧
      r < sum_fitness E 0 (pop.take (i + 1)) ∧
      ∀ m, m < i → ¬ r < sum_fitness E 0 (pop.take (m + 1)) := by
  cases hw : roulette_walk E r pop 0 0 with
  | none =>
    have hlen : 0 < pop.length := List.length_pos.mpr hpop
    have := (roulette_walk_none E r pop 0 0).mp hw (pop.length - 1) (by omega)
    rw [show pop.length - 1 + 1 = pop.length by omega, List.take_length] at this
    exact absurd hr this
  | some i =>
    obtain ⟨k, h1, h2, h3, h4⟩ := roulette_walk_some E r pop 0 0 i hw
    have hik : i = k := by omega
    subst hik
    exact ⟨i, rfl, h2, h3, h4⟩

/-! ## Termination of the redraw loop -/

theorem redraw_returns (a : Nat) :
    ∀ (k b : Nat) (g : Gen Nat), g k ≠ a →
      ∃ r, ∀ fuel, k + 2 ≤ fuel → redraw a fuel b g = .ok r := by
  intro k
  induction k with
  | zero =>
    intro b g hk
    by_cases hab : a = b
    · refine ⟨((a, g 0), g.advance), fun fuel hf => ?_⟩
      obtain ⟨f, rfl⟩ : ∃ f, fuel = f + 2 := ⟨fuel - 2, by omega⟩
      simp only [redraw, if_pos hab]
      rw [if_neg (fun h => hk h.symm)]
    · refine ⟨((a, b), g), fun fuel hf => ?_⟩
      obtain ⟨f, rfl⟩ : ∃ f, fuel = f + 1 := ⟨fuel - 1, by omega⟩
      simp only [redraw, if_neg hab]
  | succ k ih =>
    intro b g hk
    by_cases hab : a = b
    · obtain ⟨r, hr⟩ := ih (g 0) g.advance hk
      refine ⟨r, fun fuel hf => ?_⟩
      obtain ⟨f, rfl⟩ : ∃ f, fuel = f + 1 := ⟨fuel - 1, by omega⟩
      simp only [redraw, if_pos hab]
      exact hr f (by omega)
    · refine ⟨((a, b), g), fun fuel hf => ?_⟩
      obtain ⟨f, rfl⟩ : ∃ f, fuel = f + 1 := ⟨fuel - 1, by omega⟩
      simp only [redraw, if_neg hab]

/-- If some later draw differs from the first, `two_random_cities` returns, and returns
the same with any larger fuel. -/
theorem two_random_cities_returns (g : Gen Nat) (k : Nat) (hk : 0 < k) (h : g k ≠ g 0) :
    ∃ r, ∀ fuel, k + 1 ≤ fuel → two_random_cities fuel g = .ok r := by
  by_cases hab : g 0 = g 1
  · have hk2 : 2 ≤ k := by
      by_contra hc
      have hk1 : k = 1 := by omega
      rw [hk1] at h
      exact h hab.symm
    obtain ⟨r, hr⟩ := redraw_returns (g 0) (k - 2) (g 1) (g.skip 2)
      (by simp only [Gen.skip]; rw [show k - 2 + 2 = k by omega]; exact h)
    exact ⟨r, fun fuel hf => hr fuel (by omega)⟩
  · refine ⟨((g 0, g 1), g.skip 2), fun fuel hf => ?_⟩
    obtain ⟨f, rfl⟩ : ∃ f, fuel = f + 1 := ⟨fuel - 1, by omega⟩
    simp only [two_random_cities, redraw, if_neg hab]

theorem ready_skip (n : Nat) (order1 : List Nat) (c : Chromosome) (k : Nat) (h : Ready n c)
    (h1 : IsTour n order1) : Ready n { order_ := order1, generator_ := c.generator_.skip k } := by
  refine ⟨h1, fun i => h.2.1 (i + k), fun i => ?_⟩
  obtain ⟨m, hm1, hm2⟩ := h.2.2 (i + k)
  refine ⟨m, hm1, ?_⟩
  simp only [Gen.skip]
  rw [show i + m + k = i + k + m by omega]
  exact hm2

/-- On a ready chromosome `mutate` returns once the fuel is large enough, the same
chromosome for any larger fuel, and that chromosome is ready again. -/
theorem mutate_returns (n : Nat) (c : Chromosome) (hn : 0 < n) (h : Ready n c) :
    ∃ c1, Ready n c1 ∧ ∃ F, ∀ fuel, F ≤ fuel → mutate fuel c = .ok c1 := by
  obtain ⟨k, hk1, hk2⟩ := h.2.2 0
  rw [Nat.zero_add] at hk2
  obtain ⟨r, hr⟩ := two_random_cities_returns c.generator_ k hk1 hk2
  have hr0 := hr (k + 1) (le_refl _)
  obtain ⟨hp, hq⟩ := two_random_cities_range n _ _ r h.2.1 hr0
  obtain ⟨_, _, m, _, _, hm, _⟩ := two_random_cities_spec _ _ r hr0
  obtain ⟨l1, -, ht, hl1⟩ := mutate_eq n (k + 1) c hn h.1 r hr0 hp hq
  refine ⟨{ order_ := l1, generator_ := r.2 }, ?_, k + 1, fun fuel hf => ?_⟩
  · rw [hm]; exact ready_skip n l1 c (m + 1) h ht
  · obtain ⟨l2, h2, -, h3⟩ := mutate_eq n fuel c hn h.1 r (hr fuel hf) hp hq
    rw [h2, h3, hl1]

/-- On a ready chromosome and a tour `recombine` returns once the fuel is large enough,
the same pair for any larger fuel, and both children are tours. -/
theorem recombine_returns (n : Nat) (this other : Chromosome) (hn : 0 < n)
    (h : Ready n this) (ho : IsTour n other.order_) :
    ∃ p : Chromosome × Chromosome, IsTour n p.1.order_ ∧ IsTour n p.2.order_ ∧
      ∃ F, ∀ fuel, F ≤ fuel → recombine fuel this other = .ok p := by
  obtain ⟨k, hk1, hk2⟩ := h.2.2 0
  rw [Nat.zero_add] at hk2
  obtain ⟨r, hr⟩ := two_random_cities_returns this.generator_ k hk1 hk2
  have hr0 := hr (k + 1) (le_refl _)
  obtain ⟨hp, hq⟩ := two_random_cities_range n _ _ r h.2.1 hr0
  refine ⟨({ order_ := ox_child this.order_ other.order_ r.1.1 r.1.2, generator_ := r.2 },
    { order_ := ox_child other.order_ this.order_ r.1.1 r.1.2,
      generator_ := other.generator_ }),
    ox_child_perm n _ _ h.1 ho _ _, ox_child_perm n _ _ ho h.1 _ _, k + 1, fun fuel hf => ?_⟩
  unfold recombine
  rw [assert_valid_of_tour n _ hn h.1, assert_valid_of_tour n _ hn ho]
  simp only
  rw [hr fuel hf]
  simp only
  rw [create_crossover_child_eq n { order_ := this.order_, generator_ := r.2 } other hn h.1 ho
      r.1.1 r.1.2 (by omega) (by omega),
    create_crossover_child_eq n other { order_ := this.order_, generator_ := r.2 } hn ho h.1
      r.1.1 r.1.2 (by omega) (by omega)]

/-! ## Facts about `compute_next_generation` -/

theorem mutate_if_returns {α : Type} [LT α] [DecidableRel (LT.lt : α → α → Prop)]
    (n : Nat) (r mut_rate : α) (c : Chromosome) (hn : 0 < n) (h : Ready n c) :
    ∃ c1, Ready n c1 ∧ ∃ F, ∀ fuel, F ≤ fuel → mutate_if fuel r mut_rate c = .ok c1 := by
  unfold mutate_if
  by_cases hr : r < mut_rate
  · simp only [if_pos hr]
    exact mutate_returns n c hn h
  · simp only [if_neg hr]
    exact ⟨c, h, 0, fun _ _ => rfl⟩

theorem mutate_pairs_length {α : Type} [Zero α] [One α] [LT α]
    [DecidableRel (LT.lt : α → α → Prop)] (E : Env α) (fuel : Nat) (mut_rate : α) :
    ∀ (pairs : List (Chromosome × Chromosome)) (g : Gen α)
      (res : List (Chromosome × Chromosome) × Gen α),
      mutate_pairs E fuel mut_rate pairs g = .ok res → res.1.length = pairs.length := by
  intro pairs
  induction pairs with
  | nil =>
    intro g res h
    simp only [mutate_pairs] at h
    injection h with h
    subst h
    rfl
  | cons p rest ih =>
    intro g res h
    obtain ⟨first, second⟩ := p
    unfold mutate_pairs at h
    simp only at h
    cases h1 : mutate_if fuel (E.uniform 0 (E.nextafter 1) (g 0)) mut_rate first with
    | error f => rw [h1] at h; simp at h
    | ok first1 =>
      rw [h1] at h
      simp only at h
      cases h2 : mutate_if fuel (E.uniform 0 (E.nextafter 1) (g 1)) mut_rate second with
      | error f => rw [h2] at h; simp at h
      | ok second1 =>
        rw [h2] at h
        simp only at h
        cases h3 : mutate_pairs E fuel mut_rate rest (g.skip 2) with
        | error f => rw [h3] at h; simp at h
        | ok res1 =>
          rw [h3] at h
          simp only at h
          injection h with h
          subst h
          simp only [List.length_cons]
          rw [ih _ _ h3]

theorem mutate_pairs_returns {α : Type} [Zero α] [One α] [LT α]
    [DecidableRel (LT.lt : α → α → Prop)] (E : Env α) (n : Nat) (mut_rate : α) (hn : 0 < n) :
    ∀ (pairs : List (Chromosome × Chromosome)) (g : Gen α),
      (∀ p ∈ pairs, Ready n p.1 ∧ Ready n p.2) →
      ∃ res : List (Chromosome × Chromosome) × Gen α,
        (∀ p ∈ res.1, Ready n p.1 ∧ Ready n p.2) ∧
        ∃ F, ∀ fuel, F ≤ fuel → mutate_pairs E fuel mut_rate pairs g = .ok res := by
  intro pairs
  induction pairs with
  | nil =>
    intro g _
    exact ⟨([], g), fun p hp => by simp at hp, 0, fun _ _ => rfl⟩
  | cons p rest ih =>
    intro g h
    obtain ⟨first, second⟩ := p
    have hp := h (first, second) (by simp)
    obtain ⟨first1, hf1, F1, hF1⟩ :=
      mutate_if_returns n (E.uniform 0 (E.nextafter 1) (g 0)) mut_rate first hn hp.1
    obtain ⟨second1, hs1, F2, hF2⟩ :=
      mutate_if_returns n (E.uniform 0 (E.nextafter 1) (g 1)) mut_rate second hn hp.2
    obtain ⟨res, hres, F3, hF3⟩ := ih (g.skip 2) (fun q hq => h q (by simp [hq]))
    refine ⟨((first1, second1) :: res.1, res.2), ?_, max F1 (max F2 F3), fun fuel hf => ?_⟩
    · intro q hq
      rcases List.mem_cons.mp hq with rfl | hq
      · exact ⟨hf1, hs1⟩
      · exact hres q hq
    · unfold mutate_pairs
      simp only
      rw [hF1 fuel (le_trans (le_max_left _ _) hf)]
      simp only
      rw [hF2 fuel (le_trans (le_trans (le_max_left _ _) (le_max_right _ _)) hf)]
      simp only
      rw [hF3 fuel (le_trans (le_trans (le_max_right _ _) (le_max_right _ _)) hf)]

theorem recombine_pairs_length (fuel : Nat) :
    ∀ (pairs : List (Chromosome × Chromosome)) (pop : List Chromosome),
      recombine_pairs fuel pairs = .ok pop → pop.length = 2 * pairs.length := by
  intro pairs
  induction pairs with
  | nil =>
    intro pop h
    simp only [recombine_pairs] at h
    injection h with h
    subst h
    rfl
  | cons p rest ih =>
    intro pop h
    obtain ⟨first, second⟩ := p
    unfold recombine_pairs at h
    cases h1 : recombine fuel first second with
    | error f => rw [h1] at h; simp at h
    | ok child_pair =>
      rw [h1] at h
      simp only at h
      cases h2 : recombine_pairs fuel rest with
      | error f => rw [h2] at h; simp at h
      | ok pop1 =>
        rw [h2] at h
        simp only at h
        injection h with h
        subst h
        simp only [List.length_cons]
        rw [ih _ h2]
        omega

theorem recombine_pairs_returns (n : Nat) (hn : 0 < n) :
    ∀ (pairs : List (Chromosome × Chromosome)),
      (∀ p ∈ pairs, Ready n p.1 ∧ Ready n p.2) →
      ∃ pop : List Chromosome, (∀ c ∈ pop, IsTour n c.order_) ∧
        ∃ F, ∀ fuel, F ≤ fuel → recombine_pairs fuel pairs = .ok pop := by
  intro pairs
  induction pairs with
  | nil =>
    intro _
    exact ⟨[], fun c hc => by simp at hc, 0, fun _ _ => rfl⟩
  | cons p rest ih =>
    intro h
    obtain ⟨first, second⟩ := p
    have hp := h (first, second) (by simp)
    obtain ⟨child_pair, hc1, hc2, F1, hF1⟩ :=
      recombine_returns n first second hn hp.1 hp.2.1
    obtain ⟨pop, hpop, F2, hF2⟩ := ih (fun q hq => h q (by simp [hq]))
    refine ⟨child_pair.1 :: child_pair.2 :: pop, ?_, max F1 F2, fun fuel hf => ?_⟩
    · intro c hc
      rcases List.mem_cons.mp hc with rfl | hc
      · exact hc1
      · rcases List.mem_cons.mp hc with rfl | hc
        · exact hc2
        · exact hpop c hc
    · unfold recombine_pairs
      rw [hF1 fuel (le_trans (le_max_left _ _) hf)]
      simp only
      rw [hF2 fuel (le_trans (le_max_right _ _) hf)]

theorem deme_take_parent_mem {α : Type} [Zero α] [Add α] [LT α]
    [DecidableRel (LT.lt : α → α → Prop)] (E : Env α) (d : Deme α)
    (res : Chromosome × Deme α) (h : d.take_parent E = .ok res) :
    res.1 ∈ d.pop_ ∧ ∀ x ∈ res.2.pop_, x ∈ d.pop_ := by
  unfold Deme.take_parent at h
  cases h1 : d.select_parent E with
  | mk slot d1 =>
    rw [h1] at h
    have hd1 : d1.pop_ = d.pop_ := by
      have := congrArg (fun x => x.2.pop_) h1
      simpa [Deme.select_parent] using this.symm
    cases slot with
    | none => simp at h
    | some i =>
    simp only [hd1] at h
    cases h2 : d.pop_[i]? with
    | none => rw [h2] at h; simp at h
    | some parent =>
      rw [h2] at h
      simp only at h
      injection h with h
      subst h
      exact ⟨List.getElem?_mem h2, fun x hx => List.mem_of_mem_eraseIdx hx⟩

theorem deme_select_pairs_spec {α : Type} [Zero α] [Add α] [LT α]
    [DecidableRel (LT.lt : α → α → Prop)] (E : Env α) :
    ∀ (k : Nat) (d : Deme α) (res : List (Chromosome × Chromosome) × Deme α),
      Deme.select_pairs E k d = .ok res →
      res.1.length = k ∧ ∀ p ∈ res.1, p.1 ∈ d.pop_ ∧ p.2 ∈ d.pop_ := by
  intro k
  induction k with
  | zero =>
    intro d res h
    simp only [Deme.select_pairs] at h
    injection h with h
    subst h
    exact ⟨rfl, fun p hp => by simp at hp⟩
  | succ k ih =>
    intro d res h
    unfold Deme.select_pairs at h
    cases h1 : d.take_parent E with
    | error f => rw [h1] at h; simp at h
    | ok r1 =>
      rw [h1] at h
      simp only at h
      cases h2 : r1.2.take_parent E with
      | error f => rw [h2] at h; simp at h
      | ok r2 =>
        rw [h2] at h
        simp only at h
        cases h3 : Deme.select_pairs E k r2.2 with
        | error f => rw [h3] at h; simp at h
        | ok r3 =>
          rw [h3] at h
          simp only at h
          injection h with h
          subst h
          obtain ⟨m1, s1⟩ := deme_take_parent_mem E d r1 h1
          obtain ⟨m2, s2⟩ := deme_take_parent_mem E r1.2 r2 h2
          obtain ⟨l3, m3⟩ := ih r2.2 r3 h3
          refine ⟨by simp only [List.length_cons]; omega, ?_⟩
          intro p hp
          rcases List.mem_cons.mp hp with rfl | hp
          · exact ⟨m1, s1 _ m2⟩
          · exact ⟨s1 _ (s2 _ (m3 p hp).1), s1 _ (s2 _ (m3 p hp).2)⟩

theorem src_deme_take_parent_mem {α : Type} [Zero α] [Add α] [Sub α] [LT α]
    [DecidableRel (LT.lt : α → α → Prop)] (E : Env α) (d : SrcDeme α)
    (res : Chromosome × SrcDeme α) (h : d.take_parent E = .ok res) :
    res.1 ∈ d.pop_ ∧ ∀ x ∈ res.2.pop_, x ∈ d.pop_ := by
  unfold SrcDeme.take_parent at h
  cases h1 : d.select_parent E with
  | error f => rw [h1] at h; simp at h
  | ok r1 =>
    obtain ⟨i, d1⟩ := r1
    rw [h1] at h
    have hd1 : d1.pop_ = d.pop_ := by
      unfold SrcDeme.select_parent at h1
      cases hw : roulette_walk E (d.draw E) d.pop_ 0 0 with
      | none => rw [hw] at h1; simp at h1
      | some j =>
        rw [hw] at h1
        simp only at h1
        injection h1 with h1
        injection h1 with _ h1
        rw [← h1]
    simp only [hd1] at h
    cases h2 : d.pop_[i]? with
    | none => rw [h2] at h; simp at h
    | some parent =>
      rw [h2] at h
      simp only at h
      injection h with h
      subst h
      exact ⟨List.getElem?_mem h2, fun x hx => List.mem_of_mem_eraseIdx hx⟩

theorem src_deme_select_pairs_spec {α : Type} [Zero α] [Add α] [Sub α] [LT α]
    [DecidableRel (LT.lt : α → α → Prop)] (E : Env α) :
    ∀ (k : Nat) (d : SrcDeme α) (res : List (Chromosome × Chromosome) × SrcDeme α),
      SrcDeme.select_pairs E k d = .ok res →
      res.1.length = k ∧ ∀ p ∈ res.1, p.1 ∈ d.pop_ ∧ p.2 ∈ d.pop_ := by
  intro k
  induction k with
  | zero =>
    intro d res h
    simp only [SrcDeme.select_pairs] at h
    injection h with h
    subst h
    exact ⟨rfl, fun p hp => by simp at hp⟩
  | succ k ih =>
    intro d res h
    unfold SrcDeme.select_pairs at h
    cases h1 : d.take_parent E with
    | error f => rw [h1] at h; simp at h
    | ok r1 =>
      rw [h1] at h
      simp only at h
      cases h2 : r1.2.take_parent E with
      | error f => rw [h2] at h; simp at h
      | ok r2 =>
        rw [h2] at h
        simp only at h
        cases h3 : SrcDeme.select_pairs E k r2.2 with
        | error f => rw [h3] at h; simp at h
        | ok r3 =>
          rw [h3] at h
          simp only at h
          injection h with h
          subst h
          obtain ⟨m1, s1⟩ := src_deme_take_parent_mem E d r1 h1
          obtain ⟨m2, s2⟩ := src_deme_take_parent_mem E r1.2 r2 h2
          obtain ⟨l3, m3⟩ := ih r2.2 r3 h3
          refine ⟨by simp only [List.length_cons]; omega, ?_⟩
          intro p hp
          rcases List.mem_cons.mp hp with rfl | hp
          · exact ⟨m1, s1 _ m2⟩
          · exact ⟨s1 _ (s2 _ (m3 p hp).1), s1 _ (s2 _ (m3 p hp).2)⟩

theorem deme_next_generation_length {α : Type} [Zero α] [One α] [Add α] [LT α]
    [DecidableRel (LT.lt : α → α → Prop)] (E : Env α) (fuel : Nat) (d d1 : Deme α)
    (h : d.compute_next_generation E fuel = .ok d1) :
    d1.pop_.length = 2 * (d.pop_.length / 2) := by
  unfold Deme.compute_next_generation at h
  simp only at h
  cases h1 : Deme.select_pairs E (d.pop_.length / 2) d with
  | error f => rw [h1] at h; simp at h
  | ok r1 =>
    rw [h1] at h
    simp only at h
    cases h2 : mutate_pairs E fuel r1.2.mut_rate_ r1.1 r1.2.generator_ with
    | error f => rw [h2] at h; simp at h
    | ok r2 =>
      rw [h2] at h
      simp only at h
      cases h3 : recombine_pairs fuel r2.1 with
      | error f => rw [h3] at h; simp at h
      | ok pop =>
        rw [h3] at h
        simp only at h
        injection h with h
        subst h
        simp only
        rw [recombine_pairs_length fuel _ _ h3, mutate_pairs_length E fuel _ _ _ _ h2,
          (deme_select_pairs_spec E _ _ _ h1).1]

theorem deme_next_generation_returns {α : Type} [Zero α] [One α] [Add α] [LT α]
    [DecidableRel (LT.lt : α → α → Prop)] (E : Env α) (n : Nat) (d : Deme α) (hn : 0 < n)
    (hd : ∀ c ∈ d.pop_, Ready n c) (x : List (Chromosome × Chromosome) × Deme α)
    (hsel : Deme.select_pairs E (d.pop_.length / 2) d = .ok x) :
    ∃ d1 : Deme α, (∀ c ∈ d1.pop_, IsTour n c.order_) ∧
      ∃ F, ∀ fuel, F ≤ fuel → d.compute_next_generation E fuel = .ok d1 := by
  have hmem := (deme_select_pairs_spec E _ _ _ hsel).2
  have hready : ∀ p ∈ x.1, Ready n p.1 ∧ Ready n p.2 :=
    fun p hp => ⟨hd _ (hmem p hp).1, hd _ (hmem p hp).2⟩
  obtain ⟨r2, hr2, F1, hF1⟩ :=
    mutate_pairs_returns E n x.2.mut_rate_ hn x.1 x.2.generator_ hready
  obtain ⟨pop, hpop, F2, hF2⟩ := recombine_pairs_returns n hn r2.1 hr2
  refine ⟨{ x.2 with pop_ := pop, generator_ := r2.2 }, hpop, max F1 F2, fun fuel hf => ?_⟩
  unfold Deme.compute_next_generation
  simp only
  rw [hsel]
  simp only
  rw [hF1 fuel (le_trans (le_max_left _ _) hf)]
  simp only
  rw [hF2 fuel (le_trans (le_max_right _ _) hf)]

theorem src_deme_next_generation_length {α : Type} [Zero α] [One α] [Add α] [Sub α] [LT α]
    [DecidableRel (LT.lt : α → α → Prop)] (E : Env α) (fuel : Nat) (d d1 : SrcDeme α)
    (h : d.compute_next_generation E fuel = .ok d1) :
    d1.pop_.length = 2 * (d.pop_.length / 2) := by
  unfold SrcDeme.compute_next_generation at h
  simp only at h
  cases h1 : SrcDeme.select_pairs E (d.pop_.length / 2) { d with fitness_sum_ := sum_fitness E 0 d.pop_ } with
  | error f => rw [h1] at h; simp at h
  | ok r1 =>
    rw [h1] at h
    simp only at h
    cases h2 : mutate_pairs E fuel r1.2.mut_rate_ r1.1 r1.2.generator_ with
    | error f => rw [h2] at h; simp at h
    | ok r2 =>
      rw [h2] at h
      simp only at h
      cases h3 : recombine_pairs fuel r2.1 with
      | error f => rw [h3] at h; simp at h
      | ok pop =>
        rw [h3] at h
        simp only at h
        injection h with h
        subst h
        simp only
        rw [recombine_pairs_length fuel _ _ h3, mutate_pairs_length E fuel _ _ _ _ h2,
          (src_deme_select_pairs_spec E _ _ _ h1).1]

theorem src_deme_next_generation_returns {α : Type} [Zero α] [One α] [Add α] [Sub α] [LT α]
    [DecidableRel (LT.lt : α → α → Prop)] (E : Env α) (n : Nat) (d : SrcDeme α) (hn : 0 < n)
    (hd : ∀ c ∈ d.pop_, Ready n c) (x : List (Chromosome × Chromosome) × SrcDeme α)
    (hsel : SrcDeme.select_pairs E (d.pop_.length / 2) { d with fitness_sum_ := sum_fitness E 0 d.pop_ } = .ok x) :
    ∃ d1 : SrcDeme α, (∀ c ∈ d1.pop_, IsTour n c.order_) ∧
      ∃ F, ∀ fuel, F ≤ fuel → d.compute_next_generation E fuel = .ok d1 := by
  have hmem := (src_deme_select_pairs_spec E _ _ _ hsel).2
  have hready : ∀ p ∈ x.1, Ready n p.1 ∧ Ready n p.2 :=
    fun p hp => ⟨hd _ (hmem p hp).1, hd _ (hmem p hp).2⟩
  obtain ⟨r2, hr2, F1, hF1⟩ :=
    mutate_pairs_returns E n x.2.mut_rate_ hn x.1 x.2.generator_ hready
  obtain ⟨pop, hpop, F2, hF2⟩ := recombine_pairs_returns n hn r2.1 hr2
  refine ⟨{ x.2 with pop_ := pop, generator_ := r2.2 }, hpop, max F1 F2, fun fuel hf => ?_⟩
  unfold SrcDeme.compute_next_generation
  simp only
  rw [hsel]
  simp only
  rw [hF1 fuel (le_trans (le_max_left _ _) hf)]
  simp only
  rw [hF2 fuel (le_trans (le_max_right _ _) hf)]

theorem ready_tour_up : Ready 5 tour_up :=
  ⟨by decide, fun i => by simp only [tour_up]; omega,
    fun i => ⟨1, by decide, by simp only [tour_up]; omega⟩⟩

theorem ready_tour_down : Ready 5 tour_down :=
  ⟨by decide, fun i => Nat.mod_lt _ (by decide),
    fun i => ⟨3, by decide, by simp only [tour_down]; omega⟩⟩

theorem ready_pop_int (c : Chromosome) (h : c ∈ [tour_up, tour_down, tour_up]) : Ready 5 c := by
  simp only [List.mem_cons, List.mem_singleton, List.not_mem_nil, or_false] at h
  rcases h with rfl | rfl | rfl
  · exact ready_tour_up
  · exact ready_tour_down
  · exact ready_tour_up

/-! ## Claims on `Deme` -/

/-- C8. Population size invariant, for `compute_next_generation` of `src/deme.cc` and of
`src/src/deme.cc`: on a population of `N` chromosomes that are tours of `[0, n)`,
`n >= 2`, with generators whose redraw loops end, and with draws for which every selection
succeeds, `compute_next_generation` returns once the fuel is large enough, and whenever
it returns the population has `2 * floor(N / 2)` tours: `N` for even `N`, `N - 1` for
odd `N`. -/
theorem population_size_invariant {α : Type} [Zero α] [One α] [Add α] [Sub α] [LT α]
    [DecidableRel (LT.lt : α → α → Prop)] (E : Env α) (n : Nat) (d : Deme α) (s : SrcDeme α)
    (hn : 2 ≤ n) (hd : ∀ c ∈ d.pop_, Ready n c) (hs : ∀ c ∈ s.pop_, Ready n c)
    (hseld : ∃ x, Deme.select_pairs E (d.pop_.length / 2) d = .ok x)
    (hsels : ∃ x, SrcDeme.select_pairs E (s.pop_.length / 2)
      { s with fitness_sum_ := sum_fitness E 0 s.pop_ } = .ok x) :
    (∃ d1 F, ∀ fuel, F ≤ fuel → d.compute_next_generation E fuel = .ok d1) ∧
      (∀ fuel d1, d.compute_next_generation E fuel = .ok d1 →
        d1.pop_.length = 2 * (d.pop_.length / 2) ∧
        (d.pop_.length % 2 = 0 → d1.pop_.length = d.pop_.length) ∧
        (d.pop_.length % 2 = 1 → d1.pop_.length = d.pop_.length - 1)) ∧
      (∃ s1 F, ∀ fuel, F ≤ fuel → s.compute_next_generation E fuel = .ok s1) ∧
      (∀ fuel s1, s.compute_next_generation E fuel = .ok s1 →
        s1.pop_.length = 2 * (s.pop_.length / 2) ∧
        (s.pop_.length % 2 = 0 → s1.pop_.length = s.pop_.length) ∧
        (s.pop_.length % 2 = 1 → s1.pop_.length = s.pop_.length - 1)) := by
  obtain ⟨x, hx⟩ := hseld
  obtain ⟨y, hy⟩ := hsels
  obtain ⟨d1, -, F1, hF1⟩ := deme_next_generation_returns E n d (by omega) hd x hx
  obtain ⟨s1, -, F2, hF2⟩ := src_deme_next_generation_returns E n s (by omega) hs y hy
  refine ⟨⟨d1, F1, hF1⟩, ?_, ⟨s1, F2, hF2⟩, ?_⟩
  · intro fuel d2 h
    have := deme_next_generation_length E fuel d d2 h
    omega
  · intro fuel s2 h
    have := src_deme_next_generation_length E fuel s s2 h
    omega

/-- Three chromosomes, every draw of the deme 0: one pair is selected, both parents are
mutated and recombined, and two children are left. -/
theorem population_size_invariant_witness :
    (∃ d1 F, ∀ fuel, F ≤ fuel → (deme_int 0).compute_next_generation env_int fuel = .ok d1) ∧
      (∀ fuel d1, (deme_int 0).compute_next_generation env_int fuel = .ok d1 →
        d1.pop_.length = 2 * ((deme_int 0).pop_.length / 2) ∧
        ((deme_int 0).pop_.length % 2 = 0 → d1.pop_.length = (deme_int 0).pop_.length) ∧
        ((deme_int 0).pop_.length % 2 = 1 →
          d1.pop_.length = (deme_int 0).pop_.length - 1)) ∧
      (∃ s1 F, ∀ fuel, F ≤ fuel →
        (src_deme_int 0).compute_next_generation env_int fuel = .ok s1) ∧
      (∀ fuel s1, (src_deme_int 0).compute_next_generation env_int fuel = .ok s1 →
        s1.pop_.length = 2 * ((src_deme_int 0).pop_.length / 2) ∧
        ((src_deme_int 0).pop_.length % 2 = 0 →
          s1.pop_.length = (src_deme_int 0).pop_.length) ∧
        ((src_deme_int 0).pop_.length % 2 = 1 →
          s1.pop_.length = (src_deme_int 0).pop_.length - 1)) :=
  population_size_invariant env_int 5 (deme_int 0) (src_deme_int 0) (by decide)
    ready_pop_int ready_pop_int ⟨_, rfl⟩ ⟨_, rfl⟩

/-- C9. Roulette-wheel selection result, for `select_parent` of `src/deme.cc` and of
`src/src/deme.cc`: on a non-empty pool and a draw `r` below the sum of its fitnesses,
`select_parent` returns the chromosome of the first slot `i` at which the running sum
`f_1 + ... + f_i` exceeds `r`; it does not reach the end of the pool. -/
theorem select_parent_first_exceeding {α : Type} [Zero α] [Add α] [LT α]
    [DecidableRel (LT.lt : α → α → Prop)] (E : Env α) (d : Deme α) (s : SrcDeme α)
    (hd : d.pop_ ≠ []) (hs : s.pop_ ≠ [])
    (hrd : d.draw E < sum_fitness E 0 d.pop_) (hrs : s.draw E < sum_fitness E 0 s.pop_) :
    (∃ i, (d.select_parent E).1 = some i ∧ i < d.pop_.length ∧
        d.draw E < sum_fitness E 0 (d.pop_.take (i + 1)) ∧
        ∀ m, m < i → ¬ d.draw E < sum_fitness E 0 (d.pop_.take (m + 1))) ∧
      (∃ i, (s.select_parent E).map (fun p => p.1) = .ok i ∧ i < s.pop_.length ∧
        s.draw E < sum_fitness E 0 (s.pop_.take (i + 1)) ∧
        ∀ m, m < i → ¬ s.draw E < sum_fitness E 0 (s.pop_.take (m + 1))) := by
  obtain ⟨i, h1, h2, h3, h4⟩ := roulette_walk_hits E (d.draw E) d.pop_ hd hrd
  obtain ⟨j, k1, k2, k3, k4⟩ := roulette_walk_hits E (s.draw E) s.pop_ hs hrs
  refine ⟨⟨i, ?_, h2, h3, h4⟩, ⟨j, ?_, k2, k3, k4⟩⟩
  · simp only [Deme.select_parent, h1]
  · simp only [SrcDeme.select_parent, k1, Except.map]

/-- Fitnesses 1, 5, 1 and the draw 3: the running sums are 1, 6, 7. -/
theorem select_parent_first_exceeding_witness :
    (∃ i, ((deme_int 3).select_parent env_int).1 = some i ∧ i < (deme_int 3).pop_.length ∧
        (deme_int 3).draw env_int < sum_fitness env_int 0 ((deme_int 3).pop_.take (i + 1)) ∧
        ∀ m, m < i →
          ¬ (deme_int 3).draw env_int < sum_fitness env_int 0 ((deme_int 3).pop_.take (m + 1))) ∧
      (∃ i, ((src_deme_int 3).select_parent env_int).map (fun p => p.1) = .ok i ∧
        i < (src_deme_int 3).pop_.length ∧
        (src_deme_int 3).draw env_int
          < sum_fitness env_int 0 ((src_deme_int 3).pop_.take (i + 1)) ∧
        ∀ m, m < i →
          ¬ (src_deme_int 3).draw env_int
            < sum_fitness env_int 0 ((src_deme_int 3).pop_.take (m + 1))) :=
  select_parent_first_exceeding env_int (deme_int 3) (src_deme_int 3)
    (List.cons_ne_nil _ _) (List.cons_ne_nil _ _) (by decide) (by decide)

/-- C10. Selection exhaustion does not fail loudly in `src/deme.cc`: with fitnesses
1, 5, 1 and the draw 7, which equals the total and is below `nextafter(total)`, no running
sum exceeds the draw; `select_parent` of `src/deme.cc` returns `nullptr` and the caller
erases `end()`, while `select_parent` of `src/src/deme.cc` throws `std::logic_error`. -/
theorem select_parent_exhausted :
    (deme_int 7).draw env_int = sum_fitness env_int 0 (deme_int 7).pop_ ∧
      (deme_int 7).draw env_int < env_int.nextafter (sum_fitness env_int 0 (deme_int 7).pop_) ∧
      ((deme_int 7).select_parent env_int).1 = none ∧
      ((deme_int 7).take_parent env_int).map (fun p => p.1.order_) = .error .out_of_bounds ∧
      ((src_deme_int 7).select_parent env_int).map (fun p => p.1) = .error .logic_error := by
  decide

/-! ## More facts about `mutate` and `two_random_cities` -/

/-- The cities of a swapped tour, position by position. -/
theorem swap_getElem? (l : List Nat) (p q x y i : Nat) (hp : p < l.length)
    (hq : q < l.length) :
    ((l.set p y).set q x)[i]?
      = if i = q then some x else if i = p then some y else l[i]? := by
  by_cases hiq : i = q
  · subst hiq
    rw [if_pos rfl, List.getElem?_set_self (by rw [List.length_set]; exact hq)]
  · rw [if_neg hiq, List.getElem?_set_ne (fun h => hiq h.symm)]
    by_cases hip : i = p
    · subst hip
      rw [if_pos rfl, List.getElem?_set_self hp]
    · rw [if_neg hip, List.getElem?_set_ne (fun h => hip h.symm)]

theorem getD_eq_of_lt (l : List Nat) (i : Nat) (hi : i < l.length) :
    some (l.getD i 0) = l[i]? := by
  rw [List.getD_eq_getElem?_getD, List.getElem?_eq_getElem hi]
  rfl

/-- Swapping the same two positions again gives the tour back. -/
theorem iter_swap_twice (l : List Nat) (p q : Nat) (hp : p < l.length) (hq : q < l.length)
    (hpq : p ≠ q) :
    iter_swap ((l.set p (l.getD q 0)).set q (l.getD p 0)) p q = .ok l := by
  have hgp := swap_getElem? l p q (l.getD p 0) (l.getD q 0) p hp hq
  have hgq := swap_getElem? l p q (l.getD p 0) (l.getD q 0) q hp hq
  rw [if_neg hpq, if_pos rfl] at hgp
  rw [if_pos rfl] at hgq
  unfold iter_swap
  rw [hgp, hgq]
  simp only
  congr 1
  apply List.ext_getElem?
  intro i
  rw [swap_getElem? _ p q _ _ i (by simp only [List.length_set]; exact hp)
    (by simp only [List.length_set]; exact hq)]
  by_cases hiq : i = q
  · rw [if_pos hiq, hiq]; exact getD_eq_of_lt l q hq
  · rw [if_neg hiq]
    by_cases hip : i = p
    · rw [if_pos hip, hip]; exact getD_eq_of_lt l p hp
    · rw [if_neg hip, swap_getElem? l p q _ _ i hp hq, if_neg hiq, if_neg hip]

theorem redraw_error (a : Nat) :
    ∀ (fuel b : Nat) (g : Gen Nat) (f : Fault), redraw a fuel b g = .error f →
      f = .out_of_fuel := by
  intro fuel
  induction fuel with
  | zero =>
    intro b g f h
    simp only [redraw] at h
    injection h with h
    exact h.symm
  | succ fuel ih =>
    intro b g f h
    unfold redraw at h
    by_cases hab : a = b
    · rw [if_pos hab] at h
      exact ih _ _ f h
    · rw [if_neg hab] at h
      simp at h

/-- When every later draw repeats the first, `two_random_cities` is still running
whatever the fuel. -/
theorem two_random_cities_runs_on (g : Gen Nat) (h : ∀ k, 0 < k → g k = g 0) (fuel : Nat) :
    two_random_cities fuel g = .error .out_of_fuel := by
  cases hr : two_random_cities fuel g with
  | error f =>
    unfold two_random_cities at hr
    rw [redraw_error _ _ _ _ f hr]
  | ok r =>
    obtain ⟨h1, h2, k, hk, h3, -, -⟩ := two_random_cities_spec fuel g r hr
    exact absurd (by rw [h3, h1]; exact h k hk) h2

/-- On lists of one length an empty or inverted window makes the loop of
`create_crossover_child` copy `p2`: no city is in the window, `j` stays equal to `i`. -/
theorem crossover_loop_empty_window (p1 p2 : List Nat) (b e : Nat) (hbe : e ≤ b)
    (hlen : p1.length = p2.length) :
    ∀ k i child, i + k = p1.length → child = p2.take i ++ p1.drop i →
      crossover_loop p1 p2 b e k i i child = .ok p2 := by
  intro k
  induction k with
  | zero =>
    intro i child hik hchild
    unfold crossover_loop
    rw [hchild, List.drop_eq_nil_of_le (by omega), List.append_nil,
      List.take_of_length_le (by omega)]
  | succ k ih =>
    intro i child hik hchild
    have hi1 : i < p1.length := by omega
    have hi2 : i < p2.length := by omega
    unfold crossover_loop
    rw [if_pos hi2, if_neg (by omega), List.drop_eq_getElem_cons hi2]
    have hnot : is_in_range p1 p2[i] b e = .ok false := by
      unfold is_in_range
      rw [show e - b = 0 by omega]
      rfl
    simp only [skip_in_range, hnot]
    rw [List.getElem?_eq_getElem hi2]
    simp only
    apply ih (i + 1) _ (by omega)
    rw [hchild]
    exact set_take_append_drop p2 p1 i p2[i] hlen.symm hi1 (List.getElem?_eq_getElem hi2)

theorem create_crossover_child_empty_window (n : Nat) (p1 p2 : Chromosome) (b e : Nat)
    (hn : 0 < n) (h1 : IsTour n p1.order_) (h2 : IsTour n p2.order_) (hbe : e ≤ b) :
    create_crossover_child p1 p2 b e
      = .ok { order_ := p2.order_, generator_ := p1.generator_ } := by
  unfold create_crossover_child
  simp only [Chromosome.clone]
  rw [crossover_loop_empty_window p1.order_ p2.order_ b e hbe
    (by rw [tour_length n _ h1, tour_length n _ h2]) p1.order_.length 0 p1.order_
    (by omega) (by simp)]
  simp only
  rw [assert_valid_of_tour n _ hn h2]

/-! ## Claims on the crossover window, the swap and the redraw loop -/

/-- C18. An inverted or empty window acts as an empty window: for tours `p1`, `p2` of
`[0, n)` and any `b >= e`, the loop of `create_crossover_child(p1, p2, b, e)` ends with
exactly `p2`'s order and, when there is a city at all, `create_crossover_child` returns
it; hence whenever `two_random_cities` returns a pair whose first component is larger
than the second, `recombine` returns a first child with the other parent's order and a
second child with this parent's order. -/
theorem inverted_window_exchanges_parents (n : Nat) (p1 p2 : Chromosome) (b e : Nat)
    (h1 : IsTour n p1.order_) (h2 : IsTour n p2.order_) (hbe : e ≤ b) :
    crossover_loop p1.order_ p2.order_ b e p1.order_.length 0 0 p1.clone.order_
        = .ok p2.order_ ∧
      (0 < n → create_crossover_child p1 p2 b e
        = .ok { order_ := p2.order_, generator_ := p1.generator_ }) ∧
      (∀ fuel r, 0 < n → two_random_cities fuel p1.generator_ = .ok r → r.1.2 < r.1.1 →
        (recombine fuel p1 p2).map (fun c => (c.1.order_, c.2.order_))
          = .ok (p2.order_, p1.order_)) := by
  refine ⟨?_, fun hn => create_crossover_child_empty_window n p1 p2 b e hn h1 h2 hbe, ?_⟩
  · exact crossover_loop_empty_window p1.order_ p2.order_ b e hbe
      (by rw [tour_length n _ h1, tour_length n _ h2]) p1.order_.length 0 p1.order_
      (by omega) (by simp)
  · intro fuel r hn hr hlt
    unfold recombine
    rw [assert_valid_of_tour n _ hn h1, assert_valid_of_tour n _ hn h2]
    simp only
    rw [hr]
    simp only
    rw [create_crossover_child_empty_window n { order_ := p1.order_, generator_ := r.2 } p2
        r.1.1 r.1.2 hn h1 h2 (by omega),
      create_crossover_child_empty_window n p2 { order_ := p1.order_, generator_ := r.2 }
        r.1.1 r.1.2 hn h2 h1 (by omega)]
    rfl

/-- The generator of `0 1 2 3 4` hands out the inverted pair `(3, 1)`. -/
theorem inverted_window_exchanges_parents_witness :
    crossover_loop tour_up.order_ tour_down.order_ 3 1 tour_up.order_.length 0 0
        tour_up.clone.order_ = .ok tour_down.order_ ∧
      (0 < 5 → create_crossover_child tour_up tour_down 3 1
        = .ok { order_ := tour_down.order_, generator_ := tour_up.generator_ }) ∧
      (∀ fuel r, 0 < 5 → two_random_cities fuel tour_up.generator_ = .ok r → r.1.2 < r.1.1 →
        (recombine fuel tour_up tour_down).map (fun c => (c.1.order_, c.2.order_))
          = .ok (tour_down.order_, tour_up.order_)) :=
  inverted_window_exchanges_parents 5 tour_up tour_down 3 1 (by decide) (by decide)
    (by decide)

/-- C19. Mutation is exactly one swap: for a tour of `[0, n)` whose generator hands out
positions below `n`, whenever `two_random_cities` returns the pair `(p, q)`, the
positions are distinct and below `n`, `mutate` returns, and the new tour has
`new[p] == old[q]`, `new[q] == old[p]` and `new[i] == old[i]` elsewhere; it differs from
the old tour, and the same swap applied to it gives the old tour back. -/
theorem mutate_is_one_swap (n fuel : Nat) (c : Chromosome) (r : (Nat × Nat) × Gen Nat)
    (h : IsTour n c.order_) (hg : ∀ i, c.generator_ i < n)
    (hdraw : two_random_cities fuel c.generator_ = .ok r) :
    r.1.1 < n ∧ r.1.2 < n ∧ r.1.1 ≠ r.1.2 ∧
      ∃ c1, mutate fuel c = .ok c1 ∧
        c1.order_[r.1.1]? = c.order_[r.1.2]? ∧ c1.order_[r.1.2]? = c.order_[r.1.1]? ∧
        (∀ i, i ≠ r.1.1 → i ≠ r.1.2 → c1.order_[i]? = c.order_[i]?) ∧
        c1.order_ ≠ c.order_ ∧ iter_swap c1.order_ r.1.1 r.1.2 = .ok c.order_ := by
  obtain ⟨hp, hq⟩ := two_random_cities_range n fuel c.generator_ r hg hdraw
  have hpq : r.1.1 ≠ r.1.2 := fun heq => (two_random_cities_spec fuel _ r hdraw).2.1 heq.symm
  have hl := tour_length n _ h
  obtain ⟨l1, hm, -, hl1⟩ := mutate_eq n fuel c (by omega) h r hdraw hp hq
  have hgp : l1[r.1.1]? = c.order_[r.1.2]? := by
    rw [hl1, swap_getElem? _ _ _ _ _ _ (by omega) (by omega), if_neg hpq, if_pos rfl]
    exact getD_eq_of_lt _ _ (by omega)
  have hgq : l1[r.1.2]? = c.order_[r.1.1]? := by
    rw [hl1, swap_getElem? _ _ _ _ _ _ (by omega) (by omega), if_pos rfl]
    exact getD_eq_of_lt _ _ (by omega)
  refine ⟨hp, hq, hpq, _, hm, hgp, hgq, ?_, ?_, ?_⟩
  · intro i h1 h2
    simp only
    rw [hl1, swap_getElem? _ _ _ _ _ _ (by omega) (by omega), if_neg h2, if_neg h1]
  · intro heq
    simp only at heq
    rw [heq] at hgp
    exact hpq (List.getElem?_inj (by omega) (tour_nodup n _ h) hgp)
  · simp only
    rw [hl1]
    exact iter_swap_twice c.order_ r.1.1 r.1.2 (by omega) (by omega) hpq

/-- The generator of `4 3 2 1 0` hands out `0, 0, 0, 1`: the cities at 0 and 1 change
places. -/
theorem mutate_is_one_swap_witness :
    (0 : Nat) < 5 ∧ (1 : Nat) < 5 ∧ (0 : Nat) ≠ 1 ∧
      ∃ c1, mutate 3 tour_down = .ok c1 ∧
        c1.order_[0]? = tour_down.order_[1]? ∧ c1.order_[1]? = tour_down.order_[0]? ∧
        (∀ i, i ≠ 0 → i ≠ 1 → c1.order_[i]? = tour_down.order_[i]?) ∧
        c1.order_ ≠ tour_down.order_ ∧ iter_swap c1.order_ 0 1 = .ok tour_down.order_ :=
  mutate_is_one_swap 5 3 tour_down ((0, 1), tour_down.generator_.skip 4) (by decide)
    (fun i => Nat.mod_lt _ (by decide)) rfl

/-- C20. Termination of the redraw loop: over a stream of draws, `two_random_cities`
returns for some fuel exactly when some draw after the first differs from the first
draw; it then returns the first draw `a` and the first later draw `b` that differs from
it, so `a != b`, and both are below `n` when the draws are.  When all draws are below 1
the loop `while (a == b)` is still running whatever the fuel, and so are `mutate` and
`recombine` on the single-city tour. -/
theorem two_random_cities_terminates_iff (g : Gen Nat) :
    ((∃ fuel r, two_random_cities fuel g = .ok r) ↔ ∃ k, 0 < k ∧ g k ≠ g 0) ∧
      (∀ fuel r, two_random_cities fuel g = .ok r →
        r.1.1 = g 0 ∧ r.1.1 ≠ r.1.2 ∧
          ∃ k, 0 < k ∧ r.1.2 = g k ∧ (∀ m, 0 < m → m < k → g m = g 0) ∧
            r.2 = g.skip (k + 1)) ∧
      (∀ n fuel r, (∀ i, g i < n) → two_random_cities fuel g = .ok r →
        r.1.1 < n ∧ r.1.2 < n) ∧
      ((∀ i, g i < 1) → ∀ fuel, two_random_cities fuel g = .error .out_of_fuel) ∧
      ((∀ i, g i < 1) → ∀ fuel (this other : Chromosome),
        this.generator_ = g → this.order_ = [0] → other.order_ = [0] →
          mutate fuel this = .error .out_of_fuel ∧
          recombine fuel this other = .error .out_of_fuel) := by
  have hconst : (∀ i, g i < 1) → ∀ k, 0 < k → g k = g 0 := by
    intro h k _
    have h1 := h k
    have h2 := h 0
    omega
  refine ⟨⟨?_, ?_⟩, ?_, ?_, ?_, ?_⟩
  · rintro ⟨fuel, r, hr⟩
    obtain ⟨h1, h2, k, hk, h3, -, -⟩ := two_random_cities_spec fuel g r hr
    exact ⟨k, hk, by rw [← h3, ← h1]; exact h2⟩
  · rintro ⟨k, hk, hne⟩
    obtain ⟨r, hr⟩ := two_random_cities_returns g k hk hne
    exact ⟨k + 1, r, hr (k + 1) (le_refl _)⟩
  · intro fuel r hr
    obtain ⟨h1, h2, k, hk, h3, h4, h5⟩ := two_random_cities_spec fuel g r hr
    exact ⟨h1, fun heq => h2 heq.symm, k, hk, h3, h5, h4⟩
  · intro n fuel r hg hr
    exact two_random_cities_range n fuel g r hg hr
  · intro h fuel
    exact two_random_cities_runs_on g (hconst h) fuel
  · intro h fuel this other hgen ho1 ho2
    have hrun := two_random_cities_runs_on g (hconst h) fuel
    constructor
    · unfold mutate
      rw [hgen, hrun]
    · unfold recombine
      rw [ho1, ho2, hgen, hrun]
      rfl

/-- Under the loop invariant of `create_crossover_child`, every call of the skip loop
stops at an index of `p2` that holds a city outside the window. -/
theorem crossover_skips_ok (n : Nat) (p1 p2 : List Nat) (h1 : IsTour n p1) (h2 : IsTour n p2)
    (b e : Nat) (hb : b ≤ n) (he : e ≤ n) :
    ∀ k i j, i + k = n →
      (p2.drop j).filter (fun c => c ∉ window p1 b e)
        = (others p1 p2 b e).drop (outside_below b e i) →
      ∀ call ∈ crossover_skips p1 p2 b e k i j,
        ∃ j1, call.2 = .ok j1 ∧ call.1 ≤ j1 ∧ j1 < n ∧
          ∃ c, p2[j1]? = some c ∧ c ∉ window p1 b e := by
  have hl1 := tour_length n p1 h1
  have hl2 := tour_length n p2 h2
  have hO := others_length n p1 p2 h1 h2 b e hb he
  intro k
  induction k with
  | zero =>
    intro i j _ _ call hcall
    simp [crossover_skips] at hcall
  | succ k ih =>
    intro i j hik hj call hcall
    unfold crossover_skips at hcall
    by_cases hjl : j < p2.length
    · rw [if_pos hjl] at hcall
      by_cases hwin : b ≤ i ∧ i < e
      · rw [if_pos hwin] at hcall
        refine ih (i + 1) j (by omega) ?_ call hcall
        rw [hj]
        congr 1
        unfold outside_below
        omega
      · rw [if_neg hwin] at hcall
        have hlt : outside_below b e i < (others p1 p2 b e).length := by
          unfold outside_below
          omega
        rw [List.drop_eq_getElem_cons hlt] at hj
        obtain ⟨pre, post, hsplit, hpre, hc, hpost⟩ := List.filter_eq_cons_iff.mp hj
        have hpre1 : ∀ x ∈ pre, x ∈ (p1.drop b).take (e - b) := by
          intro x hx
          simpa [window] using hpre x hx
        have hc1 : (others p1 p2 b e)[outside_below b e i]
            ∉ (p1.drop b).take (e - b) := by
          simpa [window] using hc
        have hget : p2[j + pre.length]?
            = some (others p1 p2 b e)[outside_below b e i] := by
          rw [← List.getElem?_drop, hsplit, List.getElem?_append_right (le_refl _),
            Nat.sub_self, List.getElem?_cons_zero]
        have hj1 : j + pre.length < n := by
          have := List.getElem?_eq_some_iff.mp hget
          obtain ⟨hlt1, -⟩ := this
          omega
        rw [hsplit, skip_in_range_eq p1 b e (by omega) (by omega) pre post _ j hpre1 hc1]
          at hcall
        simp only [hget] at hcall
        rcases List.mem_cons.mp hcall with rfl | hrest
        · exact ⟨j + pre.length, rfl, by simp, hj1, _, hget, hc1⟩
        · refine ih (i + 1) (j + pre.length + 1) (by omega) ?_ call hrest
          have hdrop : p2.drop (j + pre.length + 1) = post := by
            rw [Nat.add_assoc, ← List.drop_drop, hsplit]
            simp
          rw [hdrop, hpost]
          congr 1
          unfold outside_below
          omega
    · rw [if_neg hjl] at hcall
      simp at hcall

/-! ## Claims on the fill loop -/

/-- C17. The crossover fill never runs off parent 2: for tours `p1`, `p2` of `[0, n)` and
`b`, `e` in `[0, n]`, every call of the skip loop made by `create_crossover_child`
returns an index `j1 < n` at or after the `j` it started from, where `p2` holds a city
that is not in `p1[b..e)`, so no read of `p2->order_[j]` is out of bounds and
`assert(j < p2->order_.size())` holds; and the fill loop as a whole returns. -/
theorem crossover_fill_stays_in_bounds (n : Nat) (p1 p2 : Chromosome) (b e : Nat)
    (h1 : IsTour n p1.order_) (h2 : IsTour n p2.order_) (hb : b ≤ n) (he : e ≤ n) :
    (∀ call ∈ crossover_skips p1.order_ p2.order_ b e p1.order_.length 0 0,
        ∃ j1, call.2 = .ok j1 ∧ call.1 ≤ j1 ∧ j1 < n ∧
          ∃ c, p2.order_[j1]? = some c ∧ c ∉ (p1.order_.drop b).take (e - b)) ∧
      ∃ child, crossover_loop p1.order_ p2.order_ b e p1.order_.length 0 0
        p1.clone.order_ = .ok child := by
  refine ⟨?_, _, crossover_loop_ox n p1.order_ p2.order_ h1 h2 b e hb he⟩
  exact crossover_skips_ok n p1.order_ p2.order_ h1 h2 b e hb he p1.order_.length 0 0
    (by rw [tour_length n _ h1]; omega) (by simp [outside_below, others])

/-- The window `[1, 3)` of `0 1 2 3 4` filled from `4 3 2 1 0`: the skip loop is called
for the positions 0, 3 and 4. -/
theorem crossover_fill_stays_in_bounds_witness :
    (∀ call ∈ crossover_skips tour_up.order_ tour_down.order_ 1 3 tour_up.order_.length 0 0,
        ∃ j1, call.2 = .ok j1 ∧ call.1 ≤ j1 ∧ j1 < 5 ∧
          ∃ c, tour_down.order_[j1]? = some c ∧ c ∉ (tour_up.order_.drop 1).take (3 - 1)) ∧
      ∃ child, crossover_loop tour_up.order_ tour_down.order_ 1 3 tour_up.order_.length 0 0
        tour_up.clone.order_ = .ok child :=
  crossover_fill_stays_in_bounds 5 tour_up tour_down 1 3 (by decide) (by decide) (by decide)
    (by decide)

/-! ## Facts about `get_best` -/

/-- What the loop of `get_best` returns: the pointer it came with when no tour is
shorter than `min_dist`, else the first slot among the shortest tours. -/
theorem get_best_loop_spec {α : Type} [LinearOrder α] (total_distance : List Nat → α) :
    ∀ (pop : List Chromosome) (i0 : Nat) (min_dist : α) (best : Option Nat),
      ((∀ c ∈ pop, ¬ total_distance c.order_ < min_dist) →
        get_best_loop total_distance pop i0 min_dist best = best) ∧
      ((∃ c ∈ pop, total_distance c.order_ < min_dist) →
        ∃ k cbest, pop[k]? = some cbest ∧
          get_best_loop total_distance pop i0 min_dist best = some (i0 + k) ∧
          total_distance cbest.order_ < min_dist ∧
          (∀ c ∈ pop, total_distance cbest.order_ ≤ total_distance c.order_) ∧
          ∀ m c, m < k → pop[m]? = some c →
            total_distance cbest.order_ < total_distance c.order_) := by
  intro pop
  induction pop with
  | nil =>
    intro i0 min_dist best
    refine ⟨fun _ => rfl, ?_⟩
    rintro ⟨c, hc, -⟩
    simp at hc
  | cons c rest ih =>
    intro i0 min_dist best
    unfold get_best_loop
    simp only
    by_cases hlt : total_distance c.order_ < min_dist
    · rw [if_pos hlt]
      refine ⟨fun h => absurd hlt (h c (by simp)), fun _ => ?_⟩
      obtain ⟨ih1, ih2⟩ := ih (i0 + 1) (total_distance c.order_) (some i0)
      by_cases hex : ∃ c1 ∈ rest, total_distance c1.order_ < total_distance c.order_
      · obtain ⟨k, cbest, hk, hres, hb1, hb2, hb3⟩ := ih2 hex
        refine ⟨k + 1, cbest, by simpa using hk, by rw [hres]; congr 1; omega,
          lt_trans hb1 hlt, ?_, ?_⟩
        · intro c1 hc1
          rcases List.mem_cons.mp hc1 with rfl | hc1
          · exact le_of_lt hb1
          · exact hb2 c1 hc1
        · intro m c1 hm hc1
          cases m with
          | zero =>
            simp only [List.getElem?_cons_zero, Option.some.injEq] at hc1
            subst hc1
            exact hb1
          | succ m =>
            simp only [List.getElem?_cons_succ] at hc1
            exact hb3 m c1 (by omega) hc1
      · have hall : ∀ c1 ∈ rest, ¬ total_distance c1.order_ < total_distance c.order_ :=
          fun c1 hc1 hlt1 => hex ⟨c1, hc1, hlt1⟩
        refine ⟨0, c, by simp, by rw [ih1 hall]; rfl, hlt, ?_, ?_⟩
        · intro c1 hc1
          rcases List.mem_cons.mp hc1 with rfl | hc1
          · exact le_refl _
          · exact not_lt.mp (hall c1 hc1)
        · intro m c1 hm _
          omega
    · rw [if_neg hlt]
      obtain ⟨ih1, ih2⟩ := ih (i0 + 1) min_dist best
      constructor
      · intro h
        exact ih1 (fun c1 hc1 => h c1 (by simp [hc1]))
      · rintro ⟨c1, hc1, hlt1⟩
        rcases List.mem_cons.mp hc1 with rfl | hc1
        · exact absurd hlt1 hlt
        · obtain ⟨k, cbest, hk, hres, hb1, hb2, hb3⟩ := ih2 ⟨c1, hc1, hlt1⟩
          have hmin : total_distance cbest.order_ < total_distance c.order_ :=
            lt_of_lt_of_le hb1 (not_lt.mp hlt)
          refine ⟨k + 1, cbest, by simpa using hk, by rw [hres]; congr 1; omega, hb1,
            ?_, ?_⟩
          · intro c2 hc2
            rcases List.mem_cons.mp hc2 with rfl | hc2
            · exact le_of_lt hmin
            · exact hb2 c2 hc2
          · intro m c2 hm hc2
            cases m with
            | zero =>
              simp only [List.getElem?_cons_zero, Option.some.injEq] at hc2
              subst hc2
              exact hmin
            | succ m =>
              simp only [List.getElem?_cons_succ] at hc2
              exact hb3 m c2 (by omega) hc2

/-! ## Claims on `get_best` -/

/-- C11. `get_best` is the first minimum: on a non-empty population in which every
tour's total distance is below `DBL_MAX`, `get_best` (the same in both `deme.cc`) returns
the chromosome of a slot `k` whose total distance is the least of the population, and
every earlier slot holds a strictly longer tour. -/
theorem get_best_first_minimum {α : Type} [LinearOrder α] (total_distance : List Nat → α)
    (dbl_max : α) (pop_ : List Chromosome) (hpop : pop_ ≠ [])
    (hdist : ∀ c ∈ pop_, total_distance c.order_ < dbl_max) :
    ∃ k cbest, get_best total_distance dbl_max pop_ = some k ∧ pop_[k]? = some cbest ∧
      (∀ c ∈ pop_, total_distance cbest.order_ ≤ total_distance c.order_) ∧
      ∀ m c, m < k → pop_[m]? = some c →
        total_distance cbest.order_ < total_distance c.order_ := by
  obtain ⟨c0, hc0⟩ := List.exists_mem_of_ne_nil pop_ hpop
  obtain ⟨k, cbest, hk, hres, -, hb2, hb3⟩ :=
    (get_best_loop_spec total_distance pop_ 0 dbl_max none).2 ⟨c0, hc0, hdist c0 hc0⟩
  refine ⟨k, cbest, ?_, hk, hb2, hb3⟩
  unfold get_best
  rw [hres, Nat.zero_add]

/-- Distances 4, 0, 4, 0 below 100: the second slot is returned, not the fourth. -/
theorem get_best_first_minimum_witness :
    ∃ k cbest, get_best distance_int 100 [tour_down, tour_up, tour_down, tour_up] = some k ∧
      [tour_down, tour_up, tour_down, tour_up][k]? = some cbest ∧
      (∀ c ∈ [tour_down, tour_up, tour_down, tour_up],
        distance_int cbest.order_ ≤ distance_int c.order_) ∧
      ∀ m c, m < k → [tour_down, tour_up, tour_down, tour_up][m]? = some c →
        distance_int cbest.order_ < distance_int c.order_ :=
  get_best_first_minimum distance_int 100 [tour_down, tour_up, tour_down, tour_up]
    (List.cons_ne_nil _ _)
    (fun c hc => by
      simp only [List.mem_cons, List.mem_singleton, List.not_mem_nil, or_false] at hc
      rcases hc with rfl | rfl | rfl | rfl <;> decide)

/-! ## Facts about the selection loop -/

theorem deme_take_parent_iff {α : Type} [Zero α] [Add α] [LT α]
    [DecidableRel (LT.lt : α → α → Prop)] (E : Env α) (d : Deme α)
    (res : Chromosome × Deme α) :
    d.take_parent E = .ok res ↔
      ∃ i parent, roulette_walk E (d.draw E) d.pop_ 0 0 = some i ∧ d.pop_[i]? = some parent ∧
        res = (parent, { pop_ := d.pop_.eraseIdx i, mut_rate_ := d.mut_rate_,
                         generator_ := d.generator_.advance }) := by
  unfold Deme.take_parent Deme.select_parent
  cases hw : roulette_walk E (d.draw E) d.pop_ 0 0 with
  | none => simp
  | some i =>
    simp only
    cases h2 : d.pop_[i]? with
    | none =>
      constructor
      · intro h
        simp at h
      · rintro ⟨j, q, hj, hq, -⟩
        simp only [Option.some.injEq] at hj
        subst hj
        rw [h2] at hq
        simp at hq
    | some parent =>
      simp only [Except.ok.injEq, Option.some.injEq]
      constructor
      · intro h
        exact ⟨i, parent, rfl, h2, h.symm⟩
      · rintro ⟨j, q, hj, hq, hres⟩
        subst hj
        rw [h2] at hq
        simp only [Option.some.injEq] at hq
        subst hq
        exact hres.symm

theorem src_deme_take_parent_iff {α : Type} [Zero α] [Add α] [Sub α] [LT α]
    [DecidableRel (LT.lt : α → α → Prop)] (E : Env α) (d : SrcDeme α)
    (res : Chromosome × SrcDeme α) :
    d.take_parent E = .ok res ↔
      ∃ i parent, roulette_walk E (d.draw E) d.pop_ 0 0 = some i ∧ d.pop_[i]? = some parent ∧
        res = (parent, { pop_ := d.pop_.eraseIdx i, mut_rate_ := d.mut_rate_,
                         generator_ := d.generator_.advance,
                         fitness_sum_ := d.fitness_sum_ - E.get_fitness parent.order_ }) := by
  unfold SrcDeme.take_parent SrcDeme.select_parent
  cases hw : roulette_walk E (d.draw E) d.pop_ 0 0 with
  | none => simp
  | some i =>
    simp only
    cases h2 : d.pop_[i]? with
    | none =>
      constructor
      · intro h
        simp at h
      · rintro ⟨j, q, hj, hq, -⟩
        simp only [Option.some.injEq] at hj
        subst hj
        rw [h2] at hq
        simp at hq
    | some parent =>
      simp only [Except.ok.injEq, Option.some.injEq]
      constructor
      · intro h
        exact ⟨i, parent, rfl, h2, h.symm⟩
      · rintro ⟨j, q, hj, hq, hres⟩
        subst hj
        rw [h2] at hq
        simp only [Option.some.injEq] at hq
        subst hq
        exact hres.symm

theorem map_eraseIdx {β γ : Type} (f : β → γ) :
    ∀ (l : List β) (i : Nat), (l.eraseIdx i).map f = (l.map f).eraseIdx i := by
  intro l
  induction l with
  | nil => intro i; rfl
  | cons a t ih =>
    intro i
    cases i with
    | zero => rfl
    | succ i => simp only [List.eraseIdx_cons_succ, List.map_cons, ih]

theorem cons_eraseIdx_perm {β : Type} :
    ∀ (l : List β) (i : Nat) (a : β), l[i]? = some a → List.Perm (a :: l.eraseIdx i) l := by
  intro l
  induction l with
  | nil => intro i a h; simp at h
  | cons b t ih =>
    intro i a h
    cases i with
    | zero =>
      simp only [List.getElem?_cons_zero, Option.some.injEq] at h
      subst h
      exact List.Perm.refl _
    | succ i =>
      simp only [List.getElem?_cons_succ] at h
      simp only [List.eraseIdx_cons_succ]
      exact (List.Perm.swap _ _ _).trans ((ih i a h).cons b)

theorem length_eraseIdx_of_get {β : Type} (l : List β) (i : Nat) (a : β)
    (h : l[i]? = some a) : (l.eraseIdx i).length + 1 = l.length := by
  have hi : i < l.length := (List.getElem?_eq_some_iff.mp h).1
  rw [List.length_eraseIdx_of_lt hi]
  omega

/-! ## The cached total under exact arithmetic -/

theorem sum_fitness_shift {α : Type} [AddCommGroup α] (E : Env α) (a : α) :
    ∀ (pop : List Chromosome) (s : α), sum_fitness E (s + a) pop = sum_fitness E s pop + a := by
  intro pop
  induction pop with
  | nil => intro s; rfl
  | cons c rest ih =>
    intro s
    rw [sum_fitness_cons, sum_fitness_cons, add_right_comm, ih]

/-- Erasing a chromosome takes its fitness out of the sum. -/
theorem sum_fitness_eraseIdx {α : Type} [AddCommGroup α] (E : Env α) :
    ∀ (pop : List Chromosome) (i : Nat) (s : α) (parent : Chromosome),
      pop[i]? = some parent →
      sum_fitness E s (pop.eraseIdx i) = sum_fitness E s pop - E.get_fitness parent.order_ := by
  intro pop
  induction pop with
  | nil => intro i s parent h; simp at h
  | cons c rest ih =>
    intro i s parent h
    cases i with
    | zero =>
      simp only [List.getElem?_cons_zero, Option.some.injEq] at h
      subst h
      rw [List.eraseIdx_cons_zero, sum_fitness_cons, sum_fitness_shift, add_sub_cancel_right]
    | succ i =>
      simp only [List.getElem?_cons_succ] at h
      rw [List.eraseIdx_cons_succ, sum_fitness_cons, sum_fitness_cons, ih i _ parent h]

/-- One round of selection keeps `fitness_sum_` equal to the sum over `pop_`. -/
theorem src_deme_take_parent_consistent {α : Type} [AddCommGroup α] [LT α]
    [DecidableRel (LT.lt : α → α → Prop)] (E : Env α) (d : SrcDeme α)
    (res : Chromosome × SrcDeme α) (h : d.take_parent E = .ok res)
    (hc : d.fitness_sum_ = sum_fitness E 0 d.pop_) :
    res.2.fitness_sum_ = sum_fitness E 0 res.2.pop_ := by
  obtain ⟨i, parent, -, hp, hres⟩ := (src_deme_take_parent_iff E d res).mp h
  subst hres
  simp only
  rw [sum_fitness_eraseIdx E d.pop_ i 0 parent hp, hc]

theorem src_deme_select_calls_consistent {α : Type} [AddCommGroup α] [LT α]
    [DecidableRel (LT.lt : α → α → Prop)] (E : Env α) :
    ∀ (k : Nat) (d : SrcDeme α), d.fitness_sum_ = sum_fitness E 0 d.pop_ →
      ∀ s ∈ SrcDeme.select_calls E k d, s.fitness_sum_ = sum_fitness E 0 s.pop_ := by
  intro k
  induction k with
  | zero => intro d _ s hs; simp [SrcDeme.select_calls] at hs
  | succ k ih =>
    intro d hc s hs
    unfold SrcDeme.select_calls at hs
    rcases List.mem_cons.mp hs with rfl | hs
    · exact hc
    · cases h1 : d.take_parent E with
      | error f => rw [h1] at hs; simp at hs
      | ok r1 =>
        rw [h1] at hs
        simp only at hs
        have hc1 := src_deme_take_parent_consistent E d r1 h1 hc
        rcases List.mem_cons.mp hs with rfl | hs
        · exact hc1
        · cases h2 : r1.2.take_parent E with
          | error f => rw [h2] at hs; simp at hs
          | ok r2 =>
            rw [h2] at hs
            simp only at hs
            exact ih r2.2 (src_deme_take_parent_consistent E r1.2 r2 h2 hc1) s hs

/-! ## Claims on the cached total -/

/-- C12. The cached fitness total stays consistent: under exact arithmetic, on every deme
on which `compute_next_generation` of `src/src/deme.cc` calls `select_parent`, the
member `fitness_sum_` equals the sum of `get_fitness()` over the chromosomes still in
`pop_`. -/
theorem cached_fitness_sum_consistent {α : Type} [AddCommGroup α] [LT α]
    [DecidableRel (LT.lt : α → α → Prop)] (E : Env α) (d s : SrcDeme α)
    (hs : s ∈ SrcDeme.select_calls E (d.pop_.length / 2) (d.start E)) :
    s.fitness_sum_ = sum_fitness E 0 s.pop_ :=
  src_deme_select_calls_consistent E _ (d.start E) rfl s hs

/-- The second call of `select_parent` on fitnesses 1, 5, 1 with every draw 0: slot 0
is gone and the cached total is 6. -/
theorem cached_fitness_sum_consistent_witness :
    ({ pop_ := [tour_down, tour_up], mut_rate_ := 1, generator_ := fun _ => 0,
       fitness_sum_ := 6 } : SrcDeme Int).fitness_sum_
      = sum_fitness env_int 0 [tour_down, tour_up] :=
  cached_fitness_sum_consistent env_int (src_deme_int 0)
    { pop_ := [tour_down, tour_up], mut_rate_ := 1, generator_ := fun _ => 0,
      fitness_sum_ := 6 }
    (List.mem_cons_of_mem _ (List.mem_cons_self _ _))

/-! ## Selection without replacement -/

/-- Erasing slot `i` of a pool whose members are tracked to slots `ps` of `orig`. -/
theorem erase_tracked (orig pool : List Chromosome) (ps : List Nat) (i : Nat)
    (parent : Chromosome) (htr : pool.map some = ps.map (fun slot => orig[slot]?))
    (hp : pool[i]? = some parent) :
    ∃ slot, ps[i]? = some slot ∧ orig[slot]? = some parent ∧
      (pool.eraseIdx i).map some = (ps.eraseIdx i).map (fun slot => orig[slot]?) := by
  have h1 : (pool.map some)[i]? = some (some parent) := by
    rw [List.getElem?_map, hp]; rfl
  rw [htr, List.getElem?_map] at h1
  cases hps : ps[i]? with
  | none => rw [hps] at h1; simp at h1
  | some slot =>
    rw [hps] at h1
    simp only [Option.map_some', Option.some.injEq] at h1
    exact ⟨slot, rfl, h1, by rw [map_eraseIdx, map_eraseIdx, htr]⟩

theorem deme_select_pairs_slots {α : Type} [Zero α] [Add α] [LT α]
    [DecidableRel (LT.lt : α → α → Prop)] (E : Env α) (orig : List Chromosome) :
    ∀ (k : Nat) (d : Deme α) (ps : List Nat)
      (x : List (Chromosome × Chromosome) × Deme α),
      d.pop_.map some = ps.map (fun slot => orig[slot]?) →
      Deme.select_pairs E k d = .ok x →
      ∃ sel rest, List.Perm (sel ++ rest) ps ∧ sel.length = 2 * k ∧
        (parents_of x.1).map some = sel.map (fun slot => orig[slot]?) ∧
        x.2.pop_.map some = rest.map (fun slot => orig[slot]?) := by
  intro k
  induction k with
  | zero =>
    intro d ps x htr h
    simp only [Deme.select_pairs] at h
    injection h with h
    subst h
    exact ⟨[], ps, List.Perm.refl _, rfl, rfl, htr⟩
  | succ k ih =>
    intro d ps x htr h
    unfold Deme.select_pairs at h
    cases h1 : d.take_parent E with
    | error f => rw [h1] at h; simp at h
    | ok r1 =>
      rw [h1] at h
      simp only at h
      cases h2 : r1.2.take_parent E with
      | error f => rw [h2] at h; simp at h
      | ok r2 =>
        rw [h2] at h
        simp only at h
        cases h3 : Deme.select_pairs E k r2.2 with
        | error f => rw [h3] at h; simp at h
        | ok r3 =>
          rw [h3] at h
          simp only at h
          injection h with h
          subst h
          obtain ⟨i1, q1, -, hq1, hr1⟩ := (deme_take_parent_iff E d r1).mp h1
          obtain ⟨s1, hs1, ho1, htr1⟩ := erase_tracked orig d.pop_ ps i1 q1 htr hq1
          have hpop1 : r1.2.pop_ = d.pop_.eraseIdx i1 := by rw [hr1]
          obtain ⟨i2, q2, -, hq2, hr2⟩ := (deme_take_parent_iff E r1.2 r2).mp h2
          rw [hpop1] at hq2
          obtain ⟨s2, hs2, ho2, htr2⟩ :=
            erase_tracked orig (d.pop_.eraseIdx i1) (ps.eraseIdx i1) i2 q2 htr1 hq2
          have hpop2 : r2.2.pop_ = (d.pop_.eraseIdx i1).eraseIdx i2 := by rw [hr2, hpop1]
          obtain ⟨sel, rest, hperm, hlen, hsel, hrest⟩ :=
            ih r2.2 ((ps.eraseIdx i1).eraseIdx i2) r3 (by rw [hpop2]; exact htr2) h3
          refine ⟨s1 :: s2 :: sel, rest, ?_, by simp only [List.length_cons]; omega, ?_, hrest⟩
          · have hp2 := cons_eraseIdx_perm (ps.eraseIdx i1) i2 s2 hs2
            have hp1 := cons_eraseIdx_perm ps i1 s1 hs1
            exact (((hperm.cons s2).trans hp2).cons s1).trans hp1
          · have hfirst : r1.1 = q1 := by rw [hr1]
            have hsecond : r2.1 = q2 := by rw [hr2]
            simp only [parents_of, List.flatMap_cons, List.cons_append, List.nil_append,
              List.map_cons, hfirst, hsecond, ho1, ho2]
            congr 2

theorem deme_select_calls_sizes {α : Type} [Zero α] [Add α] [LT α]
    [DecidableRel (LT.lt : α → α → Prop)] (E : Env α) :
    ∀ (k : Nat) (d : Deme α) (x : List (Chromosome × Chromosome) × Deme α),
      Deme.select_pairs E k d = .ok x →
      (Deme.select_calls E k d).length = 2 * k ∧
        ∀ j c, (Deme.select_calls E k d)[j]? = some c → c.pop_.length + j = d.pop_.length := by
  intro k
  induction k with
  | zero =>
    intro d x _
    refine ⟨rfl, fun j c hc => ?_⟩
    simp [Deme.select_calls] at hc
  | succ k ih =>
    intro d x h
    unfold Deme.select_pairs at h
    unfold Deme.select_calls
    cases h1 : d.take_parent E with
    | error f => rw [h1] at h; simp at h
    | ok r1 =>
      rw [h1] at h
      simp only at h
      cases h2 : r1.2.take_parent E with
      | error f => rw [h2] at h; simp at h
      | ok r2 =>
        rw [h2] at h
        simp only at h
        cases h3 : Deme.select_pairs E k r2.2 with
        | error f => rw [h3] at h; simp at h
        | ok r3 =>
          obtain ⟨i1, q1, -, hq1, hr1⟩ := (deme_take_parent_iff E d r1).mp h1
          have hpop1 : r1.2.pop_ = d.pop_.eraseIdx i1 := by rw [hr1]
          obtain ⟨i2, q2, -, hq2, hr2⟩ := (deme_take_parent_iff E r1.2 r2).mp h2
          have hpop2 : r2.2.pop_ = r1.2.pop_.eraseIdx i2 := by rw [hr2]
          have hl1 := length_eraseIdx_of_get d.pop_ i1 q1 hq1
          have hl2 := length_eraseIdx_of_get r1.2.pop_ i2 q2 hq2
          rw [← hpop1] at hl1
          rw [← hpop2] at hl2
          obtain ⟨ihlen, ihget⟩ := ih r2.2 r3 h3
          simp only [h2]
          refine ⟨by simp only [List.length_cons, ihlen]; omega, fun j c hc => ?_⟩
          cases j with
          | zero =>
            simp only [List.getElem?_cons_zero, Option.some.injEq] at hc
            subst hc
            rfl
          | succ j =>
            cases j with
            | zero =>
              simp only [List.getElem?_cons_succ, List.getElem?_cons_zero,
                Option.some.injEq] at hc
              subst hc
              omega
            | succ j =>
              simp only [List.getElem?_cons_succ] at hc
              have := ihget j c hc
              omega

theorem src_deme_select_pairs_slots {α : Type} [Zero α] [Add α] [Sub α] [LT α]
    [DecidableRel (LT.lt : α → α → Prop)] (E : Env α) (orig : List Chromosome) :
    ∀ (k : Nat) (d : SrcDeme α) (ps : List Nat)
      (x : List (Chromosome × Chromosome) × SrcDeme α),
      d.pop_.map some = ps.map (fun slot => orig[slot]?) →
      SrcDeme.select_pairs E k d = .ok x →
      ∃ sel rest, List.Perm (sel ++ rest) ps ∧ sel.length = 2 * k ∧
        (parents_of x.1).map some = sel.map (fun slot => orig[slot]?) ∧
        x.2.pop_.map some = rest.map (fun slot => orig[slot]?) := by
  intro k
  induction k with
  | zero =>
    intro d ps x htr h
    simp only [SrcDeme.select_pairs] at h
    injection h with h
    subst h
    exact ⟨[], ps, List.Perm.refl _, rfl, rfl, htr⟩
  | succ k ih =>
    intro d ps x htr h
    unfold SrcDeme.select_pairs at h
    cases h1 : d.take_parent E with
    | error f => rw [h1] at h; simp at h
    | ok r1 =>
      rw [h1] at h
      simp only at h
      cases h2 : r1.2.take_parent E with
      | error f => rw [h2] at h; simp at h
      | ok r2 =>
        rw [h2] at h
        simp only at h
        cases h3 : SrcDeme.select_pairs E k r2.2 with
        | error f => rw [h3] at h; simp at h
        | ok r3 =>
          rw [h3] at h
          simp only at h
          injection h with h
          subst h
          obtain ⟨i1, q1, -, hq1, hr1⟩ := (src_deme_take_parent_iff E d r1).mp h1
          obtain ⟨s1, hs1, ho1, htr1⟩ := erase_tracked orig d.pop_ ps i1 q1 htr hq1
          have hpop1 : r1.2.pop_ = d.pop_.eraseIdx i1 := by rw [hr1]
          obtain ⟨i2, q2, -, hq2, hr2⟩ := (src_deme_take_parent_iff E r1.2 r2).mp h2
          rw [hpop1] at hq2
          obtain ⟨s2, hs2, ho2, htr2⟩ :=
            erase_tracked orig (d.pop_.eraseIdx i1) (ps.eraseIdx i1) i2 q2 htr1 hq2
          have hpop2 : r2.2.pop_ = (d.pop_.eraseIdx i1).eraseIdx i2 := by rw [hr2, hpop1]
          obtain ⟨sel, rest, hperm, hlen, hsel, hrest⟩ :=
            ih r2.2 ((ps.eraseIdx i1).eraseIdx i2) r3 (by rw [hpop2]; exact htr2) h3
          refine ⟨s1 :: s2 :: sel, rest, ?_, by simp only [List.length_cons]; omega, ?_, hrest⟩
          · have hp2 := cons_eraseIdx_perm (ps.eraseIdx i1) i2 s2 hs2
            have hp1 := cons_eraseIdx_perm ps i1 s1 hs1
            exact (((hperm.cons s2).trans hp2).cons s1).trans hp1
          · have hfirst : r1.1 = q1 := by rw [hr1]
            have hsecond : r2.1 = q2 := by rw [hr2]
            simp only [parents_of, List.flatMap_cons, List.cons_append, List.nil_append,
              List.map_cons, hfirst, hsecond, ho1, ho2]
            congr 2

theorem src_deme_select_calls_sizes {α : Type} [Zero α] [Add α] [Sub α] [LT α]
    [DecidableRel (LT.lt : α → α → Prop)] (E : Env α) :
    ∀ (k : Nat) (d : SrcDeme α) (x : List (Chromosome × Chromosome) × SrcDeme α),
      SrcDeme.select_pairs E k d = .ok x →
      (SrcDeme.select_calls E k d).length = 2 * k ∧
        ∀ j c, (SrcDeme.select_calls E k d)[j]? = some c → c.pop_.length + j = d.pop_.length := by
  intro k
  induction k with
  | zero =>
    intro d x _
    refine ⟨rfl, fun j c hc => ?_⟩
    simp [SrcDeme.select_calls] at hc
  | succ k ih =>
    intro d x h
    unfold SrcDeme.select_pairs at h
    unfold SrcDeme.select_calls
    cases h1 : d.take_parent E with
    | error f => rw [h1] at h; simp at h
    | ok r1 =>
      rw [h1] at h
      simp only at h
      cases h2 : r1.2.take_parent E with
      | error f => rw [h2] at h; simp at h
      | ok r2 =>
        rw [h2] at h
        simp only at h
        cases h3 : SrcDeme.select_pairs E k r2.2 with
        | error f => rw [h3] at h; simp at h
        | ok r3 =>
          obtain ⟨i1, q1, -, hq1, hr1⟩ := (src_deme_take_parent_iff E d r1).mp h1
          have hpop1 : r1.2.pop_ = d.pop_.eraseIdx i1 := by rw [hr1]
          obtain ⟨i2, q2, -, hq2, hr2⟩ := (src_deme_take_parent_iff E r1.2 r2).mp h2
          have hpop2 : r2.2.pop_ = r1.2.pop_.eraseIdx i2 := by rw [hr2]
          have hl1 := length_eraseIdx_of_get d.pop_ i1 q1 hq1
          have hl2 := length_eraseIdx_of_get r1.2.pop_ i2 q2 hq2
          rw [← hpop1] at hl1
          rw [← hpop2] at hl2
          obtain ⟨ihlen, ihget⟩ := ih r2.2 r3 h3
          simp only [h2]
          refine ⟨by simp only [List.length_cons, ihlen]; omega, fun j c hc => ?_⟩
          cases j with
          | zero =>
            simp only [List.getElem?_cons_zero, Option.some.injEq] at hc
            subst hc
            rfl
          | succ j =>
            cases j with
            | zero =>
              simp only [List.getElem?_cons_succ, List.getElem?_cons_zero,
                Option.some.injEq] at hc
              subst hc
              omega
            | succ j =>
              simp only [List.getElem?_cons_succ] at hc
              have := ihget j c hc
              omega

theorem map_some_eq_range_map (pop : List Chromosome) :
    pop.map some = (List.range pop.length).map (fun slot => pop[slot]?) := by
  apply List.ext_getElem?
  intro i
  rw [List.getElem?_map, List.getElem?_map]
  by_cases hi : i < pop.length
  · rw [List.getElem?_range hi, List.getElem?_eq_getElem hi]
    simp only [Option.map_some']
    rw [List.getElem?_eq_getElem hi]
  · rw [List.getElem?_eq_none (by omega),
      List.getElem?_eq_none (by rw [List.length_range]; omega)]
    rfl

/-! ## Claims on selection -/

/-- C13. Selection without replacement, for `src/deme.cc` and `src/src/deme.cc`: when
every selection of one `compute_next_generation` succeeds on a population of `N`
chromosomes, the `2 * floor(N / 2)` selected parents are the chromosomes of pairwise
distinct slots `sel` of the previous population, the chromosomes left in the pool are
those of the other slots, and the call number `j + 1` of `select_parent` is made on a
pool of `N - j` chromosomes. -/
theorem selection_without_replacement {α : Type} [Zero α] [Add α] [Sub α] [LT α]
    [DecidableRel (LT.lt : α → α → Prop)] (E : Env α) (d : Deme α) (s : SrcDeme α)
    (x : List (Chromosome × Chromosome) × Deme α)
    (y : List (Chromosome × Chromosome) × SrcDeme α)
    (hd : Deme.select_pairs E (d.pop_.length / 2) d = .ok x)
    (hs : SrcDeme.select_pairs E (s.pop_.length / 2) (s.start E) = .ok y) :
    (∃ sel rest : List Nat, List.Perm (sel ++ rest) (List.range d.pop_.length) ∧ sel.Nodup ∧
        sel.length = 2 * (d.pop_.length / 2) ∧
        (parents_of x.1).map some = sel.map (fun slot => d.pop_[slot]?) ∧
        x.2.pop_.map some = rest.map (fun slot => d.pop_[slot]?)) ∧
      ((Deme.select_calls E (d.pop_.length / 2) d).length = 2 * (d.pop_.length / 2) ∧
        ∀ j c, (Deme.select_calls E (d.pop_.length / 2) d)[j]? = some c →
          c.pop_.length + j = d.pop_.length) ∧
      (∃ sel rest : List Nat, List.Perm (sel ++ rest) (List.range s.pop_.length) ∧ sel.Nodup ∧
        sel.length = 2 * (s.pop_.length / 2) ∧
        (parents_of y.1).map some = sel.map (fun slot => s.pop_[slot]?) ∧
        y.2.pop_.map some = rest.map (fun slot => s.pop_[slot]?)) ∧
      ((SrcDeme.select_calls E (s.pop_.length / 2) (s.start E)).length
          = 2 * (s.pop_.length / 2) ∧
        ∀ j c, (SrcDeme.select_calls E (s.pop_.length / 2) (s.start E))[j]? = some c →
          c.pop_.length + j = s.pop_.length) := by
  obtain ⟨sel1, rest1, hp1, hl1, hsel1, hrest1⟩ :=
    deme_select_pairs_slots E d.pop_ _ d (List.range d.pop_.length) x
      (map_some_eq_range_map d.pop_) hd
  obtain ⟨sel2, rest2, hp2, hl2, hsel2, hrest2⟩ :=
    src_deme_select_pairs_slots E s.pop_ _ (s.start E) (List.range s.pop_.length) y
      (map_some_eq_range_map s.pop_) hs
  have hn1 : (sel1 ++ rest1).Nodup := (List.Perm.nodup_iff hp1).mpr (List.nodup_range _)
  have hn2 : (sel2 ++ rest2).Nodup := (List.Perm.nodup_iff hp2).mpr (List.nodup_range _)
  exact ⟨⟨sel1, rest1, hp1, hn1.of_append_left, hl1, hsel1, hrest1⟩,
    deme_select_calls_sizes E _ d x hd,
    ⟨sel2, rest2, hp2, hn2.of_append_left, hl2, hsel2, hrest2⟩,
    src_deme_select_calls_sizes E _ (s.start E) y hs⟩

/-- Fitnesses 1, 5, 1 and every draw 0: slot 0 is selected, then the chromosome that
was in slot 1; the chromosome of slot 2 is left. -/
theorem selection_without_replacement_witness :
    (∃ sel rest : List Nat, List.Perm (sel ++ rest) (List.range (deme_int 0).pop_.length) ∧
        sel.Nodup ∧ sel.length = 2 * ((deme_int 0).pop_.length / 2) ∧
        (parents_of [(tour_up, tour_down)]).map some
          = sel.map (fun slot => (deme_int 0).pop_[slot]?) ∧
        [tour_up].map some = rest.map (fun slot => (deme_int 0).pop_[slot]?)) ∧
      ((Deme.select_calls env_int ((deme_int 0).pop_.length / 2) (deme_int 0)).length
          = 2 * ((deme_int 0).pop_.length / 2) ∧
        ∀ j c, (Deme.select_calls env_int ((deme_int 0).pop_.length / 2) (deme_int 0))[j]?
            = some c → c.pop_.length + j = (deme_int 0).pop_.length) ∧
      (∃ sel rest : List Nat,
        List.Perm (sel ++ rest) (List.range (src_deme_int 0).pop_.length) ∧ sel.Nodup ∧
        sel.length = 2 * ((src_deme_int 0).pop_.length / 2) ∧
        (parents_of [(tour_up, tour_down)]).map some
          = sel.map (fun slot => (src_deme_int 0).pop_[slot]?) ∧
        [tour_up].map some = rest.map (fun slot => (src_deme_int 0).pop_[slot]?)) ∧
      ((SrcDeme.select_calls env_int ((src_deme_int 0).pop_.length / 2)
          ((src_deme_int 0).start env_int)).length
          = 2 * ((src_deme_int 0).pop_.length / 2) ∧
        ∀ j c, (SrcDeme.select_calls env_int ((src_deme_int 0).pop_.length / 2)
            ((src_deme_int 0).start env_int))[j]? = some c →
          c.pop_.length + j = (src_deme_int 0).pop_.length) :=
  selection_without_replacement env_int (deme_int 0) (src_deme_int 0)
    ([(tour_up, tour_down)], { pop_ := [tour_up], mut_rate_ := 1, generator_ := fun _ => 0 })
    ([(tour_up, tour_down)],
      { pop_ := [tour_up], mut_rate_ := 1, generator_ := fun _ => 0, fitness_sum_ := 1 })
    rfl rfl

/-! ## The generation, pair by pair -/

theorem src_deme_select_pairs_members {α : Type} [Zero α] [Add α] [Sub α] [LT α]
    [DecidableRel (LT.lt : α → α → Prop)] (E : Env α) :
    ∀ (k : Nat) (d : SrcDeme α) (x : List (Chromosome × Chromosome) × SrcDeme α),
      SrcDeme.select_pairs E k d = .ok x →
      x.2.mut_rate_ = d.mut_rate_ ∧ x.2.generator_ = d.generator_.skip (2 * k) := by
  intro k
  induction k with
  | zero =>
    intro d x h
    simp only [SrcDeme.select_pairs] at h
    injection h with h
    subst h
    exact ⟨rfl, rfl⟩
  | succ k ih =>
    intro d x h
    unfold SrcDeme.select_pairs at h
    cases h1 : d.take_parent E with
    | error f => rw [h1] at h; simp at h
    | ok r1 =>
      rw [h1] at h
      simp only at h
      cases h2 : r1.2.take_parent E with
      | error f => rw [h2] at h; simp at h
      | ok r2 =>
        rw [h2] at h
        simp only at h
        cases h3 : SrcDeme.select_pairs E k r2.2 with
        | error f => rw [h3] at h; simp at h
        | ok r3 =>
          rw [h3] at h
          simp only at h
          injection h with h
          subst h
          obtain ⟨i1, q1, -, -, hr1⟩ := (src_deme_take_parent_iff E d r1).mp h1
          obtain ⟨i2, q2, -, -, hr2⟩ := (src_deme_take_parent_iff E r1.2 r2).mp h2
          obtain ⟨hm, hg⟩ := ih r2.2 r3 h3
          have hm2 : r2.2.mut_rate_ = d.mut_rate_ := by rw [hr2, hr1]
          have hg2 : r2.2.generator_ = d.generator_.advance.advance := by rw [hr2, hr1]
          refine ⟨by simp only; rw [hm, hm2], ?_⟩
          simp only
          rw [hg, hg2]
          funext i
          simp only [Gen.skip, Gen.advance]
          congr 1

theorem mutate_if_ok {α : Type} [LT α] [DecidableRel (LT.lt : α → α → Prop)]
    (fuel : Nat) (r mut_rate : α) (c m : Chromosome) (h : mutate_if fuel r mut_rate c = .ok m) :
    (r < mut_rate → mutate fuel c = .ok m) ∧ (¬ r < mut_rate → m = c) := by
  unfold mutate_if at h
  by_cases hr : r < mut_rate
  · rw [if_pos hr] at h
    exact ⟨fun _ => h, fun hn => absurd hr hn⟩
  · rw [if_neg hr] at h
    injection h with h
    exact ⟨fun hp => absurd hp hr, fun _ => h.symm⟩

/-- The mutation loop, pair by pair: pair `k` uses the draws `2k` and `2k + 1`. -/
theorem mutate_pairs_pointwise {α : Type} [Zero α] [One α] [LT α]
    [DecidableRel (LT.lt : α → α → Prop)] (E : Env α) (fuel : Nat) (mut_rate : α) :
    ∀ (pairs : List (Chromosome × Chromosome)) (g : Gen α)
      (res : List (Chromosome × Chromosome) × Gen α),
      mutate_pairs E fuel mut_rate pairs g = .ok res →
      ∀ k p, pairs[k]? = some p → ∃ m, res.1[k]? = some m ∧
        mutate_if fuel (E.uniform 0 (E.nextafter 1) (g (2 * k))) mut_rate p.1 = .ok m.1 ∧
        mutate_if fuel (E.uniform 0 (E.nextafter 1) (g (2 * k + 1))) mut_rate p.2 = .ok m.2 := by
  intro pairs
  induction pairs with
  | nil => intro g res _ k p hp; simp at hp
  | cons q rest ih =>
    intro g res h k p hp
    obtain ⟨first, second⟩ := q
    unfold mutate_pairs at h
    simp only at h
    cases h1 : mutate_if fuel (E.uniform 0 (E.nextafter 1) (g 0)) mut_rate first with
    | error f => rw [h1] at h; simp at h
    | ok first1 =>
      rw [h1] at h
      simp only at h
      cases h2 : mutate_if fuel (E.uniform 0 (E.nextafter 1) (g 1)) mut_rate second with
      | error f => rw [h2] at h; simp at h
      | ok second1 =>
        rw [h2] at h
        simp only at h
        cases h3 : mutate_pairs E fuel mut_rate rest (g.skip 2) with
        | error f => rw [h3] at h; simp at h
        | ok res1 =>
          rw [h3] at h
          simp only at h
          injection h with h
          subst h
          cases k with
          | zero =>
            simp only [List.getElem?_cons_zero, Option.some.injEq] at hp
            subst hp
            exact ⟨(first1, second1), by simp, h1, h2⟩
          | succ k =>
            simp only [List.getElem?_cons_succ] at hp
            obtain ⟨m, hm, hm1, hm2⟩ := ih (g.skip 2) res1 h3 k p hp
            refine ⟨m, by simpa using hm, ?_, ?_⟩
            · rw [show 2 * (k + 1) = 2 * k + 2 by omega]; exact hm1
            · rw [show 2 * (k + 1) + 1 = 2 * k + 1 + 2 by omega]; exact hm2

/-- The recombination loop, pair by pair: the children of pair `k` are the slots `2k`
and `2k + 1` of the new population. -/
theorem recombine_pairs_pointwise (fuel : Nat) :
    ∀ (pairs : List (Chromosome × Chromosome)) (pop : List Chromosome),
      recombine_pairs fuel pairs = .ok pop →
      ∀ k m, pairs[k]? = some m → ∃ c, recombine fuel m.1 m.2 = .ok c ∧
        pop[2 * k]? = some c.1 ∧ pop[2 * k + 1]? = some c.2 := by
  intro pairs
  induction pairs with
  | nil => intro pop _ k m hm; simp at hm
  | cons q rest ih =>
    intro pop h k m hm
    obtain ⟨first, second⟩ := q
    unfold recombine_pairs at h
    cases h1 : recombine fuel first second with
    | error f => rw [h1] at h; simp at h
    | ok child_pair =>
      rw [h1] at h
      simp only at h
      cases h2 : recombine_pairs fuel rest with
      | error f => rw [h2] at h; simp at h
      | ok pop1 =>
        rw [h2] at h
        simp only at h
        injection h with h
        subst h
        cases k with
        | zero =>
          simp only [List.getElem?_cons_zero, Option.some.injEq] at hm
          subst hm
          exact ⟨child_pair, h1, by simp, by simp⟩
        | succ k =>
          simp only [List.getElem?_cons_succ] at hm
          obtain ⟨c, hc, hc1, hc2⟩ := ih pop1 h2 k m hm
          refine ⟨c, hc, ?_, ?_⟩
          · rw [show 2 * (k + 1) = 2 * k + 1 + 1 by omega]
            simpa using hc1
          · rw [show 2 * (k + 1) + 1 = 2 * k + 1 + 1 + 1 by omega]
            simpa using hc2

/-- When no draw is below `mut_rate_`, the mutation loop leaves every pair as it is. -/
theorem mutate_pairs_none {α : Type} [Zero α] [One α] [LT α]
    [DecidableRel (LT.lt : α → α → Prop)] (E : Env α) (fuel : Nat) (mut_rate : α)
    (hno : ∀ u, ¬ E.uniform 0 (E.nextafter 1) u < mut_rate) :
    ∀ (pairs : List (Chromosome × Chromosome)) (g : Gen α)
      (res : List (Chromosome × Chromosome) × Gen α),
      mutate_pairs E fuel mut_rate pairs g = .ok res → res.1 = pairs := by
  intro pairs
  induction pairs with
  | nil =>
    intro g res h
    simp only [mutate_pairs] at h
    injection h with h
    subst h
    rfl
  | cons q rest ih =>
    intro g res h
    obtain ⟨first, second⟩ := q
    unfold mutate_pairs at h
    simp only [mutate_if, if_neg (hno _)] at h
    cases h3 : mutate_pairs E fuel mut_rate rest (g.skip 2) with
    | error f => rw [h3] at h; simp at h
    | ok res1 =>
      rw [h3] at h
      simp only at h
      injection h with h
      subst h
      simp only
      rw [ih _ _ h3]

/-! ## Claims on the new generation -/

/-- The shape of a generation that `compute_next_generation` of `src/src/deme.cc`
returns: the children of `recombine` on each selected pair, each parent mutated first
if and only if its own draw is below `mut_rate_`. -/
theorem src_deme_next_generation_shape {α : Type} [Zero α] [One α] [Add α] [Sub α] [LT α]
    [DecidableRel (LT.lt : α → α → Prop)] (E : Env α) (fuel : Nat) (d d1 : SrcDeme α)
    (h : d.compute_next_generation E fuel = .ok d1) :
    ∃ (pairs mutated : List (Chromosome × Chromosome)) (ds : SrcDeme α),
      SrcDeme.select_pairs E (d.pop_.length / 2) (d.start E) = .ok (pairs, ds) ∧
      pairs.length = d.pop_.length / 2 ∧ mutated.length = pairs.length ∧
      d1.pop_.length = 2 * pairs.length ∧
      (∀ k p, pairs[k]? = some p → ∃ m c, mutated[k]? = some m ∧
        (E.uniform 0 (E.nextafter 1) (d.generator_ (2 * k + 2 * (d.pop_.length / 2)))
            < d.mut_rate_ → mutate fuel p.1 = .ok m.1) ∧
        (¬ E.uniform 0 (E.nextafter 1) (d.generator_ (2 * k + 2 * (d.pop_.length / 2)))
            < d.mut_rate_ → m.1 = p.1) ∧
        (E.uniform 0 (E.nextafter 1) (d.generator_ (2 * k + 1 + 2 * (d.pop_.length / 2)))
            < d.mut_rate_ → mutate fuel p.2 = .ok m.2) ∧
        (¬ E.uniform 0 (E.nextafter 1) (d.generator_ (2 * k + 1 + 2 * (d.pop_.length / 2)))
            < d.mut_rate_ → m.2 = p.2) ∧
        recombine fuel m.1 m.2 = .ok c ∧
        d1.pop_[2 * k]? = some c.1 ∧ d1.pop_[2 * k + 1]? = some c.2) ∧
      (d.mut_rate_ = 0 → (∀ u, ¬ E.uniform 0 (E.nextafter 1) u < 0) → mutated = pairs) := by
  unfold SrcDeme.compute_next_generation at h
  simp only at h
  cases h1 : SrcDeme.select_pairs E (d.pop_.length / 2)
      { d with fitness_sum_ := sum_fitness E 0 d.pop_ } with
  | error f => rw [h1] at h; simp at h
  | ok r1 =>
    rw [h1] at h
    simp only at h
    cases h2 : mutate_pairs E fuel r1.2.mut_rate_ r1.1 r1.2.generator_ with
    | error f => rw [h2] at h; simp at h
    | ok r2 =>
      rw [h2] at h
      simp only at h
      cases h3 : recombine_pairs fuel r2.1 with
      | error f => rw [h3] at h; simp at h
      | ok pop =>
        rw [h3] at h
        simp only at h
        injection h with h
        subst h
        obtain ⟨hm, hg⟩ := src_deme_select_pairs_members E _ _ r1 h1
        have hm1 : r1.2.mut_rate_ = d.mut_rate_ := hm
        have hg1 : r1.2.generator_ = d.generator_.skip (2 * (d.pop_.length / 2)) := hg
        have hlen1 := (src_deme_select_pairs_spec E _ _ r1 h1).1
        have hlen2 := mutate_pairs_length E fuel _ _ _ r2 h2
        have hlen3 := recombine_pairs_length fuel _ pop h3
        rw [hm1, hg1] at h2
        refine ⟨r1.1, r2.1, r1.2, h1, hlen1, hlen2, by simp only; rw [hlen3, hlen2], ?_, ?_⟩
        · intro k p hp
          obtain ⟨m, hmk, hmut1, hmut2⟩ := mutate_pairs_pointwise E fuel _ _ _ r2 h2 k p hp
          obtain ⟨c, hc, hc1, hc2⟩ := recombine_pairs_pointwise fuel _ pop h3 k m hmk
          obtain ⟨ha1, ha2⟩ := mutate_if_ok fuel _ _ _ _ hmut1
          obtain ⟨hb1, hb2⟩ := mutate_if_ok fuel _ _ _ _ hmut2
          exact ⟨m, c, hmk, ha1, ha2, hb1, hb2, hc, hc1, hc2⟩
        · intro hz hno
          exact mutate_pairs_none E fuel d.mut_rate_ (by rw [hz]; exact hno) _ _ r2 h2

/-- C14. Generation replacement in `src/src/deme.cc`: on tours of `[0, n)`, `n >= 2`,
whose generators hand out positions below `n` and end their redraw loops, and with draws
for which every selection succeeds, `compute_next_generation` returns once the fuel is
large enough; and whenever it returns, the selection has given `m = floor(N / 2)` parent
pairs and the new population is exactly the `2 m` children `a_1, b_1, ..., a_m, b_m`:
`(a_k, b_k)` is what `recombine` returns on pair `k` after each of its parents was
mutated if its own draw, taken after the selection draws, was below `mut_rate_` and left
as it was if not; with `mut_rate_` zero and no draw below zero, no parent is mutated. -/
theorem generation_replacement {α : Type} [Zero α] [One α] [Add α] [Sub α] [LT α]
    [DecidableRel (LT.lt : α → α → Prop)] (E : Env α) (n : Nat) (d : SrcDeme α)
    (hn : 2 ≤ n) (hd : ∀ c ∈ d.pop_, Ready n c)
    (hsel : ∃ x, SrcDeme.select_pairs E (d.pop_.length / 2) (d.start E) = .ok x) :
    (∃ d1 F, ∀ fuel, F ≤ fuel → d.compute_next_generation E fuel = .ok d1) ∧
    (∀ fuel d1, d.compute_next_generation E fuel = .ok d1 →
      ∃ (pairs mutated : List (Chromosome × Chromosome)) (ds : SrcDeme α),
        SrcDeme.select_pairs E (d.pop_.length / 2) (d.start E) = .ok (pairs, ds) ∧
        pairs.length = d.pop_.length / 2 ∧ mutated.length = pairs.length ∧
        d1.pop_.length = 2 * pairs.length ∧
        (∀ k p, pairs[k]? = some p → ∃ m c, mutated[k]? = some m ∧
          (E.uniform 0 (E.nextafter 1) (d.generator_ (2 * k + 2 * (d.pop_.length / 2)))
              < d.mut_rate_ → mutate fuel p.1 = .ok m.1) ∧
          (¬ E.uniform 0 (E.nextafter 1) (d.generator_ (2 * k + 2 * (d.pop_.length / 2)))
              < d.mut_rate_ → m.1 = p.1) ∧
          (E.uniform 0 (E.nextafter 1)
              (d.generator_ (2 * k + 1 + 2 * (d.pop_.length / 2)))
              < d.mut_rate_ → mutate fuel p.2 = .ok m.2) ∧
          (¬ E.uniform 0 (E.nextafter 1)
              (d.generator_ (2 * k + 1 + 2 * (d.pop_.length / 2)))
              < d.mut_rate_ → m.2 = p.2) ∧
          recombine fuel m.1 m.2 = .ok c ∧
          d1.pop_[2 * k]? = some c.1 ∧ d1.pop_[2 * k + 1]? = some c.2) ∧
        (d.mut_rate_ = 0 → (∀ u, ¬ E.uniform 0 (E.nextafter 1) u < 0) →
          mutated = pairs)) := by
  obtain ⟨x, hx⟩ := hsel
  obtain ⟨d1, -, F, hF⟩ := src_deme_next_generation_returns E n d (by omega) hd x hx
  exact ⟨⟨d1, F, hF⟩, fun fuel d2 h => src_deme_next_generation_shape E fuel d d2 h⟩

/-- Fitnesses 1, 5, 1, every draw of the deme 0 and `mut_rate_` 1: with fuel 5 one pair
is selected, both parents are mutated, and the two children are the new population. -/
theorem generation_replacement_witness :
    ((∃ d1 F, ∀ fuel, F ≤ fuel →
        (src_deme_int 0).compute_next_generation env_int fuel = .ok d1) ∧
    (∀ fuel d1, (src_deme_int 0).compute_next_generation env_int fuel = .ok d1 →
      ∃ (pairs mutated : List (Chromosome × Chromosome)) (ds : SrcDeme Int),
        SrcDeme.select_pairs env_int ((src_deme_int 0).pop_.length / 2) ((src_deme_int 0).start env_int) = .ok (pairs, ds) ∧
        pairs.length = (src_deme_int 0).pop_.length / 2 ∧ mutated.length = pairs.length ∧
        d1.pop_.length = 2 * pairs.length ∧
        (∀ k p, pairs[k]? = some p → ∃ m c, mutated[k]? = some m ∧
          (env_int.uniform 0 (env_int.nextafter 1) ((src_deme_int 0).generator_ (2 * k + 2 * ((src_deme_int 0).pop_.length / 2)))
              < (src_deme_int 0).mut_rate_ → mutate fuel p.1 = .ok m.1) ∧
          (¬ env_int.uniform 0 (env_int.nextafter 1) ((src_deme_int 0).generator_ (2 * k + 2 * ((src_deme_int 0).pop_.length / 2)))
              < (src_deme_int 0).mut_rate_ → m.1 = p.1) ∧
          (env_int.uniform 0 (env_int.nextafter 1)
              ((src_deme_int 0).generator_ (2 * k + 1 + 2 * ((src_deme_int 0).pop_.length / 2)))
              < (src_deme_int 0).mut_rate_ → mutate fuel p.2 = .ok m.2) ∧
          (¬ env_int.uniform 0 (env_int.nextafter 1)
              ((src_deme_int 0).generator_ (2 * k + 1 + 2 * ((src_deme_int 0).pop_.length / 2)))
              < (src_deme_int 0).mut_rate_ → m.2 = p.2) ∧
          recombine fuel m.1 m.2 = .ok c ∧
          d1.pop_[2 * k]? = some c.1 ∧ d1.pop_[2 * k + 1]? = some c.2) ∧
        ((src_deme_int 0).mut_rate_ = 0 → (∀ u, ¬ env_int.uniform 0 (env_int.nextafter 1) u < 0) →
          mutated = pairs))) ∧
    (src_deme_int 0).compute_next_generation env_int 5 = .ok next_src_deme_int :=
  ⟨generation_replacement env_int 5 (src_deme_int 0) (by decide) ready_pop_int ⟨_, rfl⟩, rfl⟩

/-! ## Tours stay tours -/

theorem assert_valid_ok (l : List Nat) (u : Unit) (h : assert_valid l = .ok u) :
    IsTour l.length l := by
  unfold assert_valid at h
  cases hv : is_valid l with
  | error f => rw [hv] at h; simp at h
  | ok r =>
    cases r with
    | false => rw [hv] at h; simp at h
    | true => exact tour_of_is_valid l hv

theorem skip_in_range_ge (p1 : List Nat) (b e : Nat) :
    ∀ (l : List Nat) (j j1 : Nat), skip_in_range p1 b e l j = .ok j1 → j ≤ j1 := by
  intro l
  induction l with
  | nil => intro j j1 h; simp [skip_in_range] at h
  | cons c rest ih =>
    intro j j1 h
    unfold skip_in_range at h
    cases hr : is_in_range p1 c b e with
    | error f => rw [hr] at h; simp at h
    | ok r =>
      cases r with
      | true =>
        rw [hr] at h
        simp only at h
        exact le_trans (Nat.le_succ j) (ih (j + 1) j1 h)
      | false =>
        rw [hr] at h
        simp only at h
        injection h with h
        omega

theorem crossover_loop_length (p1 p2 : List Nat) (b e : Nat) :
    ∀ (k i j : Nat) (child r : List Nat),
      crossover_loop p1 p2 b e k i j child = .ok r → r.length = child.length := by
  intro k
  induction k with
  | zero =>
    intro i j child r h
    simp only [crossover_loop] at h
    injection h with h
    rw [h]
  | succ k ih =>
    intro i j child r h
    unfold crossover_loop at h
    by_cases hj : j < p2.length
    · rw [if_pos hj] at h
      by_cases hw : b ≤ i ∧ i < e
      · rw [if_pos hw] at h
        cases h1 : p1[i]? with
        | none => rw [h1] at h; simp at h
        | some c =>
          rw [h1] at h
          simp only at h
          rw [ih _ _ _ _ h, List.length_set]
      · rw [if_neg hw] at h
        cases h1 : skip_in_range p1 b e (p2.drop j) j with
        | error f => rw [h1] at h; simp at h
        | ok j1 =>
          rw [h1] at h
          simp only at h
          cases h2 : p2[j1]? with
          | none => rw [h2] at h; simp at h
          | some c =>
            rw [h2] at h
            simp only at h
            rw [ih _ _ _ _ h, List.length_set]
    · rw [if_neg hj] at h
      injection h with h
      rw [h]

/-- A child that `create_crossover_child` returns is a tour as long as its first parent. -/
theorem create_crossover_child_ok (p1 p2 c : Chromosome) (b e : Nat)
    (h : create_crossover_child p1 p2 b e = .ok c) : IsTour p1.order_.length c.order_ := by
  unfold create_crossover_child at h
  simp only [Chromosome.clone] at h
  cases h1 : crossover_loop p1.order_ p2.order_ b e p1.order_.length 0 0 p1.order_ with
  | error f => rw [h1] at h; simp at h
  | ok order1 =>
    rw [h1] at h
    simp only at h
    cases h2 : assert_valid order1 with
    | error f => rw [h2] at h; simp at h
    | ok u =>
      rw [h2] at h
      simp only at h
      injection h with h
      subst h
      simp only
      have := assert_valid_ok order1 u h2
      rwa [crossover_loop_length _ _ _ _ _ _ _ _ _ h1] at this

/-- A chromosome that `mutate` returns is a tour as long as the one it was given. -/
theorem mutate_ok (fuel : Nat) (c c1 : Chromosome) (h : mutate fuel c = .ok c1) :
    IsTour c.order_.length c1.order_ := by
  unfold mutate at h
  cases h1 : two_random_cities fuel c.generator_ with
  | error f => rw [h1] at h; simp at h
  | ok r =>
    rw [h1] at h
    simp only at h
    cases h2 : iter_swap c.order_ r.1.1 r.1.2 with
    | error f => rw [h2] at h; simp at h
    | ok order1 =>
      rw [h2] at h
      simp only at h
      cases h3 : assert_valid order1 with
      | error f => rw [h3] at h; simp at h
      | ok u =>
        rw [h3] at h
        simp only at h
        injection h with h
        subst h
        simp only
        have hlen : order1.length = c.order_.length := by
          unfold iter_swap at h2
          cases hp : c.order_[r.1.1]? with
          | none => rw [hp] at h2; simp at h2
          | some x =>
            cases hq : c.order_[r.1.2]? with
            | none => rw [hp, hq] at h2; simp at h2
            | some y =>
              rw [hp, hq] at h2
              simp only at h2
              injection h2 with h2
              rw [← h2, List.length_set, List.length_set]
        have := assert_valid_ok order1 u h3
        rwa [hlen] at this

/-- The children that `recombine` returns are tours as long as their parents. -/
theorem recombine_ok (fuel : Nat) (this other : Chromosome) (p : Chromosome × Chromosome)
    (h : recombine fuel this other = .ok p) :
    IsTour this.order_.length p.1.order_ ∧ IsTour other.order_.length p.2.order_ := by
  unfold recombine at h
  cases h1 : assert_valid this.order_ with
  | error f => rw [h1] at h; simp at h
  | ok u1 =>
    rw [h1] at h
    simp only at h
    cases h2 : assert_valid other.order_ with
    | error f => rw [h2] at h; simp at h
    | ok u2 =>
      rw [h2] at h
      simp only at h
      cases h3 : two_random_cities fuel this.generator_ with
      | error f => rw [h3] at h; simp at h
      | ok r =>
        rw [h3] at h
        simp only at h
        cases h4 : create_crossover_child { order_ := this.order_, generator_ := r.2 } other
            r.1.1 r.1.2 with
        | error f => rw [h4] at h; simp at h
        | ok first =>
          rw [h4] at h
          simp only at h
          cases h5 : create_crossover_child other { order_ := this.order_, generator_ := r.2 }
              r.1.1 r.1.2 with
          | error f => rw [h5] at h; simp at h
          | ok second =>
            rw [h5] at h
            simp only at h
            injection h with h
            subst h
            exact ⟨create_crossover_child_ok { order_ := this.order_, generator_ := r.2 } other
              first _ _ h4, create_crossover_child_ok _ _ _ _ _ h5⟩

theorem mutate_pairs_tours {α : Type} [Zero α] [One α] [LT α]
    [DecidableRel (LT.lt : α → α → Prop)] (E : Env α) (n fuel : Nat) (mut_rate : α)
    (pairs : List (Chromosome × Chromosome)) (g : Gen α)
    (res : List (Chromosome × Chromosome) × Gen α)
    (hp : ∀ p ∈ pairs, IsTour n p.1.order_ ∧ IsTour n p.2.order_)
    (h : mutate_pairs E fuel mut_rate pairs g = .ok res) :
    ∀ p ∈ res.1, IsTour n p.1.order_ ∧ IsTour n p.2.order_ := by
  intro p hmem
  obtain ⟨k, hk⟩ := List.mem_iff_getElem?.mp hmem
  have hlen := mutate_pairs_length E fuel mut_rate pairs g res h
  have hklt : k < pairs.length := by
    rw [← hlen]; exact (List.getElem?_eq_some_iff.mp hk).1
  obtain ⟨m, hm, h1, h2⟩ :=
    mutate_pairs_pointwise E fuel mut_rate pairs g res h k pairs[k]
      (List.getElem?_eq_getElem hklt)
  rw [hk] at hm
  injection hm with hm
  subst hm
  obtain ⟨t1, t2⟩ := hp pairs[k] (List.getElem_mem hklt)
  obtain ⟨a1, a2⟩ := mutate_if_ok fuel _ _ _ _ h1
  obtain ⟨b1, b2⟩ := mutate_if_ok fuel _ _ _ _ h2
  constructor
  · by_cases hr : E.uniform 0 (E.nextafter 1) (g (2 * k)) < mut_rate
    · have := mutate_ok fuel _ _ (a1 hr)
      rwa [tour_length n _ t1] at this
    · rw [a2 hr]; exact t1
  · by_cases hr : E.uniform 0 (E.nextafter 1) (g (2 * k + 1)) < mut_rate
    · have := mutate_ok fuel _ _ (b1 hr)
      rwa [tour_length n _ t2] at this
    · rw [b2 hr]; exact t2

theorem recombine_pairs_tours (n fuel : Nat) (pairs : List (Chromosome × Chromosome))
    (pop : List Chromosome)
    (hp : ∀ p ∈ pairs, IsTour n p.1.order_ ∧ IsTour n p.2.order_)
    (h : recombine_pairs fuel pairs = .ok pop) : ∀ c ∈ pop, IsTour n c.order_ := by
  intro c hmem
  obtain ⟨j, hj⟩ := List.mem_iff_getElem?.mp hmem
  have hlen := recombine_pairs_length fuel pairs pop h
  have hjlt : j < pop.length := (List.getElem?_eq_some_iff.mp hj).1
  have hklt : j / 2 < pairs.length := by omega
  obtain ⟨ch, hch, h1, h2⟩ :=
    recombine_pairs_pointwise fuel pairs pop h (j / 2) pairs[j / 2]
      (List.getElem?_eq_getElem hklt)
  obtain ⟨t1, t2⟩ := hp pairs[j / 2] (List.getElem_mem hklt)
  obtain ⟨r1, r2⟩ := recombine_ok fuel _ _ ch hch
  rw [tour_length n _ t1] at r1
  rw [tour_length n _ t2] at r2
  rcases Nat.mod_two_eq_zero_or_one j with hpar | hpar
  · rw [show 2 * (j / 2) = j by omega, hj] at h1
    injection h1 with h1
    rw [h1]; exact r1
  · rw [show 2 * (j / 2) + 1 = j by omega, hj] at h2
    injection h2 with h2
    rw [h2]; exact r2

/-- Whenever `compute_next_generation` of `src/src/deme.cc` returns on tours, it
returns tours. -/
theorem src_deme_next_generation_tours {α : Type} [Zero α] [One α] [Add α] [Sub α] [LT α]
    [DecidableRel (LT.lt : α → α → Prop)] (E : Env α) (n fuel : Nat) (s s1 : SrcDeme α)
    (hs : ∀ c ∈ s.pop_, IsTour n c.order_)
    (h : s.compute_next_generation E fuel = .ok s1) : ∀ c ∈ s1.pop_, IsTour n c.order_ := by
  unfold SrcDeme.compute_next_generation at h
  simp only at h
  cases h1 : SrcDeme.select_pairs E (s.pop_.length / 2)
      { s with fitness_sum_ := sum_fitness E 0 s.pop_ } with
  | error f => rw [h1] at h; simp at h
  | ok r1 =>
    rw [h1] at h
    simp only at h
    cases h2 : mutate_pairs E fuel r1.2.mut_rate_ r1.1 r1.2.generator_ with
    | error f => rw [h2] at h; simp at h
    | ok r2 =>
      rw [h2] at h
      simp only at h
      cases h3 : recombine_pairs fuel r2.1 with
      | error f => rw [h3] at h; simp at h
      | ok pop =>
        rw [h3] at h
        simp only at h
        injection h with h
        subst h
        have hmem := (src_deme_select_pairs_spec E _ _ r1 h1).2
        have ht1 : ∀ p ∈ r1.1, IsTour n p.1.order_ ∧ IsTour n p.2.order_ :=
          fun p hp => ⟨hs _ (hmem p hp).1, hs _ (hmem p hp).2⟩
        exact recombine_pairs_tours n fuel r2.1 pop
          (mutate_pairs_tours E n fuel _ _ _ r2 ht1 h2) h3

/-! ## Claims on the population invariant -/

/-- C15. Population-level permutation invariant: if every tour of the population is a
permutation of `[0, n)`, `n >= 2`, then whenever `compute_next_generation` of
`src/src/deme.cc` returns, every tour of the new population is a permutation of
`[0, n)`; and it does return, with such a population, once the fuel is large enough,
when every selection succeeds and the generators of the chromosomes hand out positions
below `n` whose redraw loops end. -/
theorem population_stays_permutations {α : Type} [Zero α] [One α] [Add α] [Sub α] [LT α]
    [DecidableRel (LT.lt : α → α → Prop)] (E : Env α) (n : Nat) (s : SrcDeme α)
    (hn : 2 ≤ n) (hs : ∀ c ∈ s.pop_, IsTour n c.order_) :
    (∀ fuel s1, s.compute_next_generation E fuel = .ok s1 →
        ∀ c ∈ s1.pop_, IsTour n c.order_) ∧
      ((∀ c ∈ s.pop_, Ready n c) →
        (∃ x, SrcDeme.select_pairs E (s.pop_.length / 2) (s.start E) = .ok x) →
        ∃ s1 F, (∀ fuel, F ≤ fuel → s.compute_next_generation E fuel = .ok s1) ∧
          ∀ c ∈ s1.pop_, IsTour n c.order_) := by
  refine ⟨fun fuel s1 h => src_deme_next_generation_tours E n fuel s s1 hs h, ?_⟩
  rintro hr ⟨x, hx⟩
  obtain ⟨s1, ht, F, hF⟩ := src_deme_next_generation_returns E n s (by omega) hr x hx
  exact ⟨s1, F, hF, ht⟩

/-- Three tours of five cities, every draw of the deme 0. -/
theorem population_stays_permutations_witness :
    (∀ fuel s1, (src_deme_int 0).compute_next_generation env_int fuel = .ok s1 →
        ∀ c ∈ s1.pop_, IsTour 5 c.order_) ∧
      ((∀ c ∈ (src_deme_int 0).pop_, Ready 5 c) →
        (∃ x, SrcDeme.select_pairs env_int ((src_deme_int 0).pop_.length / 2)
          ((src_deme_int 0).start env_int) = .ok x) →
        ∃ s1 F, (∀ fuel, F ≤ fuel →
            (src_deme_int 0).compute_next_generation env_int fuel = .ok s1) ∧
          ∀ c ∈ s1.pop_, IsTour 5 c.order_) :=
  population_stays_permutations env_int 5 (src_deme_int 0) (by decide)
    (fun c hc => (ready_pop_int c hc).1)

/-! ## The two ways of keeping the total, under exact arithmetic -/

theorem draw_agree {α : Type} [AddCommGroup α] (E : Env α) (s : SrcDeme α)
    (hc : s.fitness_sum_ = sum_fitness E 0 s.pop_) : s.toDeme.draw E = s.draw E := by
  unfold Deme.draw SrcDeme.draw SrcDeme.toDeme
  simp only
  rw [hc]

theorem take_parent_agree {α : Type} [AddCommGroup α] [LT α]
    [DecidableRel (LT.lt : α → α → Prop)] (E : Env α) (s : SrcDeme α)
    (hc : s.fitness_sum_ = sum_fitness E 0 s.pop_) (r : Chromosome × SrcDeme α)
    (h : s.take_parent E = .ok r) : s.toDeme.take_parent E = .ok (r.1, r.2.toDeme) := by
  obtain ⟨i, parent, hw, hp, hr⟩ := (src_deme_take_parent_iff E s r).mp h
  rw [deme_take_parent_iff]
  refine ⟨i, parent, by rw [draw_agree E s hc]; exact hw, hp, ?_⟩
  rw [hr]
  rfl

theorem take_parent_agree_back {α : Type} [AddCommGroup α] [LT α]
    [DecidableRel (LT.lt : α → α → Prop)] (E : Env α) (s : SrcDeme α)
    (hc : s.fitness_sum_ = sum_fitness E 0 s.pop_) (x : Chromosome × Deme α)
    (h : s.toDeme.take_parent E = .ok x) :
    ∃ r, s.take_parent E = .ok r ∧ x = (r.1, r.2.toDeme) := by
  obtain ⟨i, parent, hw, hp, hx⟩ := (deme_take_parent_iff E s.toDeme x).mp h
  rw [draw_agree E s hc] at hw
  refine ⟨(parent, { pop_ := s.pop_.eraseIdx i, mut_rate_ := s.mut_rate_,
                     generator_ := s.generator_.advance,
                     fitness_sum_ := s.fitness_sum_ - E.get_fitness parent.order_ }), ?_, ?_⟩
  · rw [src_deme_take_parent_iff]
    exact ⟨i, parent, hw, hp, rfl⟩
  · rw [hx]
    rfl

theorem select_pairs_agree {α : Type} [AddCommGroup α] [LT α]
    [DecidableRel (LT.lt : α → α → Prop)] (E : Env α) :
    ∀ (k : Nat) (s : SrcDeme α) (y : List (Chromosome × Chromosome) × SrcDeme α),
      s.fitness_sum_ = sum_fitness E 0 s.pop_ → SrcDeme.select_pairs E k s = .ok y →
      Deme.select_pairs E k s.toDeme = .ok (y.1, y.2.toDeme) := by
  intro k
  induction k with
  | zero =>
    intro s y _ h
    simp only [SrcDeme.select_pairs] at h
    injection h with h
    subst h
    rfl
  | succ k ih =>
    intro s y hc h
    unfold SrcDeme.select_pairs at h
    cases h1 : s.take_parent E with
    | error f => rw [h1] at h; simp at h
    | ok r1 =>
      rw [h1] at h
      simp only at h
      cases h2 : r1.2.take_parent E with
      | error f => rw [h2] at h; simp at h
      | ok r2 =>
        rw [h2] at h
        simp only at h
        cases h3 : SrcDeme.select_pairs E k r2.2 with
        | error f => rw [h3] at h; simp at h
        | ok r3 =>
          rw [h3] at h
          simp only at h
          injection h with h
          subst h
          have hc1 := src_deme_take_parent_consistent E s r1 h1 hc
          have hc2 := src_deme_take_parent_consistent E r1.2 r2 h2 hc1
          unfold Deme.select_pairs
          rw [take_parent_agree E s hc r1 h1]
          simp only
          rw [take_parent_agree E r1.2 hc1 r2 h2]
          simp only
          rw [ih r2.2 r3 hc2 h3]

theorem select_pairs_agree_back {α : Type} [AddCommGroup α] [LT α]
    [DecidableRel (LT.lt : α → α → Prop)] (E : Env α) :
    ∀ (k : Nat) (s : SrcDeme α) (x : List (Chromosome × Chromosome) × Deme α),
      s.fitness_sum_ = sum_fitness E 0 s.pop_ → Deme.select_pairs E k s.toDeme = .ok x →
      ∃ y, SrcDeme.select_pairs E k s = .ok y ∧ x = (y.1, y.2.toDeme) := by
  intro k
  induction k with
  | zero =>
    intro s x _ h
    simp only [Deme.select_pairs] at h
    injection h with h
    subst h
    exact ⟨([], s), rfl, rfl⟩
  | succ k ih =>
    intro s x hc h
    unfold Deme.select_pairs at h
    cases h1 : s.toDeme.take_parent E with
    | error f => rw [h1] at h; simp at h
    | ok x1 =>
      rw [h1] at h
      simp only at h
      obtain ⟨r1, hr1, hx1⟩ := take_parent_agree_back E s hc x1 h1
      subst hx1
      simp only at h
      have hc1 := src_deme_take_parent_consistent E s r1 hr1 hc
      cases h2 : r1.2.toDeme.take_parent E with
      | error f => rw [h2] at h; simp at h
      | ok x2 =>
        rw [h2] at h
        simp only at h
        obtain ⟨r2, hr2, hx2⟩ := take_parent_agree_back E r1.2 hc1 x2 h2
        subst hx2
        simp only at h
        have hc2 := src_deme_take_parent_consistent E r1.2 r2 hr2 hc1
        cases h3 : Deme.select_pairs E k r2.2.toDeme with
        | error f => rw [h3] at h; simp at h
        | ok x3 =>
          rw [h3] at h
          simp only at h
          injection h with h
          subst h
          obtain ⟨y3, hy3, hx3⟩ := ih r2.2 x3 hc2 h3
          subst hx3
          refine ⟨((r1.1, r2.1) :: y3.1, y3.2), ?_, rfl⟩
          unfold SrcDeme.select_pairs
          rw [hr1]
          simp only
          rw [hr2]
          simp only
          rw [hy3]

theorem next_generation_agree {α : Type} [AddCommGroup α] [One α] [LT α]
    [DecidableRel (LT.lt : α → α → Prop)] (E : Env α) (fuel : Nat) (s s1 : SrcDeme α)
    (h : s.compute_next_generation E fuel = .ok s1) :
    s.toDeme.compute_next_generation E fuel = .ok s1.toDeme := by
  unfold SrcDeme.compute_next_generation at h
  simp only at h
  cases h1 : SrcDeme.select_pairs E (s.pop_.length / 2)
      { s with fitness_sum_ := sum_fitness E 0 s.pop_ } with
  | error f => rw [h1] at h; simp at h
  | ok r1 =>
    rw [h1] at h
    simp only at h
    cases h2 : mutate_pairs E fuel r1.2.mut_rate_ r1.1 r1.2.generator_ with
    | error f => rw [h2] at h; simp at h
    | ok r2 =>
      rw [h2] at h
      simp only at h
      cases h3 : recombine_pairs fuel r2.1 with
      | error f => rw [h3] at h; simp at h
      | ok pop =>
        rw [h3] at h
        simp only at h
        injection h with h
        subst h
        have hsel := select_pairs_agree E (s.pop_.length / 2)
          { s with fitness_sum_ := sum_fitness E 0 s.pop_ } r1 rfl h1
        unfold Deme.compute_next_generation
        simp only
        have hpop : s.toDeme.pop_ = s.pop_ := rfl
        rw [hpop]
        have hto : ({ s with fitness_sum_ := sum_fitness E 0 s.pop_ } : SrcDeme α).toDeme
            = s.toDeme := rfl
        rw [hto] at hsel
        rw [hsel]
        simp only
        have hm : r1.2.toDeme.mut_rate_ = r1.2.mut_rate_ := rfl
        have hg : r1.2.toDeme.generator_ = r1.2.generator_ := rfl
        rw [hm, hg, h2]
        simp only
        rw [h3]
        rfl

theorem next_generation_agree_back {α : Type} [AddCommGroup α] [One α] [LT α]
    [DecidableRel (LT.lt : α → α → Prop)] (E : Env α) (fuel : Nat) (s : SrcDeme α)
    (d1 : Deme α) (h : s.toDeme.compute_next_generation E fuel = .ok d1) :
    ∃ s1, s.compute_next_generation E fuel = .ok s1 ∧ d1 = s1.toDeme := by
  unfold Deme.compute_next_generation at h
  simp only at h
  have hpop : s.toDeme.pop_ = s.pop_ := rfl
  rw [hpop] at h
  cases h1 : Deme.select_pairs E (s.pop_.length / 2) s.toDeme with
  | error f => rw [h1] at h; simp at h
  | ok x1 =>
    rw [h1] at h
    simp only at h
    obtain ⟨y1, hy1, hx1⟩ := select_pairs_agree_back E (s.pop_.length / 2)
      { s with fitness_sum_ := sum_fitness E 0 s.pop_ } x1 rfl h1
    subst hx1
    simp only at h
    have hm : y1.2.toDeme.mut_rate_ = y1.2.mut_rate_ := rfl
    have hg : y1.2.toDeme.generator_ = y1.2.generator_ := rfl
    rw [hm, hg] at h
    cases h2 : mutate_pairs E fuel y1.2.mut_rate_ y1.1 y1.2.generator_ with
    | error f => rw [h2] at h; simp at h
    | ok r2 =>
      rw [h2] at h
      simp only at h
      cases h3 : recombine_pairs fuel r2.1 with
      | error f => rw [h3] at h; simp at h
      | ok pop =>
        rw [h3] at h
        simp only at h
        injection h with h
        subst h
        refine ⟨{ y1.2 with pop_ := pop, generator_ := r2.2 }, ?_, rfl⟩
        unfold SrcDeme.compute_next_generation
        simp only
        rw [hy1]
        simp only
        rw [h2]
        simp only
        rw [h3]

/-! ## Claims on the two fitness-sum strategies -/

/-- C16. The two fitness-sum strategies are equivalent: under exact arithmetic, on the
same population, mutation rate and generator, the selection loop of `src/deme.cc`
succeeds exactly when that of `src/src/deme.cc` does, with the same parent pairs in the
same order and the same pool left, and `compute_next_generation` of the one returns
exactly when that of the other does, with the same new population, mutation rate and
generator. -/
theorem fitness_sum_strategies_agree {α : Type} [AddCommGroup α] [One α] [LT α]
    [DecidableRel (LT.lt : α → α → Prop)] (E : Env α) (fuel : Nat) (s : SrcDeme α) :
    (∀ y, SrcDeme.select_pairs E (s.pop_.length / 2) (s.start E) = .ok y →
        Deme.select_pairs E (s.pop_.length / 2) s.toDeme = .ok (y.1, y.2.toDeme)) ∧
      (∀ x, Deme.select_pairs E (s.pop_.length / 2) s.toDeme = .ok x →
        ∃ y, SrcDeme.select_pairs E (s.pop_.length / 2) (s.start E) = .ok y ∧
          x = (y.1, y.2.toDeme)) ∧
      (∀ s1, s.compute_next_generation E fuel = .ok s1 →
        s.toDeme.compute_next_generation E fuel = .ok s1.toDeme) ∧
      (∀ d1, s.toDeme.compute_next_generation E fuel = .ok d1 →
        ∃ s1, s.compute_next_generation E fuel = .ok s1 ∧ d1 = s1.toDeme) :=
  ⟨fun y hy => select_pairs_agree E _ (s.start E) y rfl hy,
    fun x hx => select_pairs_agree_back E _ (s.start E) x rfl hx,
    fun s1 h => next_generation_agree E fuel s s1 h,
    fun d1 h => next_generation_agree_back E fuel s d1 h⟩

end TSP
